import Mathlib

set_option linter.unusedSectionVars false

/-!
Active layers: the adaptive penalty-layer scheduler.

A shallow embedding of `ActiveLayers.cpp` and `PenaltyGroup.cpp`.

Modelling conventions.

* `double` values live in an arbitrary linearly ordered field `K` (exact
  arithmetic); every definition is computable, and runs on `K = ℚ`.
* `int` counters (depths, step counters, vertex indices) are natural numbers.
* A `PenaltyGroup *` is the index of the group in `groups_`.
* `std::map<Stencil, int>` is a partial function `Stencil → Option ℕ`.
* `std::set<T>` is a list of its elements in iteration order.
* `Eigen::VectorXd` is a `List K`; a read outside the vector yields `0` and a
  write outside the vector is dropped (both are undefined in C++).
* `exit(0)` is the outcome `abort`.
* The collision oracle (broad phase, narrow phase), the force law and `sqrt`
  are parameters.  The trajectory log `history_` is write-only for the code
  embedded here and is not represented.
-/

namespace ActiveLayers

/-! ## Stencils -/

/-- Vertex-face stencil: vertex `p` against the face `q0 q1 q2`. -/
structure VertexFaceStencil where
  p : Nat
  q0 : Nat
  q1 : Nat
  q2 : Nat
deriving DecidableEq, Repr

/-- Edge-edge stencil: edge `p0 p1` against edge `q0 q1`. -/
structure EdgeEdgeStencil where
  p0 : Nat
  p1 : Nat
  q0 : Nat
  q1 : Nat
deriving DecidableEq, Repr

/-! ## Penalty groups (`PenaltyGroup.cpp`) -/

/-- One layer.  The constructor call in `ActiveLayers::addGroups` passes
`(dt, eta, innerEta, stiffness, CoR)`; `vfforces_` / `eeforces_` hold one
potential per registered stencil, identified here with the stencil. -/
structure PenaltyGroup (K : Type) where
  nextstep_ : Nat
  dt_ : K
  eta_ : K
  innerEta_ : K
  stiffness_ : K
  CoR_ : K
  vfforces_ : List VertexFaceStencil
  eeforces_ : List EdgeEdgeStencil

/-- Result of one call that may hit `exit(0)`, dereference a pointer that is
not a group, or (for the fuelled loops) run out of fuel. -/
inductive Outcome (α : Type) where
  | ok : α → Outcome α
  | abort : Outcome α
  | undefined : Outcome α
  | timeout : Outcome α

/-- The per-degree-of-freedom arrays of `SimulationState`. -/
structure SimulationState (K : Type) where
  q : List K
  v : List K
  minv : List K
  lastUpdateTime : List K

/-- What the two `ActiveLayers` collaborators answer in one call of
`collisionDetection`: `findCollisionCandidates margin` is the broad phase run
on the current trajectory log, `findCollisions etavfs etaees t0` the narrow
phase, given the initial value `t0` of its in/out argument `earliestTime`. -/
structure CollisionOracle (K : Type) where
  findCollisionCandidates : K → List VertexFaceStencil × List EdgeEdgeStencil
  findCollisions : List (VertexFaceStencil × K) → List (EdgeEdgeStencil × K) → K →
    List VertexFaceStencil × List EdgeEdgeStencil × K

/-- The orchestrator's members. -/
structure State (K : Type) where
  outerEta_ : K
  innerEta_ : K
  baseDt_ : K
  baseStiffness_ : K
  termTime_ : K
  CoR_ : K
  deepestLayer_ : Nat
  earliestTime_ : K
  groups_ : List (PenaltyGroup K)
  groupQueue_ : List Nat
  vfdepth_ : VertexFaceStencil → Option Nat
  eedepth_ : EdgeEdgeStencil → Option Nat

/-- The step function's three ways out: `exit(0)`, `return false` after a
firing event, `return true` after the final extrapolation. -/
inductive StepResult (K : Type) where
  | abort : StepResult K
  | undefined : StepResult K
  | fired : State K → SimulationState K → StepResult K
  | done : State K → SimulationState K → StepResult K

namespace PenaltyGroup

variable {K : Type}

/-- `PenaltyGroup::addVFStencil`: `vfforces_.push_back(...)`. -/
def addVFStencil (g : PenaltyGroup K) (vfstencil : VertexFaceStencil) : PenaltyGroup K :=
  { g with vfforces_ := g.vfforces_ ++ [vfstencil] }

/-- `PenaltyGroup::addEEStencil`: `eeforces_.push_back(...)`. -/
def addEEStencil (g : PenaltyGroup K) (eestencil : EdgeEdgeStencil) : PenaltyGroup K :=
  { g with eeforces_ := g.eeforces_ ++ [eestencil] }

/-- `PenaltyGroup::incrementTimeStep`. -/
def incrementTimeStep (g : PenaltyGroup K) : PenaltyGroup K :=
  { g with nextstep_ := g.nextstep_ + 1 }

/-- `PenaltyGroup::nextFireTime`: `nextstep_ * dt_`. -/
def nextFireTime [Field K] (g : PenaltyGroup K) : K :=
  (g.nextstep_ : K) * g.dt_

/-- `PenaltyGroup::rollback`. -/
def rollback (g : PenaltyGroup K) : PenaltyGroup K :=
  { g with nextstep_ := 0 }

/-- Modelled from the spec: `PenaltyGroup::getGroupStencil` is not in
`PenaltyGroup.cpp`; the spec calls it "every vertex touched by the popped
group's stencils".  A `std::set<int>`, so each vertex occurs once. -/
def getGroupStencil (g : PenaltyGroup K) : List Nat :=
  ((g.vfforces_.flatMap fun s => [s.p, s.q0, s.q1, s.q2]) ++
    (g.eeforces_.flatMap fun s => [s.p0, s.p1, s.q0, s.q1])).dedup

end PenaltyGroup

section Orchestrator

variable {K : Type} [LinearOrderedField K]

/-- Constructor `ActiveLayers::ActiveLayers`. -/
def new (outerEta innerEta baseDt baseStiffness terminationTime CoR : K) : State K :=
  { outerEta_ := outerEta, innerEta_ := innerEta, baseDt_ := baseDt,
    baseStiffness_ := baseStiffness, termTime_ := terminationTime, CoR_ := CoR,
    deepestLayer_ := 0, earliestTime_ := 0, groups_ := [], groupQueue_ := [],
    vfdepth_ := fun _ => none, eedepth_ := fun _ => none }

/-- `ActiveLayers::layerDepth`. -/
def layerDepth (a : State K) (layer : Nat) : K :=
  a.innerEta_ + (a.outerEta_ - a.innerEta_) / (layer : K)

/-- Body of the `while` loop of `ActiveLayers::addGroups`; `sqrt` is the
library square root. -/
def addOneGroup (sqrt : K → K) (a : State K) : State K :=
  let depth := a.deepestLayer_ + 1
  let fudge : K := 1 / 10000
  let ki := a.baseStiffness_ * depth * depth * depth
  let etai := layerDepth a depth
  let dti := a.baseDt_ / (depth : K) / sqrt ((depth : K) + fudge)
  let newgroup : PenaltyGroup K :=
    { nextstep_ := 0, dt_ := dti, eta_ := etai, innerEta_ := a.innerEta_,
      stiffness_ := ki, CoR_ := a.CoR_, vfforces_ := [], eeforces_ := [] }
  { a with groups_ := a.groups_ ++ [newgroup],
           groupQueue_ := a.groupQueue_ ++ [a.groups_.length],
           deepestLayer_ := a.deepestLayer_ + 1 }

/-- The `while(deepestLayer_ < maxdepth)` loop, at most `fuel` rounds. -/
def addGroupsLoop (sqrt : K → K) (maxdepth : Nat) : Nat → State K → State K
  | 0, a => a
  | fuel + 1, a =>
    if a.deepestLayer_ < maxdepth then addGroupsLoop sqrt maxdepth fuel (addOneGroup sqrt a)
    else a

/-- `ActiveLayers::addGroups`; the loop runs `maxdepth - deepestLayer_` rounds. -/
def addGroups (sqrt : K → K) (a : State K) (maxdepth : Nat) : State K :=
  addGroupsLoop sqrt maxdepth (maxdepth - a.deepestLayer_) a

/-- `vfdepth_[stencil]` read through `operator[]`: an absent key is inserted
with value `0`. -/
def vfdepthIndex (a : State K) (stencil : VertexFaceStencil) : State K × Nat :=
  match a.vfdepth_ stencil with
  | some d => (a, d)
  | none => ({ a with vfdepth_ := fun s => if s = stencil then some 0 else a.vfdepth_ s }, 0)

/-- `eedepth_[stencil]` read through `operator[]`. -/
def eedepthIndex (a : State K) (stencil : EdgeEdgeStencil) : State K × Nat :=
  match a.eedepth_ stencil with
  | some d => (a, d)
  | none => ({ a with eedepth_ := fun s => if s = stencil then some 0 else a.eedepth_ s }, 0)

/-- `groups_[i]->addVFStencil(stencil)`. -/
def groupAddVF (a : State K) (i : Nat) (stencil : VertexFaceStencil) : State K :=
  match a.groups_[i]? with
  | some g => { a with groups_ := a.groups_.set i (g.addVFStencil stencil) }
  | none => a

/-- `groups_[i]->addEEStencil(stencil)`. -/
def groupAddEE (a : State K) (i : Nat) (stencil : EdgeEdgeStencil) : State K :=
  match a.groups_[i]? with
  | some g => { a with groups_ := a.groups_.set i (g.addEEStencil stencil) }
  | none => a

/-- One round `i` of the `for` loop of `ActiveLayers::addVFStencil`. -/
def addVFStencilRound (sqrt : K → K) (stencil : VertexFaceStencil) (olddepth : Nat)
    (a : State K) (i : Nat) : State K :=
  let a1 := addGroups sqrt a (olddepth + i + 1)
  let a2 := groupAddVF a1 (olddepth + i) stencil
  let (a3, d) := vfdepthIndex a2 stencil
  { a3 with vfdepth_ := fun s => if s = stencil then some (d + 1) else a3.vfdepth_ s }

/-- `ActiveLayers::addVFStencil`. -/
def addVFStencil (sqrt : K → K) (a : State K) (stencil : VertexFaceStencil) : State K :=
  let (a0, olddepth) := vfdepthIndex a stencil
  (List.range 5).foldl (addVFStencilRound sqrt stencil olddepth) a0

/-- One round `i` of the `for` loop of `ActiveLayers::addEEStencil`. -/
def addEEStencilRound (sqrt : K → K) (stencil : EdgeEdgeStencil) (olddepth : Nat)
    (a : State K) (i : Nat) : State K :=
  let a1 := addGroups sqrt a (olddepth + i + 1)
  let a2 := groupAddEE a1 (olddepth + i) stencil
  let (a3, d) := eedepthIndex a2 stencil
  { a3 with eedepth_ := fun s => if s = stencil then some (d + 1) else a3.eedepth_ s }

/-- `ActiveLayers::addEEStencil`. -/
def addEEStencil (sqrt : K → K) (a : State K) (stencil : EdgeEdgeStencil) : State K :=
  let (a0, olddepth) := eedepthIndex a stencil
  (List.range 5).foldl (addEEStencilRound sqrt stencil olddepth) a0

/-! ### The event queue

`std::priority_queue<PenaltyGroup *, ..., PenaltyGroupComparator>`: `top` is an
element that no other element beats under the comparator.  Among elements with
equal fire time the earliest in the list is taken; `push` appends. -/

/-- Fire time of the group a queue entry points to. -/
def fireTimeAt (groups : List (PenaltyGroup K)) (gi : Nat) : K :=
  match groups[gi]? with
  | some g => g.nextFireTime
  | none => 0

/-- `PenaltyGroupComparator::operator()` on two queue entries:
`second->nextFireTime() < first->nextFireTime()`. -/
def PenaltyGroupComparator (groups : List (PenaltyGroup K)) (first second : Nat) : Bool :=
  decide (fireTimeAt groups second < fireTimeAt groups first)

/-- `groupQueue_.top()`: `none` on an empty queue. -/
def queueTop (groups : List (PenaltyGroup K)) : List Nat → Option Nat
  | [] => none
  | x :: xs =>
    match queueTop groups xs with
    | none => some x
    | some y => if PenaltyGroupComparator groups x y then some y else some x

/-- `groupQueue_.pop()` once `top()` is `gi`. -/
def queuePop (queue : List Nat) (gi : Nat) : List Nat :=
  queue.erase gi

/-- `groupQueue_.push(gi)`. -/
def queuePush (queue : List Nat) (gi : Nat) : List Nat :=
  queue ++ [gi]

/-! ### `ActiveLayers::step` -/

/-- Read `x[i]`. -/
def rd (x : List K) (i : Nat) : K :=
  x.getD i 0

/-- The indices `3*vert+j`, `j = 0,1,2`, in the order the two nested loops of
`step` visit them. -/
def stencilDofs (verts : List Nat) : List Nat :=
  verts.flatMap fun vert => [3 * vert, 3 * vert + 1, 3 * vert + 2]

/-- Body of the first loop of `step` at index `i = 3*vert+j`: fills `newq[i]`
and `newv[i]`.  The quotient by `dt = 0` is `0` here. -/
def predictDof (s : SimulationState K) (newtime : K) (nqv : List K × List K) (i : Nat) :
    List K × List K :=
  let dt := newtime - rd s.lastUpdateTime i
  let nqi := rd s.q i + (newtime - rd s.lastUpdateTime i) * rd s.v i
  (nqv.1.set i nqi, nqv.2.set i ((nqi - rd s.q i) / dt))

/-- Body of the second loop of `step` at index `i = 3*vert+j`. -/
def commitDof (newq F : List K) (newtime : K) (s : SimulationState K) (i : Nat) :
    SimulationState K :=
  { s with v := s.v.set i (rd s.v i + rd s.minv i * rd F i),
           q := s.q.set i (rd newq i),
           lastUpdateTime := s.lastUpdateTime.set i newtime }

/-- Body of the last loop of `step` at index `i`. -/
def finishDof (termTime : K) (s : SimulationState K) (i : Nat) : SimulationState K :=
  { s with q := s.q.set i (rd s.q i + (termTime - rd s.lastUpdateTime i) * rd s.v i),
           lastUpdateTime := s.lastUpdateTime.set i termTime }

/-- The last loop of `step`: `for(int i=0; i<3*nverts; i++)` with
`nverts = s.q.size()/3`. -/
def finishAll (termTime : K) (s : SimulationState K) : SimulationState K :=
  (List.range (3 * (s.q.length / 3))).foldl (finishDof termTime) s

/-- Lines 97-106 of `step`: the buffers `newq`, `newv` after the first loop
over the group's vertices.  Both start as zero vectors. -/
def predictAll (s : SimulationState K) (group : PenaltyGroup K) : List K × List K :=
  let zero := List.replicate s.q.length (0 : K)
  (stencilDofs group.getGroupStencil).foldl (predictDof s group.nextFireTime) (zero, zero)

/-- Lines 108-109 of `step`: `F.setZero(); group->addForce(newq, newv, F)`.
`addForce g newq newv F` returns the flag and the buffer `F` after the call. -/
def forceOf (addForce : PenaltyGroup K → List K → List K → List K → Bool × List K)
    (s : SimulationState K) (group : PenaltyGroup K) : Bool × List K :=
  addForce group (predictAll s group).1 (predictAll s group).2
    (List.replicate s.q.length (0 : K))

/-- Lines 116-130 of `step`: the second loop over the group's vertices. -/
def commitAll (s : SimulationState K) (group : PenaltyGroup K) (newq F : List K) :
    SimulationState K :=
  (stencilDofs group.getGroupStencil).foldl (commitDof newq F group.nextFireTime) s

/-- Lines 96, 131, 132 of `step`: pop the group, advance its clock, push it. -/
def requeue (a : State K) (gi : Nat) (group : PenaltyGroup K) : State K :=
  { a with groups_ := a.groups_.set gi group.incrementTimeStep,
           groupQueue_ := queuePush (queuePop a.groupQueue_ gi) gi }

/-- `ActiveLayers::step`. -/
def step (addForce : PenaltyGroup K → List K → List K → List K → Bool × List K)
    (a : State K) (s : SimulationState K) : StepResult K :=
  match queueTop a.groups_ a.groupQueue_ with
  | none => StepResult.done a (finishAll a.termTime_ s)
  | some gi =>
    match a.groups_[gi]? with
    | none => StepResult.undefined
    | some group =>
      if group.nextFireTime < a.termTime_ then
        if (forceOf addForce s group).1 && decide (group.nextFireTime < a.earliestTime_) then
          StepResult.abort
        else
          StepResult.fired (requeue a gi group)
            (commitAll s group (predictAll s group).1 (forceOf addForce s group).2)
      else StepResult.done a (finishAll a.termTime_ s)

/-- The loop `while(!step(s));`, at most `fuel` calls of `step`. -/
def microIntegrate (addForce : PenaltyGroup K → List K → List K → List K → Bool × List K) :
    Nat → State K → SimulationState K → Outcome (State K × SimulationState K)
  | 0, _, _ => Outcome.timeout
  | fuel + 1, a, s =>
    match step addForce a s with
    | StepResult.abort => Outcome.abort
    | StepResult.undefined => Outcome.undefined
    | StepResult.fired a1 s1 => microIntegrate addForce fuel a1 s1
    | StepResult.done a1 s1 => Outcome.ok (a1, s1)

/-! ### Rollback and collision detection -/

/-- The loop of `ActiveLayers::rollback` moving `groupQueue_` to `newqueue`. -/
def drainQueue (groups : List (PenaltyGroup K)) : Nat → List Nat → List Nat → List Nat
  | 0, _, newqueue => newqueue
  | fuel + 1, queue, newqueue =>
    match queueTop groups queue with
    | none => newqueue
    | some gi => drainQueue groups fuel (queuePop queue gi) (queuePush newqueue gi)

/-- `ActiveLayers::rollback`. -/
def rollback (a : State K) : State K :=
  let groups1 := a.groups_.map PenaltyGroup.rollback
  { a with groups_ := groups1,
           groupQueue_ := drainQueue groups1 a.groupQueue_.length a.groupQueue_ [] }

/-- `ActiveLayers::VFStencilThickness`. -/
def VFStencilThickness (a : State K) (stencil : VertexFaceStencil) : K :=
  match a.vfdepth_ stencil with
  | some d => layerDepth a (d + 1)
  | none => layerDepth a 1

/-- `ActiveLayers::EEStencilThickness`. -/
def EEStencilThickness (a : State K) (stencil : EdgeEdgeStencil) : K :=
  match a.eedepth_ stencil with
  | some d => layerDepth a (d + 1)
  | none => layerDepth a 1

/-- `ActiveLayers::collisionDetection`: the flag returned, then the out
arguments `vfsToAdd`, `eesToAdd`, `earliestTime`. -/
def collisionDetection (o : CollisionOracle K) (a : State K) :
    Bool × List VertexFaceStencil × List EdgeEdgeStencil × K :=
  let cands := o.findCollisionCandidates a.outerEta_
  let etavfs := cands.1.map fun st => (st, VFStencilThickness a st)
  let etaees := cands.2.map fun st => (st, EEStencilThickness a st)
  let r := o.findCollisions etavfs etaees 1
  (!r.1.isEmpty || !r.2.1.isEmpty, r.1, r.2.1, r.2.2)

/-- `ActiveLayers::runOneIteration`, with at most `fuel` calls of `step`: the
orchestrator and simulation state after the call and the value returned. -/
def runOneIteration (sqrt : K → K)
    (addForce : PenaltyGroup K → List K → List K → List K → Bool × List K)
    (o : CollisionOracle K) (fuel : Nat) (a : State K) (s : SimulationState K) :
    Outcome (State K × SimulationState K × Bool) :=
  match microIntegrate addForce fuel a s with
  | Outcome.abort => Outcome.abort
  | Outcome.undefined => Outcome.undefined
  | Outcome.timeout => Outcome.timeout
  | Outcome.ok (a1, s1) =>
    let (collisions, vfsToAdd, eesToAdd, t) := collisionDetection o a1
    if t < a1.earliestTime_ then Outcome.abort
    else
      let a2 := rollback { a1 with earliestTime_ := t }
      let a3 := vfsToAdd.foldl (addVFStencil sqrt) a2
      let a4 := eesToAdd.foldl (addEEStencil sqrt) a3
      Outcome.ok (a4, s1, !collisions)

/-- Recorded depth of a vertex-face stencil, an absent entry counting as `0`. -/
def vfDepth (a : State K) (stencil : VertexFaceStencil) : Nat :=
  (a.vfdepth_ stencil).getD 0

/-- Recorded depth of an edge-edge stencil, an absent entry counting as `0`. -/
def eeDepth (a : State K) (stencil : EdgeEdgeStencil) : Nat :=
  (a.eedepth_ stencil).getD 0

/-- The members that only the constructor and `runOneIteration` write agree. -/
def SameParams (a b : State K) : Prop :=
  b.outerEta_ = a.outerEta_ ∧ b.innerEta_ = a.innerEta_ ∧ b.baseDt_ = a.baseDt_ ∧
  b.baseStiffness_ = a.baseStiffness_ ∧ b.termTime_ = a.termTime_ ∧ b.CoR_ = a.CoR_

/-- Everything `step` and `rollback` leave alone: the parameters, the depth
maps, `earliestTime_`, `deepestLayer_`, and the groups up to their clocks. -/
def StepFrame (a b : State K) : Prop :=
  SameParams a b ∧ b.vfdepth_ = a.vfdepth_ ∧ b.eedepth_ = a.eedepth_ ∧
  b.earliestTime_ = a.earliestTime_ ∧ b.deepestLayer_ = a.deepestLayer_ ∧
  b.groups_.map PenaltyGroup.rollback = a.groups_.map PenaltyGroup.rollback

/-- The vertex-face stencils `collisionDetection` leaves in `vfsToAdd`. -/
def confirmedVF (o : CollisionOracle K) (a : State K) : List VertexFaceStencil :=
  (collisionDetection o a).2.1

/-- The edge-edge stencils `collisionDetection` leaves in `eesToAdd`. -/
def confirmedEE (o : CollisionOracle K) (a : State K) : List EdgeEdgeStencil :=
  (collisionDetection o a).2.2.1

/-- The earliest collision time `collisionDetection` leaves in `earliestTime`. -/
def confirmedTime (o : CollisionOracle K) (a : State K) : K :=
  (collisionDetection o a).2.2.2

/-- One completed operation of the orchestrator, from the state before to the
state after. -/
inductive Op (sqrt : K → K) : State K → State K → Prop where
  | vf (a : State K) (st : VertexFaceStencil) : Op sqrt a (addVFStencil sqrt a st)
  | ee (a : State K) (st : EdgeEdgeStencil) : Op sqrt a (addEEStencil sqrt a st)
  | groups (a : State K) (maxdepth : Nat) : Op sqrt a (addGroups sqrt a maxdepth)
  | fired (addForce : PenaltyGroup K → List K → List K → List K → Bool × List K)
      (a a1 : State K) (s s1 : SimulationState K) :
      step addForce a s = StepResult.fired a1 s1 → Op sqrt a a1
  | done (addForce : PenaltyGroup K → List K → List K → List K → Bool × List K)
      (a a1 : State K) (s s1 : SimulationState K) :
      step addForce a s = StepResult.done a1 s1 → Op sqrt a a1
  | rollback (a : State K) : Op sqrt a (rollback a)
  | run (addForce : PenaltyGroup K → List K → List K → List K → Bool × List K)
      (o : CollisionOracle K) (fuel : Nat) (a a1 : State K) (s s1 : SimulationState K)
      (conv : Bool) :
      runOneIteration sqrt addForce o fuel a s = Outcome.ok (a1, s1, conv) → Op sqrt a a1

/-- The states the orchestrator can be in: built by the constructor, then
changed by completed operations only. -/
inductive Reachable (sqrt : K → K) : State K → Prop where
  | new (outerEta innerEta baseDt baseStiffness terminationTime CoR : K) :
      Reachable sqrt (new outerEta innerEta baseDt baseStiffness terminationTime CoR)
  | op (a b : State K) : Reachable sqrt a → Op sqrt a b → Reachable sqrt b

/-! ### The layering invariant -/

/-- Number of vertex-face potentials for `st` in `groups_[j]`, the group of
depth `j + 1`; `0` when there is no such group. -/
def vfCount (a : State K) (j : Nat) (st : VertexFaceStencil) : Nat :=
  match a.groups_[j]? with
  | some g => g.vfforces_.count st
  | none => 0

/-- Number of edge-edge potentials for `st` in `groups_[j]`. -/
def eeCount (a : State K) (j : Nat) (st : EdgeEdgeStencil) : Nat :=
  match a.groups_[j]? with
  | some g => g.eeforces_.count st
  | none => 0

/-- The layering invariant: `deepestLayer_` counts the groups, and the group of
depth `j + 1` holds exactly one potential for each stencil of depth above `j`
and none for the others. -/
def LayerInv (a : State K) : Prop :=
  a.deepestLayer_ = a.groups_.length ∧
  (∀ st j, vfCount a j st = if j < vfDepth a st then 1 else 0) ∧
  (∀ st j, eeCount a j st = if j < eeDepth a st then 1 else 0)

/-! ### The micro-integration loop and the run -/

/-- The states of one micro-integration loop started in `(a0, s0)`: those
reached by calls of `step` that returned `false`. -/
inductive LoopReach (addForce : PenaltyGroup K → List K → List K → List K → Bool × List K)
    (a0 : State K) (s0 : SimulationState K) : State K → SimulationState K → Prop where
  | start : LoopReach addForce a0 s0 a0 s0
  | fire (a a1 : State K) (s s1 : SimulationState K) :
      LoopReach addForce a0 s0 a s → step addForce a s = StepResult.fired a1 s1 →
      LoopReach addForce a0 s0 a1 s1

/-- Loop invariant of the micro-integration: no DOF has been updated later
than any queued group's next fire time or than the horizon, and every group has
a positive time step. -/
def LoopInv (a : State K) (s : SimulationState K) : Prop :=
  (∀ gi ∈ a.groupQueue_, ∀ i, i < s.lastUpdateTime.length →
    rd s.lastUpdateTime i ≤ fireTimeAt a.groups_ gi) ∧
  (∀ i, i < s.lastUpdateTime.length → rd s.lastUpdateTime i ≤ a.termTime_) ∧
  (∀ g ∈ a.groups_, 0 < g.dt_)

/-- The states between the outer iterations of a run that passes one
simulation state from each completed `runOneIteration` call to the next. -/
inductive RunReach (sqrt : K → K)
    (addForce : PenaltyGroup K → List K → List K → List K → Bool × List K)
    (a0 : State K) (s0 : SimulationState K) : State K → SimulationState K → Prop where
  | start : RunReach sqrt addForce a0 s0 a0 s0
  | iteration (o : CollisionOracle K) (fuel : Nat) (a a1 : State K) (s s1 : SimulationState K)
      (conv : Bool) :
      RunReach sqrt addForce a0 s0 a s →
      runOneIteration sqrt addForce o fuel a s = Outcome.ok (a1, s1, conv) →
      RunReach sqrt addForce a0 s0 a1 s1

/-! ### The layer parameters of `addGroups` -/

/-- The time step `addGroups` gives the group of depth `depth`:
`baseDt_ / double(depth) / sqrt(double(depth)+fudge)` with `fudge = 1e-4`. -/
def layerDt (sqrt : K → K) (a : State K) (depth : Nat) : K :=
  a.baseDt_ / (depth : K) / sqrt ((depth : K) + 1 / 10000)

/-- The stiffness `addGroups` gives the group of depth `depth`:
`baseStiffness_*depth*depth*depth`. -/
def layerStiffness (a : State K) (depth : Nat) : K :=
  a.baseStiffness_ * depth * depth * depth

/-- The group `addGroups` creates for depth `depth`: the arguments of
`new PenaltyGroup(dti, etai, innerEta_, ki, CoR_)`, no stencil, clock at zero. -/
def layerGroup (sqrt : K → K) (a : State K) (depth : Nat) : PenaltyGroup K :=
  { nextstep_ := 0, dt_ := layerDt sqrt a depth, eta_ := layerDepth a depth,
    innerEta_ := a.innerEta_, stiffness_ := layerStiffness a depth, CoR_ := a.CoR_,
    vfforces_ := [], eeforces_ := [] }

/-! ### The queue and layout invariants -/

/-- The event queue holds every group of `groups_` exactly once. -/
def QueueInv (a : State K) : Prop :=
  a.groupQueue_.Perm (List.range a.groups_.length)

/-- The constructor arguments of a group that `addGroups` computes from its
depth: time step, outer margin, stiffness. -/
def groupParams (g : PenaltyGroup K) : K × K × K :=
  (g.dt_, g.eta_, g.stiffness_)

/-- The layers are laid out as `addGroups` builds them: `deepestLayer_` counts
the groups, and the group at index `i` carries the parameters of depth `i + 1`. -/
def ParamInv (sqrt : K → K) (a : State K) : Prop :=
  a.deepestLayer_ = a.groups_.length ∧
  ∀ (i : Nat) (g : PenaltyGroup K), a.groups_[i]? = some g →
    g.dt_ = layerDt sqrt a (i + 1) ∧ g.eta_ = layerDepth a (i + 1) ∧
    g.stiffness_ = layerStiffness a (i + 1)

/-- What every operation other than a round of the loop of `addGroups` leaves
alone: the constructor's parameters, `deepestLayer_`, the parameters of each
group, and which groups are queued. -/
def LayoutFrame (a b : State K) : Prop :=
  SameParams a b ∧ b.deepestLayer_ = a.deepestLayer_ ∧
  b.groups_.map groupParams = a.groups_.map groupParams ∧
  b.groupQueue_.Perm a.groupQueue_

/-! ### Firing events due before the horizon -/

/-- The number of step counters `n ≥ 0` of a group with `n · dt < termTime`
(for `dt > 0`): the firing events the group is due before the horizon. -/
def firingsDue [FloorRing K] (termTime : K) (g : PenaltyGroup K) : Nat :=
  ⌈termTime / g.dt_⌉₊

/-- The firing events still due before the horizon, over all groups. -/
def firingsLeft [FloorRing K] (a : State K) : Nat :=
  (a.groups_.map fun g => firingsDue a.termTime_ g - g.nextstep_).sum

/-! ### Sample inputs -/

/-- A force law that never reports a contribution. -/
def noForce : PenaltyGroup K → List K → List K → List K → Bool × List K :=
  fun _ _ _ F => (false, F)

/-- A force law that reports a contribution on every call and leaves `F` zero. -/
def touchForce : PenaltyGroup K → List K → List K → List K → Bool × List K :=
  fun _ _ _ F => (true, F)

/-- The vertex-face stencil of vertex `0` against the face `1 2 3`. -/
def stencil0 : VertexFaceStencil :=
  { p := 0, q0 := 1, q1 := 2, q2 := 3 }

/-- A collision oracle that confirms `stencil0` at time `1/2`. -/
def oracleHit : CollisionOracle K :=
  { findCollisionCandidates := fun _ => ([stencil0], []),
    findCollisions := fun _ _ _ => ([stencil0], [], 1 / 2) }

/-- A collision oracle that finds nothing and leaves `earliestTime` as passed. -/
def oracleClear : CollisionOracle K :=
  { findCollisionCandidates := fun _ => ([], []),
    findCollisions := fun _ _ t0 => ([], [], t0) }

/-- A simulation state without vertices. -/
def emptySim : SimulationState K :=
  { q := [], v := [], minv := [], lastUpdateTime := [] }

/-- A fresh orchestrator: margins `1 > 0`, base step `1`, stiffness `1`,
horizon `1`, no restitution. -/
def fresh : State K :=
  new 1 0 1 1 1 0

/-- A simulation state of four vertices at rest, last updated at time `0`. -/
def restSim : SimulationState K :=
  { q := List.replicate 12 0, v := List.replicate 12 0, minv := List.replicate 12 1,
    lastUpdateTime := List.replicate 12 0 }

/-- The orchestrator after a first outer iteration on `fresh` in which collision
detection confirmed `stencil0` at time `1/2`: five layers, each holding
`stencil0`, all clocks at zero, `earliestTime_ = 1/2`. -/
def afterHit (sqrt : K → K) : State K :=
  addVFStencil sqrt (rollback { (fresh : State K) with earliestTime_ := 1 / 2 }) stencil0

/-- The layer of depth `d` of `afterHit`: the group `addGroups` builds on
`fresh`, with `stencil0` registered. -/
def hitGroup (sqrt : K → K) (d : Nat) : PenaltyGroup K :=
  { nextstep_ := 0, dt_ := 1 / (d : K) / sqrt ((d : K) + 1 / 10000),
    eta_ := 0 + (1 - 0) / (d : K), innerEta_ := 0, stiffness_ := 1 * d * d * d, CoR_ := 0,
    vfforces_ := [stencil0], eeforces_ := [] }

/-- A force law that reports a contribution and pushes DOF `0` with force `2`. -/
def pushForce : PenaltyGroup K → List K → List K → List K → Bool × List K :=
  fun _ _ _ F => (true, F.set 0 2)

/-- A simulation state of four vertices moving with unit velocity, of inverse
mass `1/2`, last updated at time `-1`. -/
def movingSim : SimulationState K :=
  { q := List.replicate 12 0, v := List.replicate 12 1, minv := List.replicate 12 (1 / 2),
    lastUpdateTime := List.replicate 12 (-1) }

/-- The orchestrator after `addVFStencil(stencil0)` on `fresh`: five layers,
each holding `stencil0`, all clocks at zero, `earliestTime_ = 0`. -/
def firstHit (sqrt : K → K) : State K :=
  addVFStencil sqrt (fresh : State K) stencil0

/-- One completed outer iteration leads from orchestrator state `x` to `y`. -/
def IterStep (sqrt : K → K) (x y : State K) : Prop :=
  ∃ (addForce : PenaltyGroup K → List K → List K → List K → Bool × List K)
    (o : CollisionOracle K) (fuel : Nat) (s s1 : SimulationState K) (conv : Bool),
    runOneIteration sqrt addForce o fuel x s = Outcome.ok (y, s1, conv)

end Orchestrator

/-! ## Frame lemmas -/

section Frames

variable {K : Type} [LinearOrderedField K]

theorem sameParams_refl (a : State K) : SameParams a a :=
  ⟨rfl, rfl, rfl, rfl, rfl, rfl⟩

theorem sameParams_trans {a b c : State K} (h1 : SameParams a b) (h2 : SameParams b c) :
    SameParams a c := by
  obtain ⟨h11, h12, h13, h14, h15, h16⟩ := h1
  obtain ⟨h21, h22, h23, h24, h25, h26⟩ := h2
  exact ⟨h21.trans h11, h22.trans h12, h23.trans h13, h24.trans h14, h25.trans h15,
    h26.trans h16⟩

theorem addGroupsLoop_induction (sqrt : K → K) (P : State K → Prop)
    (hP : ∀ a, P a → P (addOneGroup sqrt a)) (maxdepth fuel : Nat) (a : State K) (h : P a) :
    P (addGroupsLoop sqrt maxdepth fuel a) := by
  induction fuel generalizing a with
  | zero => exact h
  | succ n ih =>
    unfold addGroupsLoop
    split
    · exact ih _ (hP a h)
    · exact h

theorem addGroups_induction (sqrt : K → K) (P : State K → Prop)
    (hP : ∀ a, P a → P (addOneGroup sqrt a)) (a : State K) (maxdepth : Nat) (h : P a) :
    P (addGroups sqrt a maxdepth) :=
  addGroupsLoop_induction sqrt P hP maxdepth _ a h

theorem addGroups_vfdepth (sqrt : K → K) (a : State K) (maxdepth : Nat) :
    (addGroups sqrt a maxdepth).vfdepth_ = a.vfdepth_ :=
  addGroups_induction sqrt (fun b => b.vfdepth_ = a.vfdepth_) (fun _ h => h) a maxdepth rfl

theorem addGroups_eedepth (sqrt : K → K) (a : State K) (maxdepth : Nat) :
    (addGroups sqrt a maxdepth).eedepth_ = a.eedepth_ :=
  addGroups_induction sqrt (fun b => b.eedepth_ = a.eedepth_) (fun _ h => h) a maxdepth rfl

theorem addGroups_earliestTime (sqrt : K → K) (a : State K) (maxdepth : Nat) :
    (addGroups sqrt a maxdepth).earliestTime_ = a.earliestTime_ :=
  addGroups_induction sqrt (fun b => b.earliestTime_ = a.earliestTime_) (fun _ h => h) a
    maxdepth rfl

theorem addGroups_sameParams (sqrt : K → K) (a : State K) (maxdepth : Nat) :
    SameParams a (addGroups sqrt a maxdepth) :=
  addGroups_induction sqrt (fun b => SameParams a b) (fun _ h => h) a maxdepth
    (sameParams_refl a)

theorem vfdepthIndex_snd (a : State K) (st : VertexFaceStencil) :
    (vfdepthIndex a st).2 = vfDepth a st := by
  unfold vfdepthIndex vfDepth
  cases h : a.vfdepth_ st <;> simp

theorem vfdepthIndex_vfDepth (a : State K) (st s : VertexFaceStencil) :
    vfDepth (vfdepthIndex a st).1 s = vfDepth a s := by
  unfold vfdepthIndex vfDepth
  cases h : a.vfdepth_ st
  · by_cases hs : s = st
    · subst hs; simp [h]
    · simp [hs]
  · simp

theorem vfdepthIndex_eedepth (a : State K) (st : VertexFaceStencil) :
    (vfdepthIndex a st).1.eedepth_ = a.eedepth_ := by
  unfold vfdepthIndex
  cases h : a.vfdepth_ st <;> rfl

theorem vfdepthIndex_groups (a : State K) (st : VertexFaceStencil) :
    (vfdepthIndex a st).1.groups_ = a.groups_ ∧
    (vfdepthIndex a st).1.groupQueue_ = a.groupQueue_ ∧
    (vfdepthIndex a st).1.deepestLayer_ = a.deepestLayer_ ∧
    (vfdepthIndex a st).1.earliestTime_ = a.earliestTime_ ∧
    SameParams a (vfdepthIndex a st).1 := by
  unfold vfdepthIndex
  cases h : a.vfdepth_ st <;> exact ⟨rfl, rfl, rfl, rfl, sameParams_refl a⟩

theorem eedepthIndex_snd (a : State K) (st : EdgeEdgeStencil) :
    (eedepthIndex a st).2 = eeDepth a st := by
  unfold eedepthIndex eeDepth
  cases h : a.eedepth_ st <;> simp

theorem eedepthIndex_eeDepth (a : State K) (st s : EdgeEdgeStencil) :
    eeDepth (eedepthIndex a st).1 s = eeDepth a s := by
  unfold eedepthIndex eeDepth
  cases h : a.eedepth_ st
  · by_cases hs : s = st
    · subst hs; simp [h]
    · simp [hs]
  · simp

theorem eedepthIndex_vfdepth (a : State K) (st : EdgeEdgeStencil) :
    (eedepthIndex a st).1.vfdepth_ = a.vfdepth_ := by
  unfold eedepthIndex
  cases h : a.eedepth_ st <;> rfl

theorem eedepthIndex_groups (a : State K) (st : EdgeEdgeStencil) :
    (eedepthIndex a st).1.groups_ = a.groups_ ∧
    (eedepthIndex a st).1.groupQueue_ = a.groupQueue_ ∧
    (eedepthIndex a st).1.deepestLayer_ = a.deepestLayer_ ∧
    (eedepthIndex a st).1.earliestTime_ = a.earliestTime_ ∧
    SameParams a (eedepthIndex a st).1 := by
  unfold eedepthIndex
  cases h : a.eedepth_ st <;> exact ⟨rfl, rfl, rfl, rfl, sameParams_refl a⟩

theorem groupAddVF_frame (a : State K) (i : Nat) (st : VertexFaceStencil) :
    (groupAddVF a i st).vfdepth_ = a.vfdepth_ ∧ (groupAddVF a i st).eedepth_ = a.eedepth_ ∧
    (groupAddVF a i st).groupQueue_ = a.groupQueue_ ∧
    (groupAddVF a i st).deepestLayer_ = a.deepestLayer_ ∧
    (groupAddVF a i st).earliestTime_ = a.earliestTime_ ∧
    SameParams a (groupAddVF a i st) := by
  unfold groupAddVF
  cases h : a.groups_[i]? <;> exact ⟨rfl, rfl, rfl, rfl, rfl, sameParams_refl a⟩

theorem groupAddEE_frame (a : State K) (i : Nat) (st : EdgeEdgeStencil) :
    (groupAddEE a i st).vfdepth_ = a.vfdepth_ ∧ (groupAddEE a i st).eedepth_ = a.eedepth_ ∧
    (groupAddEE a i st).groupQueue_ = a.groupQueue_ ∧
    (groupAddEE a i st).deepestLayer_ = a.deepestLayer_ ∧
    (groupAddEE a i st).earliestTime_ = a.earliestTime_ ∧
    SameParams a (groupAddEE a i st) := by
  unfold groupAddEE
  cases h : a.groups_[i]? <;> exact ⟨rfl, rfl, rfl, rfl, rfl, sameParams_refl a⟩

/-- One round of `addVFStencil` raises the depth of its stencil by one. -/
theorem addVFStencilRound_vfDepth (sqrt : K → K) (st : VertexFaceStencil) (olddepth : Nat)
    (a : State K) (i : Nat) (s : VertexFaceStencil) :
    vfDepth (addVFStencilRound sqrt st olddepth a i) s =
      if s = st then vfDepth a s + 1 else vfDepth a s := by
  have h1 : ∀ t, vfDepth (groupAddVF (addGroups sqrt a (olddepth + i + 1)) (olddepth + i) st) t
      = vfDepth a t := by
    intro t
    unfold vfDepth
    rw [(groupAddVF_frame _ _ _).1, addGroups_vfdepth]
  unfold addVFStencilRound
  simp only []
  by_cases hs : s = st
  · subst hs
    simp only [vfDepth, if_true, Option.getD_some]
    rw [vfdepthIndex_snd]
    simp only [vfDepth, (groupAddVF_frame _ _ _).1, addGroups_vfdepth]
  · simp only [vfDepth, if_neg hs]
    exact (vfdepthIndex_vfDepth _ st s).trans (h1 s)

theorem addVFStencilRound_eedepth (sqrt : K → K) (st : VertexFaceStencil) (olddepth : Nat)
    (a : State K) (i : Nat) :
    (addVFStencilRound sqrt st olddepth a i).eedepth_ = a.eedepth_ := by
  unfold addVFStencilRound
  simp only []
  rw [vfdepthIndex_eedepth, (groupAddVF_frame _ _ _).2.1, addGroups_eedepth]

theorem addEEStencilRound_eeDepth (sqrt : K → K) (st : EdgeEdgeStencil) (olddepth : Nat)
    (a : State K) (i : Nat) (s : EdgeEdgeStencil) :
    eeDepth (addEEStencilRound sqrt st olddepth a i) s =
      if s = st then eeDepth a s + 1 else eeDepth a s := by
  have h1 : ∀ t, eeDepth (groupAddEE (addGroups sqrt a (olddepth + i + 1)) (olddepth + i) st) t
      = eeDepth a t := by
    intro t
    unfold eeDepth
    rw [(groupAddEE_frame _ _ _).2.1, addGroups_eedepth]
  unfold addEEStencilRound
  simp only []
  by_cases hs : s = st
  · subst hs
    simp only [eeDepth, if_true, Option.getD_some]
    rw [eedepthIndex_snd]
    simp only [eeDepth, (groupAddEE_frame _ _ _).2.1, addGroups_eedepth]
  · simp only [eeDepth, if_neg hs]
    exact (eedepthIndex_eeDepth _ st s).trans (h1 s)

theorem addEEStencilRound_vfdepth (sqrt : K → K) (st : EdgeEdgeStencil) (olddepth : Nat)
    (a : State K) (i : Nat) :
    (addEEStencilRound sqrt st olddepth a i).vfdepth_ = a.vfdepth_ := by
  unfold addEEStencilRound
  simp only []
  rw [eedepthIndex_vfdepth, (groupAddEE_frame _ _ _).1, addGroups_vfdepth]

theorem range_five : List.range 5 = [0, 1, 2, 3, 4] := by decide

/-- `addVFStencil` raises the depth of its argument by five and no other. -/
theorem addVFStencil_vfDepth (sqrt : K → K) (a : State K) (st s : VertexFaceStencil) :
    vfDepth (addVFStencil sqrt a st) s = if s = st then vfDepth a s + 5 else vfDepth a s := by
  unfold addVFStencil
  simp only [range_five, List.foldl_cons, List.foldl_nil, addVFStencilRound_vfDepth,
    vfdepthIndex_vfDepth]
  split <;> rfl

theorem addVFStencil_eedepth (sqrt : K → K) (a : State K) (st : VertexFaceStencil) :
    (addVFStencil sqrt a st).eedepth_ = a.eedepth_ := by
  unfold addVFStencil
  simp only [range_five, List.foldl_cons, List.foldl_nil, addVFStencilRound_eedepth,
    vfdepthIndex_eedepth]

/-- `addEEStencil` raises the depth of its argument by five and no other. -/
theorem addEEStencil_eeDepth (sqrt : K → K) (a : State K) (st s : EdgeEdgeStencil) :
    eeDepth (addEEStencil sqrt a st) s = if s = st then eeDepth a s + 5 else eeDepth a s := by
  unfold addEEStencil
  simp only [range_five, List.foldl_cons, List.foldl_nil, addEEStencilRound_eeDepth,
    eedepthIndex_eeDepth]
  split <;> rfl

theorem addEEStencil_vfdepth (sqrt : K → K) (a : State K) (st : EdgeEdgeStencil) :
    (addEEStencil sqrt a st).vfdepth_ = a.vfdepth_ := by
  unfold addEEStencil
  simp only [range_five, List.foldl_cons, List.foldl_nil, addEEStencilRound_vfdepth,
    eedepthIndex_vfdepth]

/-- Adding a duplicate-free list of vertex-face stencils raises exactly the
depths of its members, by five each. -/
theorem foldl_addVFStencil_vfDepth (sqrt : K → K) (vfs : List VertexFaceStencil)
    (hn : vfs.Nodup) (a : State K) (s : VertexFaceStencil) :
    vfDepth (vfs.foldl (addVFStencil sqrt) a) s =
      if s ∈ vfs then vfDepth a s + 5 else vfDepth a s := by
  induction vfs generalizing a with
  | nil => simp
  | cons x xs ih =>
    rw [List.nodup_cons] at hn
    rw [List.foldl_cons, ih hn.2, addVFStencil_vfDepth]
    by_cases hx : s = x
    · subst hx
      simp [hn.1]
    · simp [hx]

theorem foldl_addVFStencil_eedepth (sqrt : K → K) (vfs : List VertexFaceStencil) (a : State K) :
    (vfs.foldl (addVFStencil sqrt) a).eedepth_ = a.eedepth_ := by
  induction vfs generalizing a with
  | nil => rfl
  | cons x xs ih => rw [List.foldl_cons, ih, addVFStencil_eedepth]

theorem foldl_addEEStencil_eeDepth (sqrt : K → K) (ees : List EdgeEdgeStencil)
    (hn : ees.Nodup) (a : State K) (s : EdgeEdgeStencil) :
    eeDepth (ees.foldl (addEEStencil sqrt) a) s =
      if s ∈ ees then eeDepth a s + 5 else eeDepth a s := by
  induction ees generalizing a with
  | nil => simp
  | cons x xs ih =>
    rw [List.nodup_cons] at hn
    rw [List.foldl_cons, ih hn.2, addEEStencil_eeDepth]
    by_cases hx : s = x
    · subst hx
      simp [hn.1]
    · simp [hx]

theorem foldl_addEEStencil_vfdepth (sqrt : K → K) (ees : List EdgeEdgeStencil) (a : State K) :
    (ees.foldl (addEEStencil sqrt) a).vfdepth_ = a.vfdepth_ := by
  induction ees generalizing a with
  | nil => rfl
  | cons x xs ih => rw [List.foldl_cons, ih, addEEStencil_vfdepth]

/-! ### What one call of `step` can do -/

/-- A call of `step` that returns `false` fired the group on top of the queue. -/
theorem step_fired (addForce : PenaltyGroup K → List K → List K → List K → Bool × List K)
    (a a1 : State K) (s s1 : SimulationState K) (h : step addForce a s = StepResult.fired a1 s1) :
    ∃ gi group, queueTop a.groups_ a.groupQueue_ = some gi ∧ a.groups_[gi]? = some group ∧
      group.nextFireTime < a.termTime_ ∧
      ¬ ((forceOf addForce s group).1 = true ∧ group.nextFireTime < a.earliestTime_) ∧
      a1 = requeue a gi group ∧
      s1 = commitAll s group (predictAll s group).1 (forceOf addForce s group).2 := by
  unfold step at h
  split at h
  · cases h
  · rename_i gi hq
    split at h
    · cases h
    · rename_i group hg
      split at h
      · rename_i hlt
        split at h
        · cases h
        · rename_i hab
          cases h
          refine ⟨gi, group, hq, hg, hlt, ?_, rfl, rfl⟩
          simpa using hab
      · cases h

/-- A call of `step` that returns `true` ran only the final extrapolation. -/
theorem step_done (addForce : PenaltyGroup K → List K → List K → List K → Bool × List K)
    (a a1 : State K) (s s1 : SimulationState K) (h : step addForce a s = StepResult.done a1 s1) :
    a1 = a ∧ s1 = finishAll a.termTime_ s ∧
    (queueTop a.groups_ a.groupQueue_ = none ∨
      ∃ gi group, queueTop a.groups_ a.groupQueue_ = some gi ∧ a.groups_[gi]? = some group ∧
        a.termTime_ ≤ group.nextFireTime) := by
  unfold step at h
  split at h
  · rename_i hq
    cases h
    exact ⟨rfl, rfl, Or.inl hq⟩
  · rename_i gi hq
    split at h
    · cases h
    · rename_i group hg
      split at h
      · split at h <;> cases h
      · rename_i hlt
        cases h
        exact ⟨rfl, rfl, Or.inr ⟨gi, group, hq, hg, not_lt.mp hlt⟩⟩

/-- A call of `step` that exits fired a group that reported a force before the
stored earliest collision time. -/
theorem step_abort (addForce : PenaltyGroup K → List K → List K → List K → Bool × List K)
    (a : State K) (s : SimulationState K) (h : step addForce a s = StepResult.abort) :
    ∃ gi group, queueTop a.groups_ a.groupQueue_ = some gi ∧ a.groups_[gi]? = some group ∧
      group.nextFireTime < a.termTime_ ∧
      (forceOf addForce s group).1 = true ∧ group.nextFireTime < a.earliestTime_ := by
  unfold step at h
  split at h
  · cases h
  · rename_i gi hq
    split at h
    · cases h
    · rename_i group hg
      split at h
      · rename_i hlt
        split at h
        · rename_i hab
          refine ⟨gi, group, hq, hg, hlt, ?_⟩
          simpa using hab
        · cases h
      · cases h

/-- Induction over the calls of `step` in a completed micro-integration loop:
a relation that holds initially and survives every firing event holds at the
call that ends the loop. -/
theorem microIntegrate_ok (addForce : PenaltyGroup K → List K → List K → List K → Bool × List K)
    (P : State K → SimulationState K → Prop)
    (hP : ∀ a s a1 s1, P a s → step addForce a s = StepResult.fired a1 s1 → P a1 s1)
    (fuel : Nat) (a : State K) (s : SimulationState K) (r : State K × SimulationState K)
    (h0 : P a s) (h : microIntegrate addForce fuel a s = Outcome.ok r) :
    ∃ a0 s0, P a0 s0 ∧ step addForce a0 s0 = StepResult.done r.1 r.2 := by
  induction fuel generalizing a s with
  | zero => simp [microIntegrate] at h
  | succ n ih =>
    unfold microIntegrate at h
    split at h
    · cases h
    · cases h
    · rename_i a1 s1 hs
      exact ih a1 s1 (hP a s a1 s1 h0 hs) h
    · rename_i a1 s1 hs
      cases h
      exact ⟨a, s, h0, hs⟩

/-! ### Frames of `step`, `rollback`, `runOneIteration` -/

theorem stepFrame_refl (a : State K) : StepFrame a a :=
  ⟨sameParams_refl a, rfl, rfl, rfl, rfl, rfl⟩

theorem stepFrame_trans {a b c : State K} (h1 : StepFrame a b) (h2 : StepFrame b c) :
    StepFrame a c := by
  obtain ⟨p1, v1, e1, t1, d1, g1⟩ := h1
  obtain ⟨p2, v2, e2, t2, d2, g2⟩ := h2
  exact ⟨sameParams_trans p1 p2, v2.trans v1, e2.trans e1, t2.trans t1, d2.trans d1, g2.trans g1⟩

theorem map_rollback_set (groups : List (PenaltyGroup K)) (gi : Nat) (group : PenaltyGroup K)
    (hg : groups[gi]? = some group) :
    (groups.set gi group.incrementTimeStep).map PenaltyGroup.rollback =
      groups.map PenaltyGroup.rollback := by
  apply List.ext_getElem?
  intro j
  rw [List.getElem?_map, List.getElem?_map, List.getElem?_set]
  by_cases hj : gi = j
  · subst hj
    have hlt : gi < groups.length := by
      rcases Nat.lt_or_ge gi groups.length with h | h
      · exact h
      · rw [List.getElem?_eq_none h] at hg
        cases hg
    simp [hlt, hg, PenaltyGroup.rollback, PenaltyGroup.incrementTimeStep]
  · simp [hj]

theorem requeue_frame (a : State K) (gi : Nat) (group : PenaltyGroup K)
    (hg : a.groups_[gi]? = some group) : StepFrame a (requeue a gi group) :=
  ⟨sameParams_refl a, rfl, rfl, rfl, rfl, map_rollback_set a.groups_ gi group hg⟩

theorem step_fired_frame (addForce : PenaltyGroup K → List K → List K → List K → Bool × List K)
    (a a1 : State K) (s s1 : SimulationState K) (h : step addForce a s = StepResult.fired a1 s1) :
    StepFrame a a1 := by
  obtain ⟨gi, group, _, hg, _, _, ha, _⟩ := step_fired addForce a a1 s s1 h
  rw [ha]
  exact requeue_frame a gi group hg

theorem microIntegrate_frame
    (addForce : PenaltyGroup K → List K → List K → List K → Bool × List K)
    (fuel : Nat) (a a1 : State K) (s s1 : SimulationState K)
    (h : microIntegrate addForce fuel a s = Outcome.ok (a1, s1)) : StepFrame a a1 := by
  obtain ⟨a0, s0, hf, hd⟩ := microIntegrate_ok addForce (fun b _ => StepFrame a b)
    (fun b t b1 t1 hb hs => stepFrame_trans hb (step_fired_frame addForce b b1 t t1 hs))
    fuel a s (a1, s1) (stepFrame_refl a) h
  obtain ⟨h1, _, _⟩ := step_done addForce a0 a1 s0 s1 hd
  rw [h1]
  exact hf

theorem rollback_frame (a : State K) : StepFrame a (rollback a) := by
  refine ⟨sameParams_refl a, rfl, rfl, rfl, rfl, ?_⟩
  show (a.groups_.map PenaltyGroup.rollback).map PenaltyGroup.rollback = _
  rw [List.map_map]
  rfl

theorem layerDepth_congr (a b : State K) (h : SameParams a b) (layer : Nat) :
    layerDepth b layer = layerDepth a layer := by
  unfold layerDepth
  rw [h.1, h.2.1]

/-- The answer of `collisionDetection` depends on the orchestrator through the
two margins and the depth maps only. -/
theorem collisionDetection_congr (o : CollisionOracle K) (a b : State K) (h : StepFrame a b) :
    collisionDetection o b = collisionDetection o a := by
  obtain ⟨hp, hv, he, _, _, _⟩ := h
  have h1 : ∀ st, VFStencilThickness b st = VFStencilThickness a st := by
    intro st
    unfold VFStencilThickness
    rw [hv]
    cases a.vfdepth_ st <;> exact layerDepth_congr a b hp _
  have h2 : ∀ st, EEStencilThickness b st = EEStencilThickness a st := by
    intro st
    unfold EEStencilThickness
    rw [he]
    cases a.eedepth_ st <;> exact layerDepth_congr a b hp _
  unfold collisionDetection
  simp only [h1, h2, hp.1]

/-- What a completed call of `runOneIteration` did. -/
theorem runOneIteration_ok (sqrt : K → K)
    (addForce : PenaltyGroup K → List K → List K → List K → Bool × List K)
    (o : CollisionOracle K) (fuel : Nat) (a a2 : State K) (s s2 : SimulationState K)
    (conv : Bool) (h : runOneIteration sqrt addForce o fuel a s = Outcome.ok (a2, s2, conv)) :
    ∃ a1, microIntegrate addForce fuel a s = Outcome.ok (a1, s2) ∧
      ¬ confirmedTime o a < a.earliestTime_ ∧
      a2 = (confirmedEE o a).foldl (addEEStencil sqrt)
        ((confirmedVF o a).foldl (addVFStencil sqrt)
          (rollback { a1 with earliestTime_ := confirmedTime o a })) ∧
      conv = !(!(confirmedVF o a).isEmpty || !(confirmedEE o a).isEmpty) := by
  unfold runOneIteration at h
  split at h
  · cases h
  · cases h
  · cases h
  · rename_i a1 s1 hm
    have hf := microIntegrate_frame addForce fuel a a1 s s1 hm
    have hc := collisionDetection_congr o a a1 hf
    simp only [hc] at h
    split at h
    · cases h
    · rename_i hlt
      cases h
      refine ⟨a1, hm, ?_, rfl, rfl⟩
      rw [hf.2.2.2.1] at hlt
      exact hlt

/-- When `runOneIteration` exits. -/
theorem runOneIteration_abort (sqrt : K → K)
    (addForce : PenaltyGroup K → List K → List K → List K → Bool × List K)
    (o : CollisionOracle K) (fuel : Nat) (a : State K) (s : SimulationState K) :
    runOneIteration sqrt addForce o fuel a s = Outcome.abort ↔
      microIntegrate addForce fuel a s = Outcome.abort ∨
      ∃ r, microIntegrate addForce fuel a s = Outcome.ok r ∧
        confirmedTime o a < a.earliestTime_ := by
  unfold runOneIteration
  split
  · rename_i hm
    simp [hm]
  · rename_i hm
    simp [hm]
  · rename_i hm
    simp [hm]
  · rename_i a1 s1 hm
    have hf := microIntegrate_frame addForce fuel a a1 s s1 hm
    have hc := collisionDetection_congr o a a1 hf
    simp only [hc, hm, hf.2.2.2.1]
    constructor
    · intro h
      right
      refine ⟨(a1, s1), rfl, ?_⟩
      by_contra hlt
      unfold confirmedTime at hlt
      rw [if_neg hlt] at h
      cases h
    · rintro (h | ⟨r, _, hlt⟩)
      · cases h
      · exact if_pos hlt

theorem foldl_addVFStencil_induction (sqrt : K → K) (P : State K → Prop)
    (hP : ∀ a st, P a → P (addVFStencil sqrt a st)) (vfs : List VertexFaceStencil)
    (a : State K) (h : P a) : P (vfs.foldl (addVFStencil sqrt) a) := by
  induction vfs generalizing a with
  | nil => exact h
  | cons x xs ih =>
    rw [List.foldl_cons]
    exact ih (addVFStencil sqrt a x) (hP a x h)

theorem foldl_addEEStencil_induction (sqrt : K → K) (P : State K → Prop)
    (hP : ∀ a st, P a → P (addEEStencil sqrt a st)) (ees : List EdgeEdgeStencil)
    (a : State K) (h : P a) : P (ees.foldl (addEEStencil sqrt) a) := by
  induction ees generalizing a with
  | nil => exact h
  | cons x xs ih =>
    rw [List.foldl_cons]
    exact ih (addEEStencil sqrt a x) (hP a x h)

theorem vfDepth_congr (a b : State K) (h : b.vfdepth_ = a.vfdepth_) (st : VertexFaceStencil) :
    vfDepth b st = vfDepth a st := by
  unfold vfDepth
  rw [h]

theorem eeDepth_congr (a b : State K) (h : b.eedepth_ = a.eedepth_) (st : EdgeEdgeStencil) :
    eeDepth b st = eeDepth a st := by
  unfold eeDepth
  rw [h]

/-- The converse of `runOneIteration_ok`: a completed loop followed by a passed
monotonicity guard completes the call. -/
theorem runOneIteration_of_loop (sqrt : K → K)
    (addForce : PenaltyGroup K → List K → List K → List K → Bool × List K)
    (o : CollisionOracle K) (fuel : Nat) (a a1 : State K) (s s1 : SimulationState K)
    (hm : microIntegrate addForce fuel a s = Outcome.ok (a1, s1))
    (ht : ¬ confirmedTime o a < a.earliestTime_) :
    runOneIteration sqrt addForce o fuel a s = Outcome.ok
      ((confirmedEE o a).foldl (addEEStencil sqrt)
        ((confirmedVF o a).foldl (addVFStencil sqrt)
          (rollback { a1 with earliestTime_ := confirmedTime o a })),
        s1, !(!(confirmedVF o a).isEmpty || !(confirmedEE o a).isEmpty)) := by
  have hf := microIntegrate_frame addForce fuel a a1 s s1 hm
  have hc := collisionDetection_congr o a a1 hf
  unfold runOneIteration
  simp only [hm, hc, hf.2.2.2.1]
  unfold confirmedTime at ht
  rw [if_neg ht]
  rfl

/-- Depths after a completed `runOneIteration`, in terms of the depths before. -/
theorem runOneIteration_depths (sqrt : K → K)
    (addForce : PenaltyGroup K → List K → List K → List K → Bool × List K)
    (o : CollisionOracle K) (fuel : Nat) (a a2 : State K) (s s2 : SimulationState K)
    (conv : Bool) (h : runOneIteration sqrt addForce o fuel a s = Outcome.ok (a2, s2, conv)) :
    ∃ a0, a0.vfdepth_ = a.vfdepth_ ∧ a0.eedepth_ = a.eedepth_ ∧
      a0.deepestLayer_ = a.deepestLayer_ ∧ a0.earliestTime_ = confirmedTime o a ∧
      a0.groups_ = a.groups_.map PenaltyGroup.rollback ∧ SameParams a a0 ∧
      a2 = (confirmedEE o a).foldl (addEEStencil sqrt)
        ((confirmedVF o a).foldl (addVFStencil sqrt) a0) := by
  obtain ⟨a1, hm, _, ha2, _⟩ := runOneIteration_ok sqrt addForce o fuel a a2 s s2 conv h
  refine ⟨rollback { a1 with earliestTime_ := confirmedTime o a }, ?_, ?_, ?_, rfl, ?_, ?_, ha2⟩
  all_goals obtain ⟨p, v, e, _, d, g⟩ := microIntegrate_frame addForce fuel a a1 s s2 hm
  · exact v
  · exact e
  · exact d
  · exact g
  · exact p

/-- Every operation raises each vertex-face depth by a multiple of five. -/
theorem op_vfDepth_eq (sqrt : K → K) (a b : State K) (h : Op sqrt a b)
    (st : VertexFaceStencil) : ∃ k, vfDepth b st = vfDepth a st + 5 * k := by
  cases h with
  | vf _ x =>
    rw [addVFStencil_vfDepth]
    by_cases hs : st = x
    · exact ⟨1, by simp [hs]⟩
    · exact ⟨0, by simp [hs]⟩
  | ee _ x => exact ⟨0, vfDepth_congr _ _ (addEEStencil_vfdepth sqrt a x) st⟩
  | groups _ m => exact ⟨0, vfDepth_congr _ _ (addGroups_vfdepth sqrt a m) st⟩
  | fired addForce _ _ s s1 hs =>
    exact ⟨0, vfDepth_congr _ _ (step_fired_frame addForce a b s s1 hs).2.1 st⟩
  | done addForce _ _ s s1 hs =>
    rw [(step_done addForce a b s s1 hs).1]
    exact ⟨0, rfl⟩
  | rollback _ => exact ⟨0, rfl⟩
  | run addForce o fuel _ _ s s1 conv hr =>
    obtain ⟨a0, hv, _, _, _, _, _, hb⟩ :=
      runOneIteration_depths sqrt addForce o fuel a b s s1 conv hr
    rw [hb, vfDepth_congr _ _ (foldl_addEEStencil_vfdepth sqrt _ _) st]
    rw [← vfDepth_congr a a0 hv st]
    apply foldl_addVFStencil_induction sqrt (fun c => ∃ k, vfDepth c st = vfDepth a0 st + 5 * k)
    · intro c x ⟨k, hk⟩
      rw [addVFStencil_vfDepth]
      by_cases hs : st = x
      · exact ⟨k + 1, by simp only [hs, if_true] at hk ⊢; omega⟩
      · exact ⟨k, by simp only [hs, if_false] at hk ⊢; omega⟩
    · exact ⟨0, rfl⟩

/-- Every operation raises each edge-edge depth by a multiple of five. -/
theorem op_eeDepth_eq (sqrt : K → K) (a b : State K) (h : Op sqrt a b)
    (st : EdgeEdgeStencil) : ∃ k, eeDepth b st = eeDepth a st + 5 * k := by
  cases h with
  | vf _ x => exact ⟨0, eeDepth_congr _ _ (addVFStencil_eedepth sqrt a x) st⟩
  | ee _ x =>
    rw [addEEStencil_eeDepth]
    by_cases hs : st = x
    · exact ⟨1, by simp [hs]⟩
    · exact ⟨0, by simp [hs]⟩
  | groups _ m => exact ⟨0, eeDepth_congr _ _ (addGroups_eedepth sqrt a m) st⟩
  | fired addForce _ _ s s1 hs =>
    exact ⟨0, eeDepth_congr _ _ (step_fired_frame addForce a b s s1 hs).2.2.1 st⟩
  | done addForce _ _ s s1 hs =>
    rw [(step_done addForce a b s s1 hs).1]
    exact ⟨0, rfl⟩
  | rollback _ => exact ⟨0, rfl⟩
  | run addForce o fuel _ _ s s1 conv hr =>
    obtain ⟨a0, _, he, _, _, _, _, hb⟩ :=
      runOneIteration_depths sqrt addForce o fuel a b s s1 conv hr
    rw [hb, ← eeDepth_congr a a0 he st,
      ← eeDepth_congr a0 _ (foldl_addVFStencil_eedepth sqrt (confirmedVF o a) a0) st]
    apply foldl_addEEStencil_induction sqrt
      (fun c => ∃ k, eeDepth c st =
        eeDepth ((confirmedVF o a).foldl (addVFStencil sqrt) a0) st + 5 * k)
    · intro c x ⟨k, hk⟩
      rw [addEEStencil_eeDepth]
      by_cases hs : st = x
      · exact ⟨k + 1, by simp only [hs, if_true] at hk ⊢; omega⟩
      · exact ⟨k, by simp only [hs, if_false] at hk ⊢; omega⟩
    · exact ⟨0, rfl⟩

/-! ### `earliestTime_` -/

theorem addVFStencilRound_earliestTime (sqrt : K → K) (st : VertexFaceStencil) (olddepth : Nat)
    (a : State K) (i : Nat) :
    (addVFStencilRound sqrt st olddepth a i).earliestTime_ = a.earliestTime_ := by
  unfold addVFStencilRound
  simp only []
  rw [(vfdepthIndex_groups _ _).2.2.2.1, (groupAddVF_frame _ _ _).2.2.2.2.1,
    addGroups_earliestTime]

theorem addVFStencil_earliestTime (sqrt : K → K) (a : State K) (st : VertexFaceStencil) :
    (addVFStencil sqrt a st).earliestTime_ = a.earliestTime_ := by
  unfold addVFStencil
  simp only [range_five, List.foldl_cons, List.foldl_nil, addVFStencilRound_earliestTime,
    (vfdepthIndex_groups _ _).2.2.2.1]

theorem addEEStencilRound_earliestTime (sqrt : K → K) (st : EdgeEdgeStencil) (olddepth : Nat)
    (a : State K) (i : Nat) :
    (addEEStencilRound sqrt st olddepth a i).earliestTime_ = a.earliestTime_ := by
  unfold addEEStencilRound
  simp only []
  rw [(eedepthIndex_groups _ _).2.2.2.1, (groupAddEE_frame _ _ _).2.2.2.2.1,
    addGroups_earliestTime]

theorem addEEStencil_earliestTime (sqrt : K → K) (a : State K) (st : EdgeEdgeStencil) :
    (addEEStencil sqrt a st).earliestTime_ = a.earliestTime_ := by
  unfold addEEStencil
  simp only [range_five, List.foldl_cons, List.foldl_nil, addEEStencilRound_earliestTime,
    (eedepthIndex_groups _ _).2.2.2.1]

theorem runOneIteration_earliestTime (sqrt : K → K)
    (addForce : PenaltyGroup K → List K → List K → List K → Bool × List K)
    (o : CollisionOracle K) (fuel : Nat) (a a2 : State K) (s s2 : SimulationState K)
    (conv : Bool) (h : runOneIteration sqrt addForce o fuel a s = Outcome.ok (a2, s2, conv)) :
    a2.earliestTime_ = confirmedTime o a ∧ a.earliestTime_ ≤ confirmedTime o a := by
  obtain ⟨a1, _, hlt, _, _⟩ := runOneIteration_ok sqrt addForce o fuel a a2 s s2 conv h
  obtain ⟨a0, _, _, _, ht, _, _, hb⟩ :=
    runOneIteration_depths sqrt addForce o fuel a a2 s s2 conv h
  refine ⟨?_, not_lt.mp hlt⟩
  rw [hb]
  apply foldl_addEEStencil_induction sqrt (fun c => c.earliestTime_ = confirmedTime o a)
  · intro c x hc
    rw [addEEStencil_earliestTime]
    exact hc
  · apply foldl_addVFStencil_induction sqrt (fun c => c.earliestTime_ = confirmedTime o a)
    · intro c x hc
      rw [addVFStencil_earliestTime]
      exact hc
    · exact ht

/-- No operation lowers the stored earliest collision time. -/
theorem op_earliestTime_le (sqrt : K → K) (a b : State K) (h : Op sqrt a b) :
    a.earliestTime_ ≤ b.earliestTime_ := by
  cases h with
  | vf _ x => exact (addVFStencil_earliestTime sqrt a x).ge
  | ee _ x => exact (addEEStencil_earliestTime sqrt a x).ge
  | groups _ m => exact (addGroups_earliestTime sqrt a m).ge
  | fired addForce _ _ s s1 hs => exact (step_fired_frame addForce a b s s1 hs).2.2.2.1.ge
  | done addForce _ _ s s1 hs =>
    rw [(step_done addForce a b s s1 hs).1]
  | rollback _ => exact le_refl _
  | run addForce o fuel _ _ s s1 conv hr =>
    obtain ⟨h1, h2⟩ := runOneIteration_earliestTime sqrt addForce o fuel a b s s1 conv hr
    rw [h1]
    exact h2

/-! ### A completed sample iteration -/

theorem microIntegrate_fresh
    (addForce : PenaltyGroup K → List K → List K → List K → Bool × List K)
    (s : SimulationState K) :
    microIntegrate addForce 1 (fresh : State K) s = Outcome.ok (fresh, finishAll (1 : K) s) :=
  rfl

theorem confirmed_oracleHit (a : State K) :
    confirmedVF oracleHit a = [stencil0] ∧ confirmedEE oracleHit a = [] ∧
    confirmedTime oracleHit a = 1 / 2 :=
  ⟨rfl, rfl, rfl⟩

theorem confirmed_oracleClear (a : State K) :
    confirmedVF oracleClear a = [] ∧ confirmedEE oracleClear a = [] ∧
    confirmedTime oracleClear a = 1 :=
  ⟨rfl, rfl, rfl⟩

theorem fresh_earliestTime : (fresh : State K).earliestTime_ = 0 := rfl

/-- A fresh orchestrator completes an iteration against `oracleHit`. -/
theorem runOneIteration_fresh_hit (sqrt : K → K)
    (addForce : PenaltyGroup K → List K → List K → List K → Bool × List K)
    (s : SimulationState K) :
    runOneIteration sqrt addForce oracleHit 1 (fresh : State K) s =
      Outcome.ok (afterHit sqrt, finishAll (1 : K) s, false) := by
  have h := runOneIteration_of_loop sqrt addForce oracleHit 1 fresh fresh s
    (finishAll (1 : K) s) (microIntegrate_fresh addForce s)
    (by rw [(confirmed_oracleHit _).2.2, fresh_earliestTime]; norm_num)
  rw [h, (confirmed_oracleHit _).1, (confirmed_oracleHit _).2.1, (confirmed_oracleHit _).2.2]
  simp only [List.foldl_cons, List.foldl_nil, List.isEmpty_cons, List.isEmpty_nil, Bool.not_true,
    Bool.not_false, Bool.or_false, Bool.or_true, afterHit]

/-- A fresh orchestrator completes an iteration against `oracleClear`. -/
theorem runOneIteration_fresh_clear (sqrt : K → K)
    (addForce : PenaltyGroup K → List K → List K → List K → Bool × List K)
    (s : SimulationState K) :
    runOneIteration sqrt addForce oracleClear 1 (fresh : State K) s = Outcome.ok
      (rollback { (fresh : State K) with earliestTime_ := 1 }, finishAll (1 : K) s, true) := by
  have h := runOneIteration_of_loop sqrt addForce oracleClear 1 fresh fresh s
    (finishAll (1 : K) s) (microIntegrate_fresh addForce s)
    (by rw [(confirmed_oracleClear _).2.2, fresh_earliestTime]; norm_num)
  rw [h, (confirmed_oracleClear _).1, (confirmed_oracleClear _).2.1,
    (confirmed_oracleClear _).2.2]
  simp only [List.foldl_cons, List.foldl_nil, List.isEmpty_cons, List.isEmpty_nil, Bool.not_true,
    Bool.not_false, Bool.or_false, Bool.or_true]

/-! ### Vectors -/

theorem rd_set (l : List K) (j i : Nat) (x : K) :
    rd (l.set j x) i = if j = i ∧ j < l.length then x else rd l i := by
  unfold rd
  rw [List.getD_eq_getElem?_getD, List.getD_eq_getElem?_getD, List.getElem?_set]
  by_cases h : j = i
  · by_cases h2 : j < l.length
    · subst h
      simp [h2]
    · subst h
      simp [h2, List.getElem?_eq_none (not_lt.mp h2)]
  · simp [h]

theorem finish_fold (T : K) (l : List Nat) (hn : l.Nodup) (s : SimulationState K) :
    (l.foldl (finishDof T) s).v = s.v ∧ (l.foldl (finishDof T) s).minv = s.minv ∧
    (l.foldl (finishDof T) s).q.length = s.q.length ∧
    (l.foldl (finishDof T) s).lastUpdateTime.length = s.lastUpdateTime.length ∧
    ∀ i, rd (l.foldl (finishDof T) s).lastUpdateTime i =
        (if i ∈ l ∧ i < s.lastUpdateTime.length then T else rd s.lastUpdateTime i) ∧
      rd (l.foldl (finishDof T) s).q i =
        (if i ∈ l ∧ i < s.q.length then rd s.q i + (T - rd s.lastUpdateTime i) * rd s.v i
          else rd s.q i) := by
  induction l generalizing s with
  | nil => simp
  | cons x xs ih =>
    rw [List.nodup_cons] at hn
    obtain ⟨hv, hm, hq, hl, hi⟩ := ih hn.2 (finishDof T s x)
    rw [List.foldl_cons]
    refine ⟨hv, hm, ?_, ?_, ?_⟩
    · rw [hq]; simp [finishDof]
    · rw [hl]; simp [finishDof]
    · intro i
      obtain ⟨h1, h2⟩ := hi i
      rw [h1, h2]
      simp only [finishDof, rd_set, List.length_set, List.mem_cons]
      by_cases hx : x = i
      · subst hx
        simp [hn.1]
      · have hx2 : ¬ i = x := fun h => hx h.symm
        simp [hx, hx2]

theorem getElem?_eq_rd (l : List K) (i : Nat) (h : i < l.length) : l[i]? = some (rd l i) := by
  unfold rd
  rw [List.getD_eq_getElem?_getD, List.getElem?_eq_getElem h]
  rfl

theorem commit_fold (nq F : List K) (t : K) (l : List Nat) (hn : l.Nodup)
    (s : SimulationState K) :
    (l.foldl (commitDof nq F t) s).minv = s.minv ∧
    (l.foldl (commitDof nq F t) s).q.length = s.q.length ∧
    (l.foldl (commitDof nq F t) s).v.length = s.v.length ∧
    (l.foldl (commitDof nq F t) s).lastUpdateTime.length = s.lastUpdateTime.length ∧
    ∀ i, rd (l.foldl (commitDof nq F t) s).lastUpdateTime i =
        (if i ∈ l ∧ i < s.lastUpdateTime.length then t else rd s.lastUpdateTime i) ∧
      rd (l.foldl (commitDof nq F t) s).q i =
        (if i ∈ l ∧ i < s.q.length then rd nq i else rd s.q i) ∧
      rd (l.foldl (commitDof nq F t) s).v i =
        (if i ∈ l ∧ i < s.v.length then rd s.v i + rd s.minv i * rd F i else rd s.v i) := by
  induction l generalizing s with
  | nil => simp
  | cons x xs ih =>
    rw [List.nodup_cons] at hn
    obtain ⟨hm, hq, hv, hl, hi⟩ := ih hn.2 (commitDof nq F t s x)
    rw [List.foldl_cons]
    refine ⟨hm, ?_, ?_, ?_, ?_⟩
    · rw [hq]; simp [commitDof]
    · rw [hv]; simp [commitDof]
    · rw [hl]; simp [commitDof]
    · intro i
      obtain ⟨h1, h2, h3⟩ := hi i
      rw [h1, h2, h3]
      simp only [commitDof, rd_set, List.length_set, List.mem_cons]
      by_cases hx : x = i
      · subst hx
        simp [hn.1]
      · have hx2 : ¬ i = x := fun h => hx h.symm
        simp [hx, hx2]

theorem stencilDofs_mem (verts : List Nat) (i : Nat) :
    i ∈ stencilDofs verts ↔ i / 3 ∈ verts := by
  unfold stencilDofs
  simp only [List.mem_flatMap, List.mem_cons, List.mem_singleton, List.not_mem_nil, or_false]
  constructor
  · rintro ⟨v, hv, h | h | h⟩
    · have : i / 3 = v := by omega
      rw [this]; exact hv
    · have : i / 3 = v := by omega
      rw [this]; exact hv
    · have : i / 3 = v := by omega
      rw [this]; exact hv
  · intro h
    refine ⟨i / 3, h, ?_⟩
    omega

theorem stencilDofs_nodup (verts : List Nat) (h : verts.Nodup) : (stencilDofs verts).Nodup := by
  induction verts with
  | nil => simp [stencilDofs]
  | cons x xs ih =>
    rw [List.nodup_cons] at h
    have hx : ∀ j, j / 3 = x → j ∉ stencilDofs xs := by
      intro j hj hmem
      rw [stencilDofs_mem] at hmem
      rw [hj] at hmem
      exact h.1 hmem
    have ih2 := ih h.2
    unfold stencilDofs at ih2 hx ⊢
    rw [List.flatMap_cons]
    rw [List.nodup_append]
    refine ⟨?_, ih2, ?_⟩
    · simp
    · intro j hj hj2
      simp only [List.mem_cons, List.mem_singleton, List.not_mem_nil, or_false] at hj
      exact hx j (by omega) hj2

/-! ### The event queue -/

theorem queueTop_mem (groups : List (PenaltyGroup K)) (queue : List Nat) (gi : Nat)
    (h : queueTop groups queue = some gi) : gi ∈ queue := by
  induction queue generalizing gi with
  | nil => simp [queueTop] at h
  | cons x xs ih =>
    unfold queueTop at h
    split at h
    · cases h
      exact List.mem_cons_self _ _
    · rename_i y hy
      split at h
      · have hgi := Option.some.inj h
        subst hgi
        exact List.mem_cons_of_mem _ (ih _ hy)
      · cases h
        exact List.mem_cons_self _ _

theorem queueTop_eq_none (groups : List (PenaltyGroup K)) (queue : List Nat) :
    queueTop groups queue = none ↔ queue = [] := by
  cases queue with
  | nil => simp [queueTop]
  | cons x xs =>
    unfold queueTop
    constructor
    · intro h
      split at h
      · cases h
      · split at h <;> cases h
    · intro h
      cases h

/-- The loop of `rollback` moves every queue entry to the new queue. -/
theorem drainQueue_perm (groups : List (PenaltyGroup K)) (fuel : Nat) (queue newqueue : List Nat)
    (h : queue.length ≤ fuel) :
    (drainQueue groups fuel queue newqueue).Perm (newqueue ++ queue) := by
  induction fuel generalizing queue newqueue with
  | zero =>
    have : queue = [] := List.length_eq_zero.mp (Nat.le_zero.mp h)
    subst this
    simp [drainQueue]
  | succ n ih =>
    unfold drainQueue
    split
    · rename_i hq
      rw [(queueTop_eq_none groups queue).mp hq]
      simp
    · rename_i gi hq
      have hmem := queueTop_mem groups queue gi hq
      have hlen : (queuePop queue gi).length ≤ n := by
        unfold queuePop
        rw [List.length_erase_of_mem hmem]
        omega
      refine (ih (queuePop queue gi) (queuePush newqueue gi) hlen).trans ?_
      unfold queuePush queuePop
      rw [List.append_assoc]
      exact List.Perm.append_left _ (List.perm_cons_erase hmem).symm

theorem nextFireTime_rollback (g : PenaltyGroup K) : g.rollback.nextFireTime = 0 := by
  simp [PenaltyGroup.nextFireTime, PenaltyGroup.rollback]

/-! ### The orchestrator after a first iteration with a collision -/

theorem afterHit_groups (sqrt : K → K) :
    (afterHit sqrt).groups_ =
      [hitGroup sqrt 1, hitGroup sqrt 2, hitGroup sqrt 3, hitGroup sqrt 4, hitGroup sqrt 5] := by
  simp [afterHit, addVFStencil, addVFStencilRound, addGroups, addGroupsLoop, addOneGroup,
    vfdepthIndex, groupAddVF, rollback, drainQueue, fresh, new, range_five, layerDepth,
    PenaltyGroup.addVFStencil, hitGroup]

theorem afterHit_queue (sqrt : K → K) : (afterHit sqrt).groupQueue_ = [0, 1, 2, 3, 4] := by
  simp [afterHit, addVFStencil, addVFStencilRound, addGroups, addGroupsLoop, addOneGroup,
    vfdepthIndex, groupAddVF, rollback, drainQueue, fresh, new, range_five]

theorem afterHit_times (sqrt : K → K) :
    (afterHit sqrt).termTime_ = 1 ∧ (afterHit sqrt).earliestTime_ = 1 / 2 := by
  simp [afterHit, addVFStencil, addVFStencilRound, addGroups, addGroupsLoop, addOneGroup,
    vfdepthIndex, groupAddVF, rollback, drainQueue, fresh, new, range_five]

theorem hitGroup_nextFireTime (sqrt : K → K) (d : Nat) : (hitGroup sqrt d).nextFireTime = 0 := by
  simp [PenaltyGroup.nextFireTime, hitGroup]

theorem afterHit_top (sqrt : K → K) :
    queueTop (afterHit sqrt).groups_ (afterHit sqrt).groupQueue_ = some 0 := by
  rw [afterHit_groups, afterHit_queue]
  simp [queueTop, PenaltyGroupComparator, fireTimeAt, hitGroup_nextFireTime]

theorem afterHit_group0 (sqrt : K → K) :
    (afterHit sqrt).groups_[0]? = some (hitGroup sqrt 1) := by
  rw [afterHit_groups]
  rfl

theorem forceOf_noForce (s : SimulationState K) (group : PenaltyGroup K) :
    (forceOf noForce s group).1 = false := rfl

theorem forceOf_touchForce (s : SimulationState K) (group : PenaltyGroup K) :
    (forceOf touchForce s group).1 = true := rfl

/-- The first `step` of the second iteration fires layer 1 at time `0`. -/
theorem step_afterHit (sqrt : K → K) (s : SimulationState K) :
    step noForce (afterHit sqrt) s = StepResult.fired
      (requeue (afterHit sqrt) 0 (hitGroup sqrt 1))
      (commitAll s (hitGroup sqrt 1) (predictAll s (hitGroup sqrt 1)).1
        (forceOf noForce s (hitGroup sqrt 1)).2) := by
  unfold step
  rw [afterHit_top]
  simp only [afterHit_group0, hitGroup_nextFireTime, (afterHit_times sqrt).1,
    forceOf_noForce]
  simp

/-! ### The final extrapolation -/

theorem getGroupStencil_dofs_nodup (group : PenaltyGroup K) :
    (stencilDofs group.getGroupStencil).Nodup :=
  stencilDofs_nodup _ (List.nodup_dedup _)

/-- What the final extrapolation does to a state whose vectors have `3 * n`
entries. -/
theorem finishAll_spec (T : K) (s : SimulationState K) (h3 : 3 ∣ s.q.length)
    (hl : s.lastUpdateTime.length = s.q.length) :
    (finishAll T s).v = s.v ∧ (finishAll T s).minv = s.minv ∧
    (finishAll T s).q.length = s.q.length ∧
    (finishAll T s).lastUpdateTime.length = s.q.length ∧
    ∀ i, i < s.q.length →
      (finishAll T s).lastUpdateTime[i]? = some T ∧
      (finishAll T s).q[i]? = some (rd s.q i + (T - rd s.lastUpdateTime i) * rd s.v i) := by
  have hr : 3 * (s.q.length / 3) = s.q.length := Nat.mul_div_cancel' h3
  obtain ⟨hv, hm, hq, hlen, hi⟩ :=
    finish_fold T (List.range (3 * (s.q.length / 3))) (List.nodup_range _) s
  unfold finishAll
  refine ⟨hv, hm, hq, hlen.trans hl, ?_⟩
  intro i hlt
  obtain ⟨h1, h2⟩ := hi i
  have hmem : i ∈ List.range (3 * (s.q.length / 3)) := by
    rw [List.mem_range, hr]
    exact hlt
  rw [getElem?_eq_rd _ i (by rw [hlen, hl]; exact hlt), getElem?_eq_rd _ i (by rw [hq]; exact hlt),
    h1, h2, if_pos ⟨hmem, by rw [hl]; exact hlt⟩, if_pos ⟨hmem, hlt⟩]
  exact ⟨rfl, rfl⟩

theorem step_fired_lengths
    (addForce : PenaltyGroup K → List K → List K → List K → Bool × List K)
    (a a1 : State K) (s s1 : SimulationState K) (h : step addForce a s = StepResult.fired a1 s1) :
    s1.q.length = s.q.length ∧ s1.lastUpdateTime.length = s.lastUpdateTime.length ∧
    s1.v.length = s.v.length ∧ s1.minv = s.minv := by
  obtain ⟨gi, group, _, _, _, _, _, hs⟩ := step_fired addForce a a1 s s1 h
  obtain ⟨hm, hq, hv, hl, _⟩ := commit_fold (predictAll s group).1 (forceOf addForce s group).2
    group.nextFireTime _ (getGroupStencil_dofs_nodup group) s
  rw [hs]
  exact ⟨hq, hl, hv, hm⟩

theorem step_fresh
    (addForce : PenaltyGroup K → List K → List K → List K → Bool × List K)
    (s : SimulationState K) :
    step addForce (fresh : State K) s = StepResult.done fresh (finishAll (1 : K) s) := rfl

theorem restSim_lengths :
    (restSim : SimulationState K).q.length = 12 ∧
    (restSim : SimulationState K).lastUpdateTime.length = 12 := by
  simp [restSim]

/-! ### The layering invariant -/

theorem layerInv_congr (a b : State K) (hd : b.deepestLayer_ = a.deepestLayer_)
    (hg : b.groups_.map PenaltyGroup.rollback = a.groups_.map PenaltyGroup.rollback)
    (hv : ∀ st, vfDepth b st = vfDepth a st) (he : ∀ st, eeDepth b st = eeDepth a st)
    (h : LayerInv a) : LayerInv b := by
  have hlen : b.groups_.length = a.groups_.length := by
    have := congrArg List.length hg
    simpa using this
  have hj : ∀ j : Nat, (b.groups_[j]?).map PenaltyGroup.rollback =
      (a.groups_[j]?).map PenaltyGroup.rollback := by
    intro j
    rw [← List.getElem?_map, ← List.getElem?_map, hg]
  have hvc : ∀ j st, vfCount b j st = vfCount a j st := by
    intro j st
    have := hj j
    unfold vfCount
    cases hb : b.groups_[j]? <;> cases ha : a.groups_[j]? <;> rw [hb, ha] at this <;>
      simp at this
    have h2 := congrArg PenaltyGroup.vfforces_ this
    simp only [PenaltyGroup.rollback] at h2
    simp only [h2]
  have hec : ∀ j st, eeCount b j st = eeCount a j st := by
    intro j st
    have := hj j
    unfold eeCount
    cases hb : b.groups_[j]? <;> cases ha : a.groups_[j]? <;> rw [hb, ha] at this <;>
      simp at this
    have h2 := congrArg PenaltyGroup.eeforces_ this
    simp only [PenaltyGroup.rollback] at h2
    simp only [h2]
  obtain ⟨h1, h2, h3⟩ := h
  refine ⟨by rw [hd, h1, hlen], ?_, ?_⟩
  · intro st j
    rw [hvc, hv, h2]
  · intro st j
    rw [hec, he, h3]

theorem layerInv_new (outerEta innerEta baseDt baseStiffness terminationTime CoR : K) :
    LayerInv (new outerEta innerEta baseDt baseStiffness terminationTime CoR) := by
  refine ⟨rfl, ?_, ?_⟩
  · intro st j
    simp [vfCount, vfDepth, new]
  · intro st j
    simp [eeCount, eeDepth, new]

theorem layerInv_addOneGroup (sqrt : K → K) (a : State K) (h : LayerInv a) :
    LayerInv (addOneGroup sqrt a) := by
  obtain ⟨h1, h2, h3⟩ := h
  refine ⟨?_, ?_, ?_⟩
  · simp [addOneGroup, h1]
  · intro st j
    have hv : vfDepth (addOneGroup sqrt a) st = vfDepth a st := rfl
    rw [hv, ← h2]
    unfold vfCount
    simp only [addOneGroup, List.getElem?_append]
    by_cases hj : j < a.groups_.length
    · simp [hj]
    · rw [if_neg hj, List.getElem?_eq_none (not_lt.mp hj)]
      by_cases hj2 : j - a.groups_.length = 0
      · simp [hj2]
      · have : (j - a.groups_.length) = (j - a.groups_.length - 1) + 1 := by omega
        rw [this]
        simp
  · intro st j
    have hv : eeDepth (addOneGroup sqrt a) st = eeDepth a st := rfl
    rw [hv, ← h3]
    unfold eeCount
    simp only [addOneGroup, List.getElem?_append]
    by_cases hj : j < a.groups_.length
    · simp [hj]
    · rw [if_neg hj, List.getElem?_eq_none (not_lt.mp hj)]
      by_cases hj2 : j - a.groups_.length = 0
      · simp [hj2]
      · have : (j - a.groups_.length) = (j - a.groups_.length - 1) + 1 := by omega
        rw [this]
        simp

theorem layerInv_addGroups (sqrt : K → K) (a : State K) (maxdepth : Nat) (h : LayerInv a) :
    LayerInv (addGroups sqrt a maxdepth) :=
  addGroups_induction sqrt LayerInv (layerInv_addOneGroup sqrt) a maxdepth h

theorem addGroupsLoop_deepest (sqrt : K → K) (maxdepth fuel : Nat) (a : State K)
    (h : maxdepth - a.deepestLayer_ ≤ fuel) :
    (addGroupsLoop sqrt maxdepth fuel a).deepestLayer_ = max a.deepestLayer_ maxdepth := by
  induction fuel generalizing a with
  | zero =>
    unfold addGroupsLoop
    omega
  | succ n ih =>
    unfold addGroupsLoop
    split
    · rename_i hlt
      have hd : (addOneGroup sqrt a).deepestLayer_ = a.deepestLayer_ + 1 := rfl
      rw [ih _ (by rw [hd]; omega), hd]
      omega
    · omega

/-- The loop of `addGroups` ends with `deepestLayer_ ≥ maxdepth`: the fuel it
is given suffices. -/
theorem addGroups_deepest (sqrt : K → K) (a : State K) (maxdepth : Nat) :
    (addGroups sqrt a maxdepth).deepestLayer_ = max a.deepestLayer_ maxdepth :=
  addGroupsLoop_deepest sqrt maxdepth _ a (le_refl _)

theorem addVFStencilRound_groups (sqrt : K → K) (st : VertexFaceStencil) (olddepth : Nat)
    (a : State K) (i : Nat) :
    (addVFStencilRound sqrt st olddepth a i).groups_ =
      (groupAddVF (addGroups sqrt a (olddepth + i + 1)) (olddepth + i) st).groups_ ∧
    (addVFStencilRound sqrt st olddepth a i).deepestLayer_ =
      (addGroups sqrt a (olddepth + i + 1)).deepestLayer_ := by
  unfold addVFStencilRound
  simp only []
  rw [(vfdepthIndex_groups _ _).1, (vfdepthIndex_groups _ _).2.2.1,
    (groupAddVF_frame _ _ _).2.2.2.1]
  exact ⟨rfl, rfl⟩

/-- One round of `addVFStencil` on a stencil of depth `olddepth + i` keeps the
layering invariant. -/
theorem layerInv_addVFStencilRound (sqrt : K → K) (st : VertexFaceStencil) (olddepth : Nat)
    (a : State K) (i : Nat) (h : LayerInv a) (hd : vfDepth a st = olddepth + i) :
    LayerInv (addVFStencilRound sqrt st olddepth a i) := by
  have h1 := layerInv_addGroups sqrt a (olddepth + i + 1) h
  have hdeep := addGroups_deepest sqrt a (olddepth + i + 1)
  obtain ⟨hg, hdl⟩ := addVFStencilRound_groups sqrt st olddepth a i
  obtain ⟨k1, k2, k3⟩ := h1
  have hlt : olddepth + i < (addGroups sqrt a (olddepth + i + 1)).groups_.length := by
    rw [← k1, hdeep]
    omega
  have hsome : (addGroups sqrt a (olddepth + i + 1)).groups_[olddepth + i]? =
      some ((addGroups sqrt a (olddepth + i + 1)).groups_[olddepth + i]) :=
    List.getElem?_eq_getElem hlt
  have hg2 : (addVFStencilRound sqrt st olddepth a i).groups_ =
      (addGroups sqrt a (olddepth + i + 1)).groups_.set (olddepth + i)
        (((addGroups sqrt a (olddepth + i + 1)).groups_[olddepth + i]).addVFStencil st) := by
    rw [hg]
    unfold groupAddVF
    rw [hsome]
  have hva : ∀ s, vfDepth (addGroups sqrt a (olddepth + i + 1)) s = vfDepth a s :=
    fun s => vfDepth_congr _ _ (addGroups_vfdepth sqrt a _) s
  have hlen : (addVFStencilRound sqrt st olddepth a i).deepestLayer_ =
      (addVFStencilRound sqrt st olddepth a i).groups_.length := by
    rw [hdl, k1, hg2, List.length_set]
  have hmain : ∀ s j, vfCount (addVFStencilRound sqrt st olddepth a i) j s =
      if j < vfDepth (addVFStencilRound sqrt st olddepth a i) s then 1 else 0 := by
    intro s j
    rw [addVFStencilRound_vfDepth]
    have hc := k2 s j
    rw [hva] at hc
    unfold vfCount at hc ⊢
    rw [hg2, List.getElem?_set]
    by_cases hj : olddepth + i = j
    · subst hj
      rw [hsome] at hc
      simp only [] at hc
      simp only [if_true, if_pos hlt, PenaltyGroup.addVFStencil, List.count_append]
      rw [hc]
      by_cases hs : s = st
      · subst hs
        simp [hd]
      · have hs2 : ¬ st = s := fun h => hs h.symm
        simp [hs, hs2, List.count_singleton]
    · rw [if_neg hj, hc]
      by_cases hs : s = st
      · subst hs
        rw [hd]
        simp only [if_true]
        have : (j < olddepth + i) ↔ (j < olddepth + i + 1) := by omega
        simp only [this]
      · simp [hs]
  have hother : ∀ s j, eeCount (addVFStencilRound sqrt st olddepth a i) j s =
      if j < eeDepth (addVFStencilRound sqrt st olddepth a i) s then 1 else 0 := by
    intro s j
    rw [eeDepth_congr _ _ (addVFStencilRound_eedepth sqrt st olddepth a i) s]
    have hc := k3 s j
    rw [eeDepth_congr _ _ (addGroups_eedepth sqrt a _) s] at hc
    unfold eeCount at hc ⊢
    rw [hg2, List.getElem?_set]
    by_cases hj : olddepth + i = j
    · subst hj
      rw [hsome] at hc
      simp only [if_true, if_pos hlt, PenaltyGroup.addVFStencil]
      exact hc
    · rw [if_neg hj]
      exact hc
  exact ⟨hlen, hmain, hother⟩

theorem addVFStencilRound_step (sqrt : K → K) (st : VertexFaceStencil) (olddepth : Nat)
    (a : State K) (i : Nat) (h : LayerInv a ∧ vfDepth a st = olddepth + i) :
    LayerInv (addVFStencilRound sqrt st olddepth a i) ∧
    vfDepth (addVFStencilRound sqrt st olddepth a i) st = olddepth + (i + 1) := by
  refine ⟨layerInv_addVFStencilRound sqrt st olddepth a i h.1 h.2, ?_⟩
  rw [addVFStencilRound_vfDepth, if_pos rfl, h.2]
  rfl

theorem layerInv_addVFStencil (sqrt : K → K) (a : State K) (st : VertexFaceStencil)
    (h : LayerInv a) : LayerInv (addVFStencil sqrt a st) := by
  have h0 : LayerInv (vfdepthIndex a st).1 := by
    obtain ⟨g1, _, g3, _, _⟩ := vfdepthIndex_groups a st
    exact layerInv_congr a _ g3 (by rw [g1]) (vfdepthIndex_vfDepth a st)
      (fun s => eeDepth_congr _ _ (vfdepthIndex_eedepth a st) s) h
  have hd0 : vfDepth (vfdepthIndex a st).1 st = (vfdepthIndex a st).2 + 0 := by
    rw [vfdepthIndex_vfDepth, vfdepthIndex_snd]
    rfl
  unfold addVFStencil
  simp only [range_five, List.foldl_cons, List.foldl_nil]
  exact (addVFStencilRound_step sqrt st _ _ 4 (addVFStencilRound_step sqrt st _ _ 3
    (addVFStencilRound_step sqrt st _ _ 2 (addVFStencilRound_step sqrt st _ _ 1
      (addVFStencilRound_step sqrt st _ _ 0 ⟨h0, hd0⟩))))).1

theorem addEEStencilRound_groups (sqrt : K → K) (st : EdgeEdgeStencil) (olddepth : Nat)
    (a : State K) (i : Nat) :
    (addEEStencilRound sqrt st olddepth a i).groups_ =
      (groupAddEE (addGroups sqrt a (olddepth + i + 1)) (olddepth + i) st).groups_ ∧
    (addEEStencilRound sqrt st olddepth a i).deepestLayer_ =
      (addGroups sqrt a (olddepth + i + 1)).deepestLayer_ := by
  unfold addEEStencilRound
  simp only []
  rw [(eedepthIndex_groups _ _).1, (eedepthIndex_groups _ _).2.2.1,
    (groupAddEE_frame _ _ _).2.2.2.1]
  exact ⟨rfl, rfl⟩

/-- One round of `addEEStencil` on an edge-edge stencil of depth `olddepth + i` keeps the
layering invariant. -/
theorem layerInv_addEEStencilRound (sqrt : K → K) (st : EdgeEdgeStencil) (olddepth : Nat)
    (a : State K) (i : Nat) (h : LayerInv a) (hd : eeDepth a st = olddepth + i) :
    LayerInv (addEEStencilRound sqrt st olddepth a i) := by
  have h1 := layerInv_addGroups sqrt a (olddepth + i + 1) h
  have hdeep := addGroups_deepest sqrt a (olddepth + i + 1)
  obtain ⟨hg, hdl⟩ := addEEStencilRound_groups sqrt st olddepth a i
  obtain ⟨k1, k2, k3⟩ := h1
  have hlt : olddepth + i < (addGroups sqrt a (olddepth + i + 1)).groups_.length := by
    rw [← k1, hdeep]
    omega
  have hsome : (addGroups sqrt a (olddepth + i + 1)).groups_[olddepth + i]? =
      some ((addGroups sqrt a (olddepth + i + 1)).groups_[olddepth + i]) :=
    List.getElem?_eq_getElem hlt
  have hg2 : (addEEStencilRound sqrt st olddepth a i).groups_ =
      (addGroups sqrt a (olddepth + i + 1)).groups_.set (olddepth + i)
        (((addGroups sqrt a (olddepth + i + 1)).groups_[olddepth + i]).addEEStencil st) := by
    rw [hg]
    unfold groupAddEE
    rw [hsome]
  have hva : ∀ s, eeDepth (addGroups sqrt a (olddepth + i + 1)) s = eeDepth a s :=
    fun s => eeDepth_congr _ _ (addGroups_eedepth sqrt a _) s
  have hlen : (addEEStencilRound sqrt st olddepth a i).deepestLayer_ =
      (addEEStencilRound sqrt st olddepth a i).groups_.length := by
    rw [hdl, k1, hg2, List.length_set]
  have hmain : ∀ s j, eeCount (addEEStencilRound sqrt st olddepth a i) j s =
      if j < eeDepth (addEEStencilRound sqrt st olddepth a i) s then 1 else 0 := by
    intro s j
    rw [addEEStencilRound_eeDepth]
    have hc := k3 s j
    rw [hva] at hc
    unfold eeCount at hc ⊢
    rw [hg2, List.getElem?_set]
    by_cases hj : olddepth + i = j
    · subst hj
      rw [hsome] at hc
      simp only [] at hc
      simp only [if_true, if_pos hlt, PenaltyGroup.addEEStencil, List.count_append]
      rw [hc]
      by_cases hs : s = st
      · subst hs
        simp [hd]
      · have hs2 : ¬ st = s := fun h => hs h.symm
        simp [hs, hs2, List.count_singleton]
    · rw [if_neg hj, hc]
      by_cases hs : s = st
      · subst hs
        rw [hd]
        simp only [if_true]
        have : (j < olddepth + i) ↔ (j < olddepth + i + 1) := by omega
        simp only [this]
      · simp [hs]
  have hother : ∀ s j, vfCount (addEEStencilRound sqrt st olddepth a i) j s =
      if j < vfDepth (addEEStencilRound sqrt st olddepth a i) s then 1 else 0 := by
    intro s j
    rw [vfDepth_congr _ _ (addEEStencilRound_vfdepth sqrt st olddepth a i) s]
    have hc := k2 s j
    rw [vfDepth_congr _ _ (addGroups_vfdepth sqrt a _) s] at hc
    unfold vfCount at hc ⊢
    rw [hg2, List.getElem?_set]
    by_cases hj : olddepth + i = j
    · subst hj
      rw [hsome] at hc
      simp only [if_true, if_pos hlt, PenaltyGroup.addEEStencil]
      exact hc
    · rw [if_neg hj]
      exact hc
  exact ⟨hlen, hother, hmain⟩

theorem addEEStencilRound_step (sqrt : K → K) (st : EdgeEdgeStencil) (olddepth : Nat)
    (a : State K) (i : Nat) (h : LayerInv a ∧ eeDepth a st = olddepth + i) :
    LayerInv (addEEStencilRound sqrt st olddepth a i) ∧
    eeDepth (addEEStencilRound sqrt st olddepth a i) st = olddepth + (i + 1) := by
  refine ⟨layerInv_addEEStencilRound sqrt st olddepth a i h.1 h.2, ?_⟩
  rw [addEEStencilRound_eeDepth, if_pos rfl, h.2]
  rfl

theorem layerInv_addEEStencil (sqrt : K → K) (a : State K) (st : EdgeEdgeStencil)
    (h : LayerInv a) : LayerInv (addEEStencil sqrt a st) := by
  have h0 : LayerInv (eedepthIndex a st).1 := by
    obtain ⟨g1, _, g3, _, _⟩ := eedepthIndex_groups a st
    exact layerInv_congr a _ g3 (by rw [g1])
      (fun s => vfDepth_congr _ _ (eedepthIndex_vfdepth a st) s) (eedepthIndex_eeDepth a st) h
  have hd0 : eeDepth (eedepthIndex a st).1 st = (eedepthIndex a st).2 + 0 := by
    rw [eedepthIndex_eeDepth, eedepthIndex_snd]
    rfl
  unfold addEEStencil
  simp only [range_five, List.foldl_cons, List.foldl_nil]
  exact (addEEStencilRound_step sqrt st _ _ 4 (addEEStencilRound_step sqrt st _ _ 3
    (addEEStencilRound_step sqrt st _ _ 2 (addEEStencilRound_step sqrt st _ _ 1
      (addEEStencilRound_step sqrt st _ _ 0 ⟨h0, hd0⟩))))).1

theorem layerInv_of_stepFrame (a b : State K) (hf : StepFrame a b) (h : LayerInv a) :
    LayerInv b :=
  layerInv_congr a b hf.2.2.2.2.1 hf.2.2.2.2.2 (vfDepth_congr a b hf.2.1)
    (eeDepth_congr a b hf.2.2.1) h

/-- Every operation keeps the layering invariant. -/
theorem layerInv_op (sqrt : K → K) (a b : State K) (hop : Op sqrt a b) (h : LayerInv a) :
    LayerInv b := by
  cases hop with
  | vf _ x => exact layerInv_addVFStencil sqrt a x h
  | ee _ x => exact layerInv_addEEStencil sqrt a x h
  | groups _ m => exact layerInv_addGroups sqrt a m h
  | fired addForce _ _ s s1 hs =>
    exact layerInv_of_stepFrame a b (step_fired_frame addForce a b s s1 hs) h
  | done addForce _ _ s s1 hs =>
    rw [(step_done addForce a b s s1 hs).1]
    exact h
  | rollback _ => exact layerInv_of_stepFrame a _ (rollback_frame a) h
  | run addForce o fuel _ _ s s1 conv hr =>
    obtain ⟨a0, hv, he, hd, _, hg, _, hb⟩ :=
      runOneIteration_depths sqrt addForce o fuel a b s s1 conv hr
    have h0 : LayerInv a0 := by
      refine layerInv_congr a a0 hd ?_ (vfDepth_congr a a0 hv) (eeDepth_congr a a0 he) h
      rw [hg, List.map_map]
      rfl
    rw [hb]
    exact foldl_addEEStencil_induction sqrt LayerInv (fun c x hc => layerInv_addEEStencil sqrt c x hc)
      _ _ (foldl_addVFStencil_induction sqrt LayerInv
        (fun c x hc => layerInv_addVFStencil sqrt c x hc) _ _ h0)

theorem layerInv_reachable (sqrt : K → K) (a : State K) (h : Reachable sqrt a) : LayerInv a := by
  induction h with
  | new => exact layerInv_new _ _ _ _ _ _
  | op a b _ hop ih => exact layerInv_op sqrt a b hop ih

theorem afterHit_reachable (sqrt : K → K) : Reachable sqrt (afterHit sqrt) :=
  Reachable.op fresh (afterHit sqrt) (Reachable.new 1 0 1 1 1 0)
    (Op.run noForce oracleHit 1 fresh (afterHit sqrt) emptySim (finishAll (1 : K) emptySim) false
      (runOneIteration_fresh_hit sqrt noForce emptySim))

theorem afterHit_vfDepth (sqrt : K → K) : vfDepth (afterHit sqrt) stencil0 = 5 := by
  unfold afterHit
  rw [addVFStencil_vfDepth, if_pos rfl]
  rfl

/-! ### `lastUpdateTime` along the micro-integration loop -/

/-- The group on top of the queue has the least fire time of the queue. -/
theorem queueTop_le (groups : List (PenaltyGroup K)) (queue : List Nat) (gi : Nat)
    (h : queueTop groups queue = some gi) :
    ∀ y ∈ queue, fireTimeAt groups gi ≤ fireTimeAt groups y := by
  induction queue generalizing gi with
  | nil => simp [queueTop] at h
  | cons x xs ih =>
    unfold queueTop at h
    split at h
    · rename_i hq
      have hgi := Option.some.inj h
      subst hgi
      rw [(queueTop_eq_none groups xs).mp hq]
      intro y hy
      simp only [List.mem_singleton] at hy
      rw [hy]
    · rename_i z hz
      have ihz := ih z hz
      unfold PenaltyGroupComparator at h
      split at h
      · rename_i hlt
        have hlt2 : fireTimeAt groups z < fireTimeAt groups x := by simpa using hlt
        have hgi := Option.some.inj h
        subst hgi
        intro y hy
        rcases List.mem_cons.mp hy with rfl | hy
        · exact le_of_lt hlt2
        · exact ihz y hy
      · rename_i hlt
        have hle : fireTimeAt groups x ≤ fireTimeAt groups z := by
          have : ¬ fireTimeAt groups z < fireTimeAt groups x := by simpa using hlt
          exact not_lt.mp this
        have hgi := Option.some.inj h
        subst hgi
        intro y hy
        rcases List.mem_cons.mp hy with rfl | hy
        · exact le_refl _
        · exact le_trans hle (ihz y hy)

theorem fireTimeAt_set (groups : List (PenaltyGroup K)) (gi : Nat) (group : PenaltyGroup K)
    (hg : groups[gi]? = some group) (y : Nat) :
    fireTimeAt (groups.set gi group.incrementTimeStep) y =
      if y = gi then fireTimeAt groups gi + group.dt_ else fireTimeAt groups y := by
  have hlt : gi < groups.length := by
    rcases Nat.lt_or_ge gi groups.length with h | h
    · exact h
    · rw [List.getElem?_eq_none h] at hg
      cases hg
  unfold fireTimeAt
  rw [List.getElem?_set]
  by_cases hy : y = gi
  · subst hy
    simp only [if_true, if_pos hlt, hg, PenaltyGroup.nextFireTime,
      PenaltyGroup.incrementTimeStep]
    push_cast
    ring
  · have hy2 : ¬ gi = y := fun h => hy h.symm
    simp only [if_neg hy, if_neg hy2]

theorem requeue_mem (a : State K) (gi : Nat) (group : PenaltyGroup K)
    (hmem : gi ∈ a.groupQueue_) (y : Nat) (hy : y ∈ (requeue a gi group).groupQueue_) :
    y ∈ a.groupQueue_ := by
  simp only [requeue, queuePush, queuePop, List.mem_append, List.mem_singleton] at hy
  rcases hy with hy | hy
  · exact List.mem_of_mem_erase hy
  · rw [hy]
    exact hmem

/-- A firing event leaves `lastUpdateTime` of every DOF either as it was or at
the fire time. -/
theorem step_fired_lastUpdateTime
    (addForce : PenaltyGroup K → List K → List K → List K → Bool × List K)
    (a a1 : State K) (s s1 : SimulationState K) (h : step addForce a s = StepResult.fired a1 s1) :
    ∃ gi group, queueTop a.groups_ a.groupQueue_ = some gi ∧ a.groups_[gi]? = some group ∧
      group.nextFireTime < a.termTime_ ∧ a1 = requeue a gi group ∧
      s1.lastUpdateTime.length = s.lastUpdateTime.length ∧
      ∀ i, rd s1.lastUpdateTime i =
        if i ∈ stencilDofs group.getGroupStencil ∧ i < s.lastUpdateTime.length
          then group.nextFireTime else rd s.lastUpdateTime i := by
  obtain ⟨gi, group, hq, hg, hlt, _, ha, hs⟩ := step_fired addForce a a1 s s1 h
  obtain ⟨_, _, _, hl, hi⟩ := commit_fold (predictAll s group).1 (forceOf addForce s group).2
    group.nextFireTime _ (getGroupStencil_dofs_nodup group) s
  refine ⟨gi, group, hq, hg, hlt, ha, ?_, ?_⟩
  · rw [hs]
    exact hl
  · intro i
    rw [hs]
    exact (hi i).1

/-- The final extrapolation leaves `lastUpdateTime` of every DOF either as it
was or at the horizon. -/
theorem finishAll_lastUpdateTime (T : K) (s : SimulationState K) :
    (finishAll T s).lastUpdateTime.length = s.lastUpdateTime.length ∧
    ∀ i, rd (finishAll T s).lastUpdateTime i = rd s.lastUpdateTime i ∨
      rd (finishAll T s).lastUpdateTime i = T := by
  obtain ⟨_, _, _, hl, hi⟩ :=
    finish_fold T (List.range (3 * (s.q.length / 3))) (List.nodup_range _) s
  refine ⟨hl, fun i => ?_⟩
  have h := (hi i).1
  unfold finishAll
  rw [h]
  split
  · exact Or.inr rfl
  · exact Or.inl rfl

theorem loopInv_fired
    (addForce : PenaltyGroup K → List K → List K → List K → Bool × List K)
    (a a1 : State K) (s s1 : SimulationState K) (h : step addForce a s = StepResult.fired a1 s1)
    (hinv : LoopInv a s) :
    LoopInv a1 s1 ∧ a1.termTime_ = a.termTime_ ∧
    s1.lastUpdateTime.length = s.lastUpdateTime.length ∧
    ∀ i, i < s.lastUpdateTime.length →
      rd s.lastUpdateTime i ≤ rd s1.lastUpdateTime i ∧ rd s1.lastUpdateTime i ≤ a.termTime_ := by
  obtain ⟨gi, group, hq, hg, hlt, ha, hl, hi⟩ := step_fired_lastUpdateTime addForce a a1 s s1 h
  obtain ⟨h1, h2, h3⟩ := hinv
  have hmem := queueTop_mem a.groups_ a.groupQueue_ gi hq
  have hmin := queueTop_le a.groups_ a.groupQueue_ gi hq
  have hfire : fireTimeAt a.groups_ gi = group.nextFireTime := by
    unfold fireTimeAt
    rw [hg]
  have hdt : 0 < group.dt_ := h3 group (List.getElem?_mem hg)
  have hnew : ∀ i, i < s.lastUpdateTime.length →
      rd s.lastUpdateTime i ≤ rd s1.lastUpdateTime i ∧
      rd s1.lastUpdateTime i ≤ group.nextFireTime := by
    intro i hlen
    have hold := h1 gi hmem i hlen
    rw [hfire] at hold
    rw [hi i]
    split
    · exact ⟨hold, le_refl _⟩
    · exact ⟨le_refl _, hold⟩
  refine ⟨⟨?_, ?_, ?_⟩, by rw [ha]; rfl, hl, fun i hlen =>
    ⟨(hnew i hlen).1, le_trans (hnew i hlen).2 (le_of_lt hlt)⟩⟩
  · intro y hy i hlen
    rw [hl] at hlen
    rw [ha] at hy ⊢
    have hy2 := requeue_mem a gi group hmem y hy
    show rd s1.lastUpdateTime i ≤ fireTimeAt (a.groups_.set gi group.incrementTimeStep) y
    rw [fireTimeAt_set a.groups_ gi group hg y]
    have hle := (hnew i hlen).2
    split
    · rw [hfire]
      linarith
    · have := hmin y hy2
      rw [hfire] at this
      exact le_trans hle this
  · intro i hlen
    rw [hl] at hlen
    rw [ha]
    exact le_trans (hnew i hlen).2 (le_of_lt hlt)
  · intro g hgm
    rw [ha] at hgm
    rcases List.mem_or_eq_of_mem_set hgm with hgm | hgm
    · exact h3 g hgm
    · rw [hgm]
      exact hdt
theorem loopInv_start (a0 : State K) (s0 : SimulationState K)
    (hclock : ∀ g ∈ a0.groups_, g.nextstep_ = 0) (hdt : ∀ g ∈ a0.groups_, 0 < g.dt_)
    (hlut : ∀ i, i < s0.lastUpdateTime.length → rd s0.lastUpdateTime i ≤ 0)
    (hT : 0 ≤ a0.termTime_) : LoopInv a0 s0 := by
  refine ⟨?_, fun i hi => le_trans (hlut i hi) hT, hdt⟩
  intro gi _ i hi
  have h0 : fireTimeAt a0.groups_ gi = 0 := by
    unfold fireTimeAt
    cases hg : a0.groups_[gi]? with
    | none => rfl
    | some g =>
      simp only [PenaltyGroup.nextFireTime, hclock g (List.getElem?_mem hg), Nat.cast_zero,
        zero_mul]
  rw [h0]
  exact hlut i hi

theorem loopInv_reach
    (addForce : PenaltyGroup K → List K → List K → List K → Bool × List K)
    (a0 a : State K) (s0 s : SimulationState K) (h0 : LoopInv a0 s0)
    (hr : LoopReach addForce a0 s0 a s) :
    LoopInv a s ∧ a.termTime_ = a0.termTime_ := by
  induction hr with
  | start => exact ⟨h0, rfl⟩
  | fire a a1 s s1 _ hs ih =>
    obtain ⟨h1, h2, _, _⟩ := loopInv_fired addForce a a1 s s1 hs ih.1
    exact ⟨h1, h2.trans ih.2⟩

theorem afterHit_clocks (sqrt : K → K) : ∀ g ∈ (afterHit sqrt).groups_, g.nextstep_ = 0 := by
  intro g hg
  rw [afterHit_groups] at hg
  simp only [List.mem_cons, List.mem_singleton, List.not_mem_nil, or_false] at hg
  rcases hg with rfl | rfl | rfl | rfl | rfl <;> rfl

theorem afterHit_dt_pos : ∀ g ∈ (afterHit Real.sqrt).groups_, 0 < g.dt_ := by
  intro g hg
  rw [afterHit_groups] at hg
  simp only [List.mem_cons, List.mem_singleton, List.not_mem_nil, or_false] at hg
  rcases hg with rfl | rfl | rfl | rfl | rfl <;>
    · simp only [hitGroup]
      positivity

theorem restSim_lastUpdateTime (i : Nat) : rd (restSim : SimulationState K).lastUpdateTime i = 0 := by
  unfold rd restSim
  rw [List.getD_eq_getElem?_getD]
  simp only [List.getElem?_replicate]
  split <;> rfl

/-! ### `lastUpdateTime` across outer iterations -/

theorem addVFStencilRound_sameParams (sqrt : K → K) (st : VertexFaceStencil) (olddepth : Nat)
    (a : State K) (i : Nat) : SameParams a (addVFStencilRound sqrt st olddepth a i) := by
  unfold addVFStencilRound
  simp only []
  exact sameParams_trans (addGroups_sameParams sqrt a _)
    (sameParams_trans (groupAddVF_frame _ _ _).2.2.2.2.2 (vfdepthIndex_groups _ _).2.2.2.2)

theorem addVFStencil_sameParams (sqrt : K → K) (a : State K) (st : VertexFaceStencil) :
    SameParams a (addVFStencil sqrt a st) := by
  unfold addVFStencil
  simp only [range_five, List.foldl_cons, List.foldl_nil]
  exact sameParams_trans (vfdepthIndex_groups a st).2.2.2.2
    (sameParams_trans (addVFStencilRound_sameParams sqrt st _ _ 0)
    (sameParams_trans (addVFStencilRound_sameParams sqrt st _ _ 1)
    (sameParams_trans (addVFStencilRound_sameParams sqrt st _ _ 2)
    (sameParams_trans (addVFStencilRound_sameParams sqrt st _ _ 3)
      (addVFStencilRound_sameParams sqrt st _ _ 4)))))

theorem addEEStencilRound_sameParams (sqrt : K → K) (st : EdgeEdgeStencil) (olddepth : Nat)
    (a : State K) (i : Nat) : SameParams a (addEEStencilRound sqrt st olddepth a i) := by
  unfold addEEStencilRound
  simp only []
  exact sameParams_trans (addGroups_sameParams sqrt a _)
    (sameParams_trans (groupAddEE_frame _ _ _).2.2.2.2.2 (eedepthIndex_groups _ _).2.2.2.2)

theorem addEEStencil_sameParams (sqrt : K → K) (a : State K) (st : EdgeEdgeStencil) :
    SameParams a (addEEStencil sqrt a st) := by
  unfold addEEStencil
  simp only [range_five, List.foldl_cons, List.foldl_nil]
  exact sameParams_trans (eedepthIndex_groups a st).2.2.2.2
    (sameParams_trans (addEEStencilRound_sameParams sqrt st _ _ 0)
    (sameParams_trans (addEEStencilRound_sameParams sqrt st _ _ 1)
    (sameParams_trans (addEEStencilRound_sameParams sqrt st _ _ 2)
    (sameParams_trans (addEEStencilRound_sameParams sqrt st _ _ 3)
      (addEEStencilRound_sameParams sqrt st _ _ 4)))))

/-- A completed `runOneIteration` leaves the constructor's parameters alone. -/
theorem runOneIteration_sameParams (sqrt : K → K)
    (addForce : PenaltyGroup K → List K → List K → List K → Bool × List K)
    (o : CollisionOracle K) (fuel : Nat) (a a2 : State K) (s s2 : SimulationState K)
    (conv : Bool) (h : runOneIteration sqrt addForce o fuel a s = Outcome.ok (a2, s2, conv)) :
    SameParams a a2 := by
  obtain ⟨a0, _, _, _, _, _, hp, hb⟩ :=
    runOneIteration_depths sqrt addForce o fuel a a2 s s2 conv h
  rw [hb]
  exact foldl_addEEStencil_induction sqrt (fun c => SameParams a c)
    (fun c x hc => sameParams_trans hc (addEEStencil_sameParams sqrt c x)) _ _
    (foldl_addVFStencil_induction sqrt (fun c => SameParams a c)
      (fun c x hc => sameParams_trans hc (addVFStencil_sameParams sqrt c x)) _ _ hp)

/-- Being at most `T` everywhere survives a firing event below `T`. -/
theorem bounded_fired
    (addForce : PenaltyGroup K → List K → List K → List K → Bool × List K)
    (a a1 : State K) (s s1 : SimulationState K) (h : step addForce a s = StepResult.fired a1 s1)
    (hb : ∀ i, i < s.lastUpdateTime.length → rd s.lastUpdateTime i ≤ a.termTime_) :
    a1.termTime_ = a.termTime_ ∧
    ∀ i, i < s1.lastUpdateTime.length → rd s1.lastUpdateTime i ≤ a.termTime_ := by
  obtain ⟨gi, group, _, _, hlt, ha, hl, hi⟩ := step_fired_lastUpdateTime addForce a a1 s s1 h
  refine ⟨by rw [ha]; rfl, fun i hlen => ?_⟩
  rw [hl] at hlen
  rw [hi i]
  split
  · exact le_of_lt hlt
  · exact hb i hlen

theorem bounded_done
    (addForce : PenaltyGroup K → List K → List K → List K → Bool × List K)
    (a a1 : State K) (s s1 : SimulationState K) (h : step addForce a s = StepResult.done a1 s1)
    (hb : ∀ i, i < s.lastUpdateTime.length → rd s.lastUpdateTime i ≤ a.termTime_) :
    a1 = a ∧ s1.lastUpdateTime.length = s.lastUpdateTime.length ∧
    ∀ i, i < s.lastUpdateTime.length →
      rd s.lastUpdateTime i ≤ rd s1.lastUpdateTime i ∧ rd s1.lastUpdateTime i ≤ a.termTime_ := by
  obtain ⟨ha, hs1, _⟩ := step_done addForce a a1 s s1 h
  obtain ⟨hl, hi⟩ := finishAll_lastUpdateTime a.termTime_ s
  rw [hs1]
  refine ⟨ha, hl, fun i hlen => ?_⟩
  rcases hi i with h | h
  · rw [h]
    exact ⟨le_refl _, hb i hlen⟩
  · rw [h]
    exact ⟨hb i hlen, le_refl _⟩

theorem bounded_loop
    (addForce : PenaltyGroup K → List K → List K → List K → Bool × List K)
    (a0 a : State K) (s0 s : SimulationState K)
    (hb : ∀ i, i < s0.lastUpdateTime.length → rd s0.lastUpdateTime i ≤ a0.termTime_)
    (hr : LoopReach addForce a0 s0 a s) :
    a.termTime_ = a0.termTime_ ∧
    ∀ i, i < s.lastUpdateTime.length → rd s.lastUpdateTime i ≤ a0.termTime_ := by
  induction hr with
  | start => exact ⟨rfl, hb⟩
  | fire a a1 s s1 _ hs ih =>
    obtain ⟨h1, h2⟩ := bounded_fired addForce a a1 s s1 hs (by rw [ih.1]; exact ih.2)
    rw [ih.1] at h1 h2
    exact ⟨h1, h2⟩

theorem bounded_run (sqrt : K → K)
    (addForce : PenaltyGroup K → List K → List K → List K → Bool × List K)
    (a0 a : State K) (s0 s : SimulationState K)
    (hb : ∀ i, i < s0.lastUpdateTime.length → rd s0.lastUpdateTime i ≤ a0.termTime_)
    (hr : RunReach sqrt addForce a0 s0 a s) :
    a.termTime_ = a0.termTime_ ∧
    ∀ i, i < s.lastUpdateTime.length → rd s.lastUpdateTime i ≤ a0.termTime_ := by
  induction hr with
  | start => exact ⟨rfl, hb⟩
  | iteration o fuel a a1 s s1 conv _ hrun ih =>
    obtain ⟨am, hm, _, _, _⟩ := runOneIteration_ok sqrt addForce o fuel a a1 s s1 conv hrun
    obtain ⟨ax, sx, ⟨hx1, hx2⟩, hd⟩ := microIntegrate_ok addForce
      (fun b t => b.termTime_ = a0.termTime_ ∧
        ∀ i, i < t.lastUpdateTime.length → rd t.lastUpdateTime i ≤ a0.termTime_)
      (fun b t b1 t1 hbt hs => by
        obtain ⟨h1, h2⟩ := bounded_fired addForce b b1 t t1 hs (by rw [hbt.1]; exact hbt.2)
        rw [hbt.1] at h1 h2
        exact ⟨h1, h2⟩)
      fuel a s (am, s1) ih hm
    obtain ⟨_, hl, hi⟩ := bounded_done addForce ax am sx s1 hd (by rw [hx1]; exact hx2)
    refine ⟨?_, fun i hlen => ?_⟩
    · rw [(runOneIteration_sameParams sqrt addForce o fuel a a1 s s1 conv hrun).2.2.2.2.1]
      exact ih.1
    · rw [hl] at hlen
      have := (hi i hlen).2
      rw [hx1] at this
      exact this

theorem finishAll_restSim (i : Nat) (hi : i < 12) :
    (finishAll (1 : K) restSim).lastUpdateTime.length = 12 ∧
    rd (finishAll (1 : K) restSim).lastUpdateTime i = 1 := by
  have h3 : 3 ∣ (restSim : SimulationState K).q.length := by
    rw [restSim_lengths.1]
    decide
  have hl : (restSim : SimulationState K).lastUpdateTime.length =
      (restSim : SimulationState K).q.length := by
    rw [restSim_lengths.1, restSim_lengths.2]
  obtain ⟨_, _, _, hlen, h⟩ := finishAll_spec (1 : K) restSim h3 hl
  rw [restSim_lengths.1] at hlen h
  have h1 := (h i hi).1
  rw [getElem?_eq_rd _ i (by rw [hlen]; exact hi)] at h1
  exact ⟨hlen, Option.some.inj h1⟩

theorem hitGroup_dof0 (sqrt : K → K) : 0 ∈ stencilDofs (hitGroup sqrt 1).getGroupStencil := by
  rw [stencilDofs_mem]
  simp [hitGroup, PenaltyGroup.getGroupStencil, stencil0]

/-! ### Layer time steps and stiffness -/

/-- One round of the loop of `addGroups` appends the group of the next depth
and queues it. -/
theorem addOneGroup_eq (sqrt : K → K) (a : State K) :
    addOneGroup sqrt a =
      { a with groups_ := a.groups_ ++ [layerGroup sqrt a (a.deepestLayer_ + 1)],
               groupQueue_ := a.groupQueue_ ++ [a.groups_.length],
               deepestLayer_ := a.deepestLayer_ + 1 } := rfl

theorem layerDt_pos (a : State ℝ) (h : 0 < a.baseDt_) (d : Nat) (hd : 1 ≤ d) :
    0 < layerDt Real.sqrt a d := by
  have hd0 : (0 : ℝ) < d := by exact_mod_cast hd
  unfold layerDt
  positivity

theorem layerDt_lt (a : State ℝ) (h : 0 < a.baseDt_) (d : Nat) (hd : 1 ≤ d) :
    layerDt Real.sqrt a (d + 1) < layerDt Real.sqrt a d := by
  have hd0 : (0 : ℝ) < d := by exact_mod_cast hd
  have hs0 : 0 < Real.sqrt ((d : ℝ) + 1 / 10000) := Real.sqrt_pos.mpr (by positivity)
  have hs : Real.sqrt ((d : ℝ) + 1 / 10000) < Real.sqrt (((d + 1 : Nat) : ℝ) + 1 / 10000) := by
    apply Real.sqrt_lt_sqrt (by positivity)
    push_cast
    linarith
  unfold layerDt
  rw [div_div, div_div]
  apply div_lt_div_of_pos_left h (by positivity)
  have hd1 : (d : ℝ) < ((d + 1 : Nat) : ℝ) := by push_cast; linarith
  exact mul_lt_mul'' hd1 hs hd0.le hs0.le

theorem layerStiffness_eq (a : State K) (d : Nat) :
    layerStiffness a d = a.baseStiffness_ * (d : K) ^ 3 := by
  unfold layerStiffness
  ring


theorem fireTime_tie_iff (a : State ℝ) (h : 0 < a.baseDt_) (d1 d2 n1 n2 : Nat)
    (hd1 : 1 ≤ d1) (hd2 : 1 ≤ d2) :
    (n1 : ℝ) * layerDt Real.sqrt a d1 = (n2 : ℝ) * layerDt Real.sqrt a d2 ↔
      n1 ^ 2 * d2 ^ 2 * (10000 * d2 + 1) = n2 ^ 2 * d1 ^ 2 * (10000 * d1 + 1) := by
  have h1 : (0 : ℝ) < d1 := by exact_mod_cast hd1
  have h2 : (0 : ℝ) < d2 := by exact_mod_cast hd2
  have e1 : (0 : ℝ) ≤ (d1 : ℝ) + 1 / 10000 := by positivity
  have e2 : (0 : ℝ) ≤ (d2 : ℝ) + 1 / 10000 := by positivity
  have s1 : 0 < Real.sqrt ((d1 : ℝ) + 1 / 10000) := Real.sqrt_pos.mpr (by positivity)
  have s2 : 0 < Real.sqrt ((d2 : ℝ) + 1 / 10000) := Real.sqrt_pos.mpr (by positivity)
  have q1 : Real.sqrt ((d1 : ℝ) + 1 / 10000) ^ 2 = (d1 : ℝ) + 1 / 10000 := Real.sq_sqrt e1
  have q2 : Real.sqrt ((d2 : ℝ) + 1 / 10000) ^ 2 = (d2 : ℝ) + 1 / 10000 := Real.sq_sqrt e2
  have hb : a.baseDt_ ≠ 0 := h.ne'
  have step1 : (n1 : ℝ) * layerDt Real.sqrt a d1 = (n2 : ℝ) * layerDt Real.sqrt a d2 ↔
      (n1 : ℝ) * d2 * Real.sqrt ((d2 : ℝ) + 1 / 10000) =
        (n2 : ℝ) * d1 * Real.sqrt ((d1 : ℝ) + 1 / 10000) := by
    unfold layerDt
    rw [div_div, div_div, mul_div_assoc', mul_div_assoc', div_eq_div_iff (by positivity)
      (by positivity)]
    constructor
    · intro h3
      have : a.baseDt_ * ((n1 : ℝ) * d2 * Real.sqrt ((d2 : ℝ) + 1 / 10000)) =
          a.baseDt_ * ((n2 : ℝ) * d1 * Real.sqrt ((d1 : ℝ) + 1 / 10000)) := by linarith
      exact mul_left_cancel₀ hb this
    · intro h3
      have : a.baseDt_ * ((n1 : ℝ) * d2 * Real.sqrt ((d2 : ℝ) + 1 / 10000)) =
          a.baseDt_ * ((n2 : ℝ) * d1 * Real.sqrt ((d1 : ℝ) + 1 / 10000)) := by rw [h3]
      linarith
  have step2 : (n1 : ℝ) * d2 * Real.sqrt ((d2 : ℝ) + 1 / 10000) =
        (n2 : ℝ) * d1 * Real.sqrt ((d1 : ℝ) + 1 / 10000) ↔
      ((n1 : ℝ) * d2 * Real.sqrt ((d2 : ℝ) + 1 / 10000)) ^ 2 =
        ((n2 : ℝ) * d1 * Real.sqrt ((d1 : ℝ) + 1 / 10000)) ^ 2 := by
    constructor
    · intro h3
      rw [h3]
    · intro h3
      exact (pow_left_inj₀ (by positivity) (by positivity) (by decide)).mp h3
  have step3 : ((n1 : ℝ) * d2 * Real.sqrt ((d2 : ℝ) + 1 / 10000)) ^ 2 =
        ((n2 : ℝ) * d1 * Real.sqrt ((d1 : ℝ) + 1 / 10000)) ^ 2 ↔
      ((n1 ^ 2 * d2 ^ 2 * (10000 * d2 + 1) : Nat) : ℝ) =
        ((n2 ^ 2 * d1 ^ 2 * (10000 * d1 + 1) : Nat) : ℝ) := by
    rw [mul_pow, mul_pow, mul_pow, mul_pow, q1, q2]
    push_cast
    constructor
    · intro h3
      linarith
    · intro h3
      linarith
  rw [step1, step2, step3]
  exact Nat.cast_inj

theorem depth_key_injective (n d1 d2 : Nat) (hn : 0 < n)
    (h : n ^ 2 * d2 ^ 2 * (10000 * d2 + 1) = n ^ 2 * d1 ^ 2 * (10000 * d1 + 1)) : d1 = d2 := by
  have hn2 : 0 < n ^ 2 := by positivity
  rw [mul_assoc, mul_assoc] at h
  have h2 := Nat.eq_of_mul_eq_mul_left hn2 h
  rcases Nat.lt_trichotomy d1 d2 with hlt | heq | hgt
  · exfalso
    have : d1 ^ 2 * (10000 * d1 + 1) < d2 ^ 2 * (10000 * d2 + 1) := by
      have hp : 0 < d2 := by omega
      apply Nat.mul_lt_mul_of_le_of_lt (Nat.pow_le_pow_left hlt.le 2) (by omega) (by positivity)
    omega
  · exact heq
  · exfalso
    have : d2 ^ 2 * (10000 * d2 + 1) < d1 ^ 2 * (10000 * d1 + 1) := by
      have hp : 0 < d1 := by omega
      apply Nat.mul_lt_mul_of_le_of_lt (Nat.pow_le_pow_left hgt.le 2) (by omega) (by positivity)
    omega

theorem afterHit_baseDt (sqrt : K → K) : (afterHit sqrt).baseDt_ = 1 := by
  have h := addVFStencil_sameParams sqrt
    (rollback { (fresh : State K) with earliestTime_ := 1 / 2 }) stencil0
  unfold afterHit
  rw [h.2.2.1]
  rfl

theorem hitGroup_dt (sqrt : K → K) (d : Nat) :
    (hitGroup sqrt d).dt_ = layerDt sqrt (afterHit sqrt) d := by
  unfold layerDt
  rw [afterHit_baseDt]
  rfl

theorem afterHit_group1 (sqrt : K → K) :
    (afterHit sqrt).groups_[1]? = some (hitGroup sqrt 2) := by
  rw [afterHit_groups]
  rfl

/-! ### Idempotence of rollback; the predicted positions -/

theorem rollback_queue_perm (a : State K) : (rollback a).groupQueue_.Perm a.groupQueue_ := by
  have h := drainQueue_perm (a.groups_.map PenaltyGroup.rollback) a.groupQueue_.length
    a.groupQueue_ [] (le_refl _)
  simpa [rollback] using h

theorem rollback_rollback_groups (a : State K) :
    (rollback (rollback a)).groups_ = (rollback a).groups_ := by
  show ((a.groups_.map PenaltyGroup.rollback).map PenaltyGroup.rollback) =
    a.groups_.map PenaltyGroup.rollback
  rw [List.map_map]
  rfl

theorem predict_fold (s : SimulationState K) (t : K) (l : List Nat) (nqv : List K × List K) :
    (l.foldl (predictDof s t) nqv).1.length = nqv.1.length ∧
    ∀ i, rd (l.foldl (predictDof s t) nqv).1 i =
      if i ∈ l ∧ i < nqv.1.length then rd s.q i + (t - rd s.lastUpdateTime i) * rd s.v i
      else rd nqv.1 i := by
  induction l generalizing nqv with
  | nil => simp
  | cons x xs ih =>
    obtain ⟨hl, hi⟩ := ih (predictDof s t nqv x)
    rw [List.foldl_cons]
    have hlen : (predictDof s t nqv x).1.length = nqv.1.length := by
      simp [predictDof]
    refine ⟨hl.trans hlen, fun i => ?_⟩
    rw [hi i, hlen]
    simp only [predictDof, rd_set, List.mem_cons]
    by_cases hx : x = i
    · subst hx
      by_cases hlt : x < nqv.1.length
      · simp [hlt]
      · simp [hlt]
    · have hx2 : ¬ i = x := fun h => hx h.symm
      simp [hx, hx2]

/-- The buffer `newq` of a firing event holds the extrapolated position of
every DOF of the group's vertices. -/
theorem predictAll_newq (s : SimulationState K) (group : PenaltyGroup K) (i : Nat)
    (hi : i ∈ stencilDofs group.getGroupStencil) (hlt : i < s.q.length) :
    rd (predictAll s group).1 i =
      rd s.q i + (group.nextFireTime - rd s.lastUpdateTime i) * rd s.v i := by
  unfold predictAll
  simp only []
  rw [(predict_fold s group.nextFireTime _ _).2 i, if_pos ⟨hi, by simpa using hlt⟩]

/-! ### The queue and layout invariants -/

theorem layoutFrame_refl (a : State K) : LayoutFrame a a :=
  ⟨sameParams_refl a, rfl, rfl, List.Perm.refl _⟩

theorem layoutFrame_trans {a b c : State K} (h1 : LayoutFrame a b) (h2 : LayoutFrame b c) :
    LayoutFrame a c :=
  ⟨sameParams_trans h1.1 h2.1, h2.2.1.trans h1.2.1, h2.2.2.1.trans h1.2.2.1,
    h2.2.2.2.trans h1.2.2.2⟩

theorem layoutFrame_of_stepFrame (a b : State K) (h : StepFrame a b)
    (hq : b.groupQueue_.Perm a.groupQueue_) : LayoutFrame a b := by
  refine ⟨h.1, h.2.2.2.2.1, ?_, hq⟩
  have hmap := congrArg (List.map groupParams) h.2.2.2.2.2
  rw [List.map_map, List.map_map] at hmap
  exact hmap

theorem requeue_queue_perm (a : State K) (gi : Nat) (group : PenaltyGroup K)
    (hmem : gi ∈ a.groupQueue_) : (requeue a gi group).groupQueue_.Perm a.groupQueue_ := by
  show (a.groupQueue_.erase gi ++ [gi]).Perm a.groupQueue_
  exact (List.perm_append_comm.trans (List.perm_cons_erase hmem).symm)

theorem step_fired_layout (addForce : PenaltyGroup K → List K → List K → List K → Bool × List K)
    (a a1 : State K) (s s1 : SimulationState K) (h : step addForce a s = StepResult.fired a1 s1) :
    LayoutFrame a a1 := by
  obtain ⟨gi, group, hq, hg, _, _, ha, _⟩ := step_fired addForce a a1 s s1 h
  refine layoutFrame_of_stepFrame a a1 (step_fired_frame addForce a a1 s s1 h) ?_
  rw [ha]
  exact requeue_queue_perm a gi group (queueTop_mem _ _ gi hq)

theorem rollback_layout (a : State K) : LayoutFrame a (rollback a) :=
  layoutFrame_of_stepFrame a _ (rollback_frame a) (rollback_queue_perm a)

theorem microIntegrate_layout
    (addForce : PenaltyGroup K → List K → List K → List K → Bool × List K)
    (fuel : Nat) (a a1 : State K) (s s1 : SimulationState K)
    (h : microIntegrate addForce fuel a s = Outcome.ok (a1, s1)) : LayoutFrame a a1 := by
  obtain ⟨a0, s0, hf, hd⟩ := microIntegrate_ok addForce (fun b _ => LayoutFrame a b)
    (fun b t b1 t1 hb hs => layoutFrame_trans hb (step_fired_layout addForce b b1 t t1 hs))
    fuel a s (a1, s1) (layoutFrame_refl a) h
  obtain ⟨h1, _, _⟩ := step_done addForce a0 a1 s0 s1 hd
  rw [h1]
  exact hf

theorem groupAddVF_layout (a : State K) (i : Nat) (st : VertexFaceStencil) :
    LayoutFrame a (groupAddVF a i st) := by
  obtain ⟨_, _, hq, hd, _, hp⟩ := groupAddVF_frame a i st
  refine ⟨hp, hd, ?_, by rw [hq]⟩
  unfold groupAddVF
  cases hg : a.groups_[i]? with
  | none => rfl
  | some g =>
    apply List.ext_getElem?
    intro j
    simp only [List.getElem?_map, List.getElem?_set]
    by_cases hj : i = j
    · subst hj
      have hlt : i < a.groups_.length := by
        rcases Nat.lt_or_ge i a.groups_.length with h | h
        · exact h
        · rw [List.getElem?_eq_none h] at hg
          cases hg
      simp [hlt, hg, groupParams, PenaltyGroup.addVFStencil]
    · simp [hj]

theorem groupAddEE_layout (a : State K) (i : Nat) (st : EdgeEdgeStencil) :
    LayoutFrame a (groupAddEE a i st) := by
  obtain ⟨_, _, hq, hd, _, hp⟩ := groupAddEE_frame a i st
  refine ⟨hp, hd, ?_, by rw [hq]⟩
  unfold groupAddEE
  cases hg : a.groups_[i]? with
  | none => rfl
  | some g =>
    apply List.ext_getElem?
    intro j
    simp only [List.getElem?_map, List.getElem?_set]
    by_cases hj : i = j
    · subst hj
      have hlt : i < a.groups_.length := by
        rcases Nat.lt_or_ge i a.groups_.length with h | h
        · exact h
        · rw [List.getElem?_eq_none h] at hg
          cases hg
      simp [hlt, hg, groupParams, PenaltyGroup.addEEStencil]
    · simp [hj]

theorem vfdepthIndex_layout (a : State K) (st : VertexFaceStencil) :
    LayoutFrame a (vfdepthIndex a st).1 := by
  obtain ⟨hg, hq, hd, _, hp⟩ := vfdepthIndex_groups a st
  exact ⟨hp, hd, by rw [hg], by rw [hq]⟩

theorem eedepthIndex_layout (a : State K) (st : EdgeEdgeStencil) :
    LayoutFrame a (eedepthIndex a st).1 := by
  obtain ⟨hg, hq, hd, _, hp⟩ := eedepthIndex_groups a st
  exact ⟨hp, hd, by rw [hg], by rw [hq]⟩

theorem addVFStencilRound_layout (sqrt : K → K) (st : VertexFaceStencil) (od : Nat)
    (c : State K) (i : Nat) :
    LayoutFrame (groupAddVF (addGroups sqrt c (od + i + 1)) (od + i) st)
      (addVFStencilRound sqrt st od c i) := by
  unfold addVFStencilRound
  simp only []
  exact layoutFrame_trans (vfdepthIndex_layout _ st)
    ⟨sameParams_refl _, rfl, rfl, List.Perm.refl _⟩

theorem addEEStencilRound_layout (sqrt : K → K) (st : EdgeEdgeStencil) (od : Nat)
    (c : State K) (i : Nat) :
    LayoutFrame (groupAddEE (addGroups sqrt c (od + i + 1)) (od + i) st)
      (addEEStencilRound sqrt st od c i) := by
  unfold addEEStencilRound
  simp only []
  exact layoutFrame_trans (eedepthIndex_layout _ st)
    ⟨sameParams_refl _, rfl, rfl, List.Perm.refl _⟩

/-- A property of the layout that survives a round of the loop of `addGroups`
survives every operation. -/
theorem op_layout_induction (sqrt : K → K) (P : State K → Prop)
    (hadd : ∀ a, P a → P (addOneGroup sqrt a))
    (hframe : ∀ a b, LayoutFrame a b → P a → P b)
    (a b : State K) (hop : Op sqrt a b) (h : P a) : P b := by
  have hvfround : ∀ (st : VertexFaceStencil) (od : Nat) (c : State K) (i : Nat),
      P c → P (addVFStencilRound sqrt st od c i) := by
    intro st od c i hc
    have h1 := addGroups_induction sqrt P hadd c (od + i + 1) hc
    have h2 := hframe _ _ (groupAddVF_layout (addGroups sqrt c (od + i + 1)) (od + i) st) h1
    exact hframe _ _ (addVFStencilRound_layout sqrt st od c i) h2
  have heeround : ∀ (st : EdgeEdgeStencil) (od : Nat) (c : State K) (i : Nat),
      P c → P (addEEStencilRound sqrt st od c i) := by
    intro st od c i hc
    have h1 := addGroups_induction sqrt P hadd c (od + i + 1) hc
    have h2 := hframe _ _ (groupAddEE_layout (addGroups sqrt c (od + i + 1)) (od + i) st) h1
    exact hframe _ _ (addEEStencilRound_layout sqrt st od c i) h2
  have hvf : ∀ (c : State K) (st : VertexFaceStencil), P c → P (addVFStencil sqrt c st) := by
    intro c st hc
    unfold addVFStencil
    simp only [range_five, List.foldl_cons, List.foldl_nil]
    exact hvfround st _ _ 4 (hvfround st _ _ 3 (hvfround st _ _ 2 (hvfround st _ _ 1
      (hvfround st _ _ 0 (hframe _ _ (vfdepthIndex_layout c st) hc)))))
  have hee : ∀ (c : State K) (st : EdgeEdgeStencil), P c → P (addEEStencil sqrt c st) := by
    intro c st hc
    unfold addEEStencil
    simp only [range_five, List.foldl_cons, List.foldl_nil]
    exact heeround st _ _ 4 (heeround st _ _ 3 (heeround st _ _ 2 (heeround st _ _ 1
      (heeround st _ _ 0 (hframe _ _ (eedepthIndex_layout c st) hc)))))
  cases hop with
  | vf _ x => exact hvf a x h
  | ee _ x => exact hee a x h
  | groups _ m => exact addGroups_induction sqrt P hadd a m h
  | fired addForce _ _ s s1 hs => exact hframe a b (step_fired_layout addForce a b s s1 hs) h
  | done addForce _ _ s s1 hs =>
    rw [(step_done addForce a b s s1 hs).1]
    exact h
  | rollback _ => exact hframe a _ (rollback_layout a) h
  | run addForce o fuel _ _ s s1 conv hr =>
    obtain ⟨a1, hm, _, hb, _⟩ := runOneIteration_ok sqrt addForce o fuel a b s s1 conv hr
    have h1 := hframe a a1 (microIntegrate_layout addForce fuel a a1 s s1 hm) h
    have h2 : P { a1 with earliestTime_ := confirmedTime o a } :=
      hframe a1 _ ⟨sameParams_refl a1, rfl, rfl, List.Perm.refl _⟩ h1
    have h3 := hframe _ _ (rollback_layout { a1 with earliestTime_ := confirmedTime o a }) h2
    rw [hb]
    exact foldl_addEEStencil_induction sqrt P hee _ _
      (foldl_addVFStencil_induction sqrt P hvf _ _ h3)

theorem layoutFrame_length (a b : State K) (h : LayoutFrame a b) :
    b.groups_.length = a.groups_.length := by
  have := congrArg List.length h.2.2.1
  simpa using this

theorem queueInv_new (outerEta innerEta baseDt baseStiffness terminationTime CoR : K) :
    QueueInv (new outerEta innerEta baseDt baseStiffness terminationTime CoR) :=
  List.Perm.refl _

theorem queueInv_addOneGroup (sqrt : K → K) (a : State K) (h : QueueInv a) :
    QueueInv (addOneGroup sqrt a) := by
  unfold QueueInv at h ⊢
  simp only [addOneGroup, List.length_append, List.length_singleton, List.range_succ]
  exact List.Perm.append_right _ h

theorem queueInv_of_layoutFrame (a b : State K) (hf : LayoutFrame a b) (h : QueueInv a) :
    QueueInv b := by
  unfold QueueInv at h ⊢
  rw [layoutFrame_length a b hf]
  exact hf.2.2.2.trans h

theorem layerDt_congr (sqrt : K → K) (a b : State K) (h : SameParams a b) (d : Nat) :
    layerDt sqrt b d = layerDt sqrt a d := by
  unfold layerDt
  rw [h.2.2.1]

theorem layerStiffness_congr (a b : State K) (h : SameParams a b) (d : Nat) :
    layerStiffness b d = layerStiffness a d := by
  unfold layerStiffness
  rw [h.2.2.2.1]

theorem paramInv_new (sqrt : K → K)
    (outerEta innerEta baseDt baseStiffness terminationTime CoR : K) :
    ParamInv sqrt (new outerEta innerEta baseDt baseStiffness terminationTime CoR) := by
  refine ⟨rfl, fun i g hg => ?_⟩
  simp [new] at hg

theorem paramInv_addOneGroup (sqrt : K → K) (a : State K) (h : ParamInv sqrt a) :
    ParamInv sqrt (addOneGroup sqrt a) := by
  obtain ⟨h1, h2⟩ := h
  refine ⟨by simp [addOneGroup, h1], fun i g hg => ?_⟩
  have hp : SameParams a (addOneGroup sqrt a) := sameParams_refl a
  rw [layerDt_congr sqrt a _ hp, layerDepth_congr a _ hp, layerStiffness_congr a _ hp]
  rw [addOneGroup_eq] at hg
  simp only [List.getElem?_append] at hg
  by_cases hi : i < a.groups_.length
  · rw [if_pos hi] at hg
    exact h2 i g hg
  · rw [if_neg hi] at hg
    have hi0 : i - a.groups_.length = 0 := by
      by_contra hne
      have : i - a.groups_.length = (i - a.groups_.length - 1) + 1 := by omega
      rw [this] at hg
      simp at hg
    rw [hi0] at hg
    have hg2 : layerGroup sqrt a (a.deepestLayer_ + 1) = g := by simpa using hg
    have hidx : i + 1 = a.deepestLayer_ + 1 := by omega
    rw [← hg2, hidx]
    exact ⟨rfl, rfl, rfl⟩

theorem paramInv_of_layoutFrame (sqrt : K → K) (a b : State K) (hf : LayoutFrame a b)
    (h : ParamInv sqrt a) : ParamInv sqrt b := by
  obtain ⟨h1, h2⟩ := h
  obtain ⟨hp, hd, hg, _⟩ := hf
  refine ⟨by rw [hd, h1, layoutFrame_length a b ⟨hp, hd, hg, by assumption⟩], fun i g hgi => ?_⟩
  rw [layerDt_congr sqrt a b hp, layerDepth_congr a b hp, layerStiffness_congr a b hp]
  have hj : (b.groups_[i]?).map groupParams = (a.groups_[i]?).map groupParams := by
    rw [← List.getElem?_map, ← List.getElem?_map, hg]
  rw [hgi] at hj
  cases ha : a.groups_[i]? with
  | none =>
    rw [ha] at hj
    cases hj
  | some g0 =>
    rw [ha] at hj
    have hpar : groupParams g = groupParams g0 := Option.some.inj hj
    obtain ⟨k1, k2, k3⟩ := h2 i g0 ha
    simp only [groupParams, Prod.mk.injEq] at hpar
    rw [hpar.1, hpar.2.1, hpar.2.2]
    exact ⟨k1, k2, k3⟩

theorem queueInv_reachable (sqrt : K → K) (a : State K) (h : Reachable sqrt a) : QueueInv a := by
  induction h with
  | new => exact queueInv_new _ _ _ _ _ _
  | op a b _ hop ih =>
    exact op_layout_induction sqrt QueueInv (queueInv_addOneGroup sqrt) queueInv_of_layoutFrame
      a b hop ih

theorem paramInv_reachable (sqrt : K → K) (a : State K) (h : Reachable sqrt a) :
    ParamInv sqrt a := by
  induction h with
  | new => exact paramInv_new sqrt _ _ _ _ _ _
  | op a b _ hop ih =>
    exact op_layout_induction sqrt (ParamInv sqrt) (paramInv_addOneGroup sqrt)
      (paramInv_of_layoutFrame sqrt) a b hop ih

/-- Under the queue invariant the group on top of the queue exists and fires
no later than any group of the orchestrator. -/
theorem queueTop_least (a : State K) (hq : QueueInv a) (gi : Nat)
    (h : queueTop a.groups_ a.groupQueue_ = some gi) :
    ∃ group, a.groups_[gi]? = some group ∧
      ∀ g ∈ a.groups_, group.nextFireTime ≤ g.nextFireTime := by
  have hmem := queueTop_mem _ _ gi h
  have hlt : gi < a.groups_.length := List.mem_range.mp (hq.mem_iff.mp hmem)
  refine ⟨a.groups_[gi], List.getElem?_eq_getElem hlt, fun g hg => ?_⟩
  obtain ⟨j, hj⟩ := List.mem_iff_getElem?.mp hg
  have hjlt : j < a.groups_.length := by
    rcases Nat.lt_or_ge j a.groups_.length with h | h
    · exact h
    · rw [List.getElem?_eq_none h] at hj
      cases hj
  have hjq : j ∈ a.groupQueue_ := hq.mem_iff.mpr (List.mem_range.mpr hjlt)
  have hle := queueTop_le _ _ gi h j hjq
  unfold fireTimeAt at hle
  rw [List.getElem?_eq_getElem hlt, hj] at hle
  exact hle

theorem layerInv_vfDepth_le (a : State K) (h : LayerInv a) (st : VertexFaceStencil) :
    vfDepth a st ≤ a.deepestLayer_ := by
  obtain ⟨h1, h2, _⟩ := h
  by_contra hlt
  have hc := h2 st (vfDepth a st - 1)
  rw [if_pos (by omega)] at hc
  unfold vfCount at hc
  rw [List.getElem?_eq_none (by omega)] at hc
  cases hc

theorem layerInv_eeDepth_le (a : State K) (h : LayerInv a) (st : EdgeEdgeStencil) :
    eeDepth a st ≤ a.deepestLayer_ := by
  obtain ⟨h1, _, h3⟩ := h
  by_contra hlt
  have hc := h3 st (eeDepth a st - 1)
  rw [if_pos (by omega)] at hc
  unfold eeCount at hc
  rw [List.getElem?_eq_none (by omega)] at hc
  cases hc

/-- The state at the start of round `i` of `addVFStencil` keeps the layering
invariant and has raised the depth of the stencil `i` times. -/
theorem addVFStencil_rounds (sqrt : K → K) (a : State K) (st : VertexFaceStencil)
    (h : LayerInv a) (i : Nat) :
    LayerInv ((List.range i).foldl (addVFStencilRound sqrt st (vfDepth a st))
      (vfdepthIndex a st).1) ∧
    vfDepth ((List.range i).foldl (addVFStencilRound sqrt st (vfDepth a st))
      (vfdepthIndex a st).1) st = vfDepth a st + i := by
  induction i with
  | zero =>
    obtain ⟨g1, _, g3, _, _⟩ := vfdepthIndex_groups a st
    simp only [List.range_zero, List.foldl_nil]
    exact ⟨layerInv_congr a _ g3 (by rw [g1]) (vfdepthIndex_vfDepth a st)
      (fun s => eeDepth_congr _ _ (vfdepthIndex_eedepth a st) s) h, vfdepthIndex_vfDepth a st st⟩
  | succ n ih =>
    rw [List.range_succ, List.foldl_append]
    exact addVFStencilRound_step sqrt st (vfDepth a st) _ n ih

theorem addEEStencil_rounds (sqrt : K → K) (a : State K) (st : EdgeEdgeStencil)
    (h : LayerInv a) (i : Nat) :
    LayerInv ((List.range i).foldl (addEEStencilRound sqrt st (eeDepth a st))
      (eedepthIndex a st).1) ∧
    eeDepth ((List.range i).foldl (addEEStencilRound sqrt st (eeDepth a st))
      (eedepthIndex a st).1) st = eeDepth a st + i := by
  induction i with
  | zero =>
    obtain ⟨g1, _, g3, _, _⟩ := eedepthIndex_groups a st
    simp only [List.range_zero, List.foldl_nil]
    exact ⟨layerInv_congr a _ g3 (by rw [g1])
      (fun s => vfDepth_congr _ _ (eedepthIndex_vfdepth a st) s) (eedepthIndex_eeDepth a st) h,
      eedepthIndex_eeDepth a st st⟩
  | succ n ih =>
    rw [List.range_succ, List.foldl_append]
    exact addEEStencilRound_step sqrt st (eeDepth a st) _ n ih

/-- After `addGroups(m + 1)` on a state whose `deepestLayer_` counts its groups,
`groups_[m]` exists. -/
theorem addGroups_in_bounds (sqrt : K → K) (c : State K) (h : LayerInv c) (m : Nat) :
    m < (addGroups sqrt c (m + 1)).groups_.length := by
  have h1 := (layerInv_addGroups sqrt c (m + 1) h).1
  have h2 := addGroups_deepest sqrt c (m + 1)
  rw [← h1, h2]
  omega

theorem addVFStencilRound_deepest (sqrt : K → K) (st : VertexFaceStencil) (od : Nat)
    (c : State K) (i : Nat) :
    (addVFStencilRound sqrt st od c i).deepestLayer_ = max c.deepestLayer_ (od + i + 1) := by
  rw [(addVFStencilRound_groups sqrt st od c i).2, addGroups_deepest]

theorem addEEStencilRound_deepest (sqrt : K → K) (st : EdgeEdgeStencil) (od : Nat)
    (c : State K) (i : Nat) :
    (addEEStencilRound sqrt st od c i).deepestLayer_ = max c.deepestLayer_ (od + i + 1) := by
  rw [(addEEStencilRound_groups sqrt st od c i).2, addGroups_deepest]

theorem addVFStencil_deepest (sqrt : K → K) (a : State K) (st : VertexFaceStencil) :
    (addVFStencil sqrt a st).deepestLayer_ = max a.deepestLayer_ (vfDepth a st + 5) := by
  unfold addVFStencil
  simp only [range_five, List.foldl_cons, List.foldl_nil, addVFStencilRound_deepest,
    (vfdepthIndex_groups a st).2.2.1, vfdepthIndex_snd]
  omega

theorem addEEStencil_deepest (sqrt : K → K) (a : State K) (st : EdgeEdgeStencil) :
    (addEEStencil sqrt a st).deepestLayer_ = max a.deepestLayer_ (eeDepth a st + 5) := by
  unfold addEEStencil
  simp only [range_five, List.foldl_cons, List.foldl_nil, addEEStencilRound_deepest,
    (eedepthIndex_groups a st).2.2.1, eedepthIndex_snd]
  omega

/-! ### Termination of the micro-integration loop -/

section Termination

variable [FloorRing K]

theorem lt_firingsDue (T : K) (g : PenaltyGroup K) (hdt : 0 < g.dt_) (n : Nat) :
    n < firingsDue T g ↔ (n : K) * g.dt_ < T := by
  unfold firingsDue
  rw [Nat.lt_ceil, lt_div_iff₀ hdt]

theorem sum_map_set (f : PenaltyGroup K → Nat) (l : List (PenaltyGroup K)) (i : Nat)
    (g g1 : PenaltyGroup K) (hg : l[i]? = some g) :
    ((l.set i g1).map f).sum + f g = (l.map f).sum + f g1 := by
  induction l generalizing i with
  | nil => simp at hg
  | cons x xs ih =>
    cases i with
    | zero =>
      simp only [List.getElem?_cons_zero, Option.some.injEq] at hg
      subst hg
      simp only [List.set_cons_zero, List.map_cons, List.sum_cons]
      omega
    | succ n =>
      simp only [List.getElem?_cons_succ] at hg
      have := ih n hg
      simp only [List.set_cons_succ, List.map_cons, List.sum_cons]
      omega

theorem step_undefined (addForce : PenaltyGroup K → List K → List K → List K → Bool × List K)
    (a : State K) (s : SimulationState K) (h : step addForce a s = StepResult.undefined) :
    ∃ gi, queueTop a.groups_ a.groupQueue_ = some gi ∧ a.groups_[gi]? = none := by
  unfold step at h
  split at h
  · cases h
  · rename_i gi hq
    split at h
    · rename_i hg
      exact ⟨gi, hq, hg⟩
    · split at h
      · split at h <;> cases h
      · cases h

theorem firingsLeft_fired
    (addForce : PenaltyGroup K → List K → List K → List K → Bool × List K)
    (a a1 : State K) (s s1 : SimulationState K) (h : step addForce a s = StepResult.fired a1 s1)
    (hdt : ∀ g ∈ a.groups_, 0 < g.dt_)
    (hle : ∀ g ∈ a.groups_, g.nextstep_ ≤ firingsDue a.termTime_ g) :
    firingsLeft a = firingsLeft a1 + 1 ∧ a1.termTime_ = a.termTime_ ∧
    (∀ g ∈ a1.groups_, 0 < g.dt_) ∧
    (∀ g ∈ a1.groups_, g.nextstep_ ≤ firingsDue a1.termTime_ g) := by
  obtain ⟨gi, group, _, hg, hlt, _, ha, _⟩ := step_fired addForce a a1 s s1 h
  have hgm : group ∈ a.groups_ := List.getElem?_mem hg
  have hpos : group.nextstep_ < firingsDue a.termTime_ group :=
    (lt_firingsDue a.termTime_ group (hdt group hgm) group.nextstep_).mpr hlt
  have hT : a1.termTime_ = a.termTime_ := by rw [ha]; rfl
  have hgroups : a1.groups_ = a.groups_.set gi group.incrementTimeStep := by rw [ha]; rfl
  have hsum := sum_map_set (fun g => firingsDue a.termTime_ g - g.nextstep_) a.groups_ gi group
    group.incrementTimeStep hg
  have hdue : firingsDue a.termTime_ group.incrementTimeStep = firingsDue a.termTime_ group :=
    rfl
  have hn : group.incrementTimeStep.nextstep_ = group.nextstep_ + 1 := rfl
  simp only [hdue, hn] at hsum
  refine ⟨?_, hT, ?_, ?_⟩
  · unfold firingsLeft
    rw [hT, hgroups]
    omega
  · intro g hgin
    rw [hgroups] at hgin
    rcases List.mem_or_eq_of_mem_set hgin with hin | heq
    · exact hdt g hin
    · rw [heq]
      exact hdt group hgm
  · intro g hgin
    rw [hgroups] at hgin
    rw [hT]
    rcases List.mem_or_eq_of_mem_set hgin with hin | heq
    · exact hle g hin
    · rw [heq, hn, hdue]
      exact hpos

theorem queueInv_nil (a : State K) (hq : QueueInv a) (h : a.groupQueue_ = []) :
    a.groups_ = [] := by
  unfold QueueInv at hq
  rw [h] at hq
  have := hq.length_eq
  simp at this
  exact List.length_eq_zero.mp this.symm

/-- Enough fuel: with the queue invariant, positive time steps and no group
past its due count, `firingsLeft + 1` calls of `step` end the loop, and when
it ends without exit every group has fired exactly its due count. -/
theorem microIntegrate_enough_fuel
    (addForce : PenaltyGroup K → List K → List K → List K → Bool × List K) (M : Nat) :
    ∀ (a : State K) (s : SimulationState K), QueueInv a → (∀ g ∈ a.groups_, 0 < g.dt_) →
      (∀ g ∈ a.groups_, g.nextstep_ ≤ firingsDue a.termTime_ g) → firingsLeft a = M →
      (microIntegrate addForce (M + 1) a s = Outcome.abort ∨
        ∃ a1 s1, microIntegrate addForce (M + 1) a s = Outcome.ok (a1, s1) ∧
          ∀ g ∈ a1.groups_, g.nextstep_ = firingsDue a.termTime_ g) := by
  induction M with
  | zero =>
    intro a s hq hdt hle hM
    cases hstep : step addForce a s with
    | abort =>
      left
      simp [microIntegrate, hstep]
    | undefined =>
      exfalso
      obtain ⟨gi, htop, hnone⟩ := step_undefined addForce a s hstep
      obtain ⟨group, hg, _⟩ := queueTop_least a hq gi htop
      rw [hnone] at hg
      cases hg
    | fired a1 s1 =>
      exfalso
      have := (firingsLeft_fired addForce a a1 s s1 hstep hdt hle).1
      omega
    | done a1 s1 =>
      right
      refine ⟨a1, s1, by simp [microIntegrate, hstep], ?_⟩
      obtain ⟨ha, _, hcase⟩ := step_done addForce a a1 s s1 hstep
      rw [ha]
      intro g hgin
      rcases hcase with hnone | ⟨gi, group, htop, hg, hT⟩
      · rw [queueInv_nil a hq ((queueTop_eq_none _ _).mp hnone)] at hgin
        cases hgin
      · obtain ⟨group2, hg2, hleast⟩ := queueTop_least a hq gi htop
        have heq : group2 = group := Option.some.inj (hg2.symm.trans hg)
        rw [heq] at hleast
        have hge : a.termTime_ ≤ g.nextFireTime := le_trans hT (hleast g hgin)
        have hnot : ¬ g.nextstep_ < firingsDue a.termTime_ g := by
          rw [lt_firingsDue a.termTime_ g (hdt g hgin)]
          exact not_lt.mpr hge
        have := hle g hgin
        omega
  | succ M ih =>
    intro a s hq hdt hle hM
    cases hstep : step addForce a s with
    | abort =>
      left
      simp [microIntegrate, hstep]
    | undefined =>
      exfalso
      obtain ⟨gi, htop, hnone⟩ := step_undefined addForce a s hstep
      obtain ⟨group, hg, _⟩ := queueTop_least a hq gi htop
      rw [hnone] at hg
      cases hg
    | fired a1 s1 =>
      obtain ⟨h1, hT, hdt1, hle1⟩ := firingsLeft_fired addForce a a1 s s1 hstep hdt hle
      have hq1 := queueInv_of_layoutFrame a a1 (step_fired_layout addForce a a1 s s1 hstep) hq
      have hrec := ih a1 s1 hq1 hdt1 hle1 (by omega)
      have hunf : microIntegrate addForce (M + 1 + 1) a s =
          microIntegrate addForce (M + 1) a1 s1 := by
        rw [microIntegrate, hstep]
      rw [hunf]
      rw [hT] at hrec
      exact hrec
    | done a1 s1 =>
      right
      refine ⟨a1, s1, by simp [microIntegrate, hstep], ?_⟩
      obtain ⟨ha, _, hcase⟩ := step_done addForce a a1 s s1 hstep
      rw [ha]
      intro g hgin
      rcases hcase with hnone | ⟨gi, group, htop, hg, hT⟩
      · rw [queueInv_nil a hq ((queueTop_eq_none _ _).mp hnone)] at hgin
        cases hgin
      · obtain ⟨group2, hg2, hleast⟩ := queueTop_least a hq gi htop
        have heq : group2 = group := Option.some.inj (hg2.symm.trans hg)
        rw [heq] at hleast
        have hge : a.termTime_ ≤ g.nextFireTime := le_trans hT (hleast g hgin)
        have hnot : ¬ g.nextstep_ < firingsDue a.termTime_ g := by
          rw [lt_firingsDue a.termTime_ g (hdt g hgin)]
          exact not_lt.mpr hge
        have := hle g hgin
        omega

theorem stepFrame_group (a b : State K) (h : StepFrame a b) (i : Nat) (g : PenaltyGroup K)
    (hg : a.groups_[i]? = some g) :
    ∃ g1, b.groups_[i]? = some g1 ∧ g1.rollback = g.rollback := by
  have hj : (b.groups_[i]?).map PenaltyGroup.rollback =
      (a.groups_[i]?).map PenaltyGroup.rollback := by
    rw [← List.getElem?_map, ← List.getElem?_map, h.2.2.2.2.2]
  rw [hg] at hj
  cases hb : b.groups_[i]? with
  | none =>
    rw [hb] at hj
    cases hj
  | some g1 =>
    rw [hb] at hj
    exact ⟨g1, rfl, Option.some.inj hj⟩

/-- With the horizon at or below zero, or without groups, the first call of
`step` ends the loop. -/
theorem step_done_at_once
    (addForce : PenaltyGroup K → List K → List K → List K → Bool × List K)
    (a : State K) (s : SimulationState K) (hq : QueueInv a)
    (hclock : ∀ g ∈ a.groups_, g.nextstep_ = 0) (h : a.termTime_ ≤ 0 ∨ a.groups_ = []) :
    step addForce a s = StepResult.done a (finishAll a.termTime_ s) := by
  unfold step
  cases htop : queueTop a.groups_ a.groupQueue_ with
  | none => rfl
  | some gi =>
    obtain ⟨group, hg, _⟩ := queueTop_least a hq gi htop
    simp only [hg]
    rcases h with hT | hnil
    · have h0 : group.nextFireTime = 0 := by
        simp [PenaltyGroup.nextFireTime, hclock group (List.getElem?_mem hg)]
      rw [h0, if_neg (not_lt.mpr hT)]
    · rw [hnil] at hg
      simp at hg

end Termination

/-- The fudge does not separate all layers: the layers of depth 156 and 1407,
whose keys `10⁴·d+1` are the squares `1249²` and `3751²`, fire together at the
positive step counters 64948 and 1759219. -/
theorem deep_layers_tie (a : State ℝ) (h : 0 < a.baseDt_) :
    (64948 : ℝ) * layerDt Real.sqrt a 156 = (1759219 : ℝ) * layerDt Real.sqrt a 1407 := by
  have h := (fireTime_tie_iff a h 156 1407 64948 1759219 (by decide) (by decide)).mpr
    (by norm_num)
  exact_mod_cast h

/-! ### The narrow phase and the exits of `runOneIteration` -/

/-- The margin `VFStencilThickness` looks up is that of the recorded depth, an
absent entry counting as depth `0`. -/
theorem VFStencilThickness_eq (a : State K) (st : VertexFaceStencil) :
    VFStencilThickness a st = layerDepth a (vfDepth a st + 1) := by
  unfold VFStencilThickness vfDepth
  cases a.vfdepth_ st <;> rfl

/-- The margin `EEStencilThickness` looks up is that of the recorded depth, an
absent entry counting as depth `0`. -/
theorem EEStencilThickness_eq (a : State K) (st : EdgeEdgeStencil) :
    EEStencilThickness a st = layerDepth a (eeDepth a st + 1) := by
  unfold EEStencilThickness eeDepth
  cases a.eedepth_ st <;> rfl

/-- The states a micro-integration loop reaches are those its first calls of
`step` lead to: from there the loop goes on as if started there. -/
theorem microIntegrate_reach
    (addForce : PenaltyGroup K → List K → List K → List K → Bool × List K)
    (a a1 : State K) (s s1 : SimulationState K) (h : LoopReach addForce a s a1 s1) :
    ∃ n, ∀ k, microIntegrate addForce (n + k) a s = microIntegrate addForce k a1 s1 := by
  induction h with
  | start => exact ⟨0, fun k => by rw [Nat.zero_add]⟩
  | fire b b1 t t1 _ hs ih =>
    obtain ⟨n, hn⟩ := ih
    refine ⟨n + 1, fun k => ?_⟩
    rw [Nat.add_assoc, hn (1 + k), Nat.add_comm 1 k]
    show (match step addForce b t with
      | StepResult.abort => Outcome.abort
      | StepResult.undefined => Outcome.undefined
      | StepResult.fired a1 s1 => microIntegrate addForce k a1 s1
      | StepResult.done a1 s1 => Outcome.ok (a1, s1)) = _
    rw [hs]

/-- A micro-integration loop that exits does so in a call of `step` on a state
the loop has reached. -/
theorem microIntegrate_abort
    (addForce : PenaltyGroup K → List K → List K → List K → Bool × List K)
    (fuel : Nat) (a : State K) (s : SimulationState K)
    (h : microIntegrate addForce fuel a s = Outcome.abort) :
    ∃ a1 s1, LoopReach addForce a s a1 s1 ∧ step addForce a1 s1 = StepResult.abort := by
  have key : ∀ (fuel : Nat) (b : State K) (t : SimulationState K),
      LoopReach addForce a s b t → microIntegrate addForce fuel b t = Outcome.abort →
      ∃ a1 s1, LoopReach addForce a s a1 s1 ∧ step addForce a1 s1 = StepResult.abort := by
    intro fuel
    induction fuel with
    | zero =>
      intro b t _ h
      simp [microIntegrate] at h
    | succ n ih =>
      intro b t hr h
      unfold microIntegrate at h
      split at h
      · rename_i hs
        exact ⟨b, t, hr, hs⟩
      · cases h
      · rename_i b1 t1 hs
        exact ih b1 t1 (LoopReach.fire b b1 t t1 hr hs) h
      · cases h
  exact key fuel a s LoopReach.start h

/-- A call of `step` that exits makes the loop, and `runOneIteration`, exit. -/
theorem microIntegrate_of_step_abort
    (addForce : PenaltyGroup K → List K → List K → List K → Bool × List K)
    (a a1 : State K) (s s1 : SimulationState K) (h : LoopReach addForce a s a1 s1)
    (hs : step addForce a1 s1 = StepResult.abort) :
    ∃ n, ∀ fuel, n ≤ fuel → microIntegrate addForce fuel a s = Outcome.abort := by
  obtain ⟨n, hn⟩ := microIntegrate_reach addForce a a1 s s1 h
  refine ⟨n + 1, fun fuel hle => ?_⟩
  obtain ⟨k, rfl⟩ := Nat.exists_eq_add_of_le hle
  rw [Nat.add_assoc, hn (1 + k), Nat.add_comm 1 k]
  show (match step addForce a1 s1 with
      | StepResult.abort => Outcome.abort
      | StepResult.undefined => Outcome.undefined
      | StepResult.fired a1 s1 => microIntegrate addForce k a1 s1
      | StepResult.done a1 s1 => Outcome.ok (a1, s1)) = _
  rw [hs]

/-- With a force law that reports a contribution, the first `step` of the
second iteration exits: layer 1 fires at time `0`, before `earliestTime_`. -/
theorem step_afterHit_touch (sqrt : K → K) (s : SimulationState K) :
    step touchForce (afterHit sqrt) s = StepResult.abort := by
  unfold step
  rw [afterHit_top]
  simp only [afterHit_group0, hitGroup_nextFireTime, (afterHit_times sqrt).1,
    (afterHit_times sqrt).2, forceOf_touchForce]
  simp

/-- After a first outer iteration on `fresh` in which collision detection found
nothing the orchestrator still has no layer: the next loop ends at once. -/
theorem microIntegrate_cleared
    (addForce : PenaltyGroup K → List K → List K → List K → Bool × List K)
    (s : SimulationState K) :
    microIntegrate addForce 1 (rollback { (fresh : State K) with earliestTime_ := 1 }) s =
      Outcome.ok (rollback { (fresh : State K) with earliestTime_ := 1 }, finishAll (1 : K) s) :=
  rfl

/-! ### Ties of fire times -/

/-- A natural number strictly between two consecutive squares is no square. -/
theorem not_isSquare_of_between (n m : Nat) (h1 : m * m < n) (h2 : n < (m + 1) * (m + 1)) :
    ¬ IsSquare n := by
  rintro ⟨r, rfl⟩
  have a1 : m < r := Nat.mul_self_lt_mul_self_iff.mp h1
  have a2 : r < m + 1 := Nat.mul_self_lt_mul_self_iff.mp h2
  omega

/-- The tie equation of two layers has no solution with a positive step
counter unless the product of the keys `10⁴·d+1` is a perfect square. -/
theorem tie_key_square (n1 n2 d1 d2 : Nat) (hd1 : 1 ≤ d1) (hd2 : 1 ≤ d2)
    (hn : n1 ≠ 0 ∨ n2 ≠ 0)
    (h : n1 ^ 2 * d2 ^ 2 * (10000 * d2 + 1) = n2 ^ 2 * d1 ^ 2 * (10000 * d1 + 1)) :
    IsSquare ((10000 * d1 + 1) * (10000 * d2 + 1)) := by
  have hn1 : n1 ≠ 0 := by
    rintro rfl
    have h0 : n2 ^ 2 * d1 ^ 2 * (10000 * d1 + 1) = 0 := by rw [← h]; simp
    have : n2 = 0 := by
      rcases Nat.mul_eq_zero.mp h0 with h1 | h1
      · rcases Nat.mul_eq_zero.mp h1 with h2 | h2
        · exact pow_eq_zero_iff (two_ne_zero) |>.mp h2
        · have := pow_eq_zero_iff (two_ne_zero) |>.mp h2
          omega
      · omega
    rcases hn with hn | hn
    · exact hn rfl
    · exact hn this
  have hE : (n1 * d2) ^ 2 * ((10000 * d1 + 1) * (10000 * d2 + 1)) =
      (n2 * d1 * (10000 * d1 + 1)) ^ 2 := by
    calc (n1 * d2) ^ 2 * ((10000 * d1 + 1) * (10000 * d2 + 1))
        = (10000 * d1 + 1) * (n1 ^ 2 * d2 ^ 2 * (10000 * d2 + 1)) := by ring
      _ = (10000 * d1 + 1) * (n2 ^ 2 * d1 ^ 2 * (10000 * d1 + 1)) := by rw [h]
      _ = (n2 * d1 * (10000 * d1 + 1)) ^ 2 := by ring
  have hdvd : (n1 * d2) ^ 2 ∣ (n2 * d1 * (10000 * d1 + 1)) ^ 2 := ⟨_, hE.symm⟩
  obtain ⟨y, hy⟩ := (Nat.pow_dvd_pow_iff two_ne_zero).mp hdvd
  have hE2 : (n1 * d2) ^ 2 * ((10000 * d1 + 1) * (10000 * d2 + 1)) =
      (n1 * d2) ^ 2 * (y * y) := by
    rw [hE, hy]
    ring
  have hpos : 0 < (n1 * d2) ^ 2 := by
    have : 0 < n1 := Nat.pos_of_ne_zero hn1
    positivity
  exact ⟨y, Nat.eq_of_mul_eq_mul_left hpos hE2⟩

/-! ### A firing event with a force -/

/-- Both buffers of the first loop of `step`, entry by entry. -/
theorem predict_fold_both (s : SimulationState K) (t : K) (l : List Nat) (nqv : List K × List K) :
    (l.foldl (predictDof s t) nqv).2.length = nqv.2.length ∧
    ∀ i, rd (l.foldl (predictDof s t) nqv).2 i =
      if i ∈ l ∧ i < nqv.2.length then
        (rd s.q i + (t - rd s.lastUpdateTime i) * rd s.v i - rd s.q i) /
          (t - rd s.lastUpdateTime i)
      else rd nqv.2 i := by
  induction l generalizing nqv with
  | nil => simp
  | cons x xs ih =>
    obtain ⟨hl, hi⟩ := ih (predictDof s t nqv x)
    rw [List.foldl_cons]
    have hlen : (predictDof s t nqv x).2.length = nqv.2.length := by
      simp [predictDof]
    refine ⟨hl.trans hlen, fun i => ?_⟩
    rw [hi i, hlen]
    simp only [predictDof, rd_set, List.mem_cons]
    by_cases hx : x = i
    · subst hx
      by_cases hlt : x < nqv.2.length
      · simp [hlt]
      · simp [hlt]
    · have hx2 : ¬ i = x := fun h => hx h.symm
      simp [hx, hx2]

/-- The buffer `newv` of a firing event holds, for every DOF of the group's
vertices, the quotient of the extrapolated displacement by the sub-interval. -/
theorem predictAll_newv (s : SimulationState K) (group : PenaltyGroup K) (i : Nat)
    (hi : i ∈ stencilDofs group.getGroupStencil) (hlt : i < s.q.length) :
    rd (predictAll s group).2 i =
      (rd (predictAll s group).1 i - rd s.q i) / (group.nextFireTime - rd s.lastUpdateTime i) := by
  rw [predictAll_newq s group i hi hlt]
  unfold predictAll
  simp only []
  rw [(predict_fold_both s group.nextFireTime _ _).2 i, if_pos ⟨hi, by simpa using hlt⟩]

theorem firstHit_groups (sqrt : K → K) :
    (firstHit sqrt).groups_ =
      [hitGroup sqrt 1, hitGroup sqrt 2, hitGroup sqrt 3, hitGroup sqrt 4, hitGroup sqrt 5] := by
  simp [firstHit, addVFStencil, addVFStencilRound, addGroups, addGroupsLoop, addOneGroup,
    vfdepthIndex, groupAddVF, fresh, new, range_five, layerDepth,
    PenaltyGroup.addVFStencil, hitGroup]

theorem firstHit_queue (sqrt : K → K) : (firstHit sqrt).groupQueue_ = [0, 1, 2, 3, 4] := by
  simp [firstHit, addVFStencil, addVFStencilRound, addGroups, addGroupsLoop, addOneGroup,
    vfdepthIndex, groupAddVF, fresh, new, range_five, queuePush]

theorem firstHit_times (sqrt : K → K) :
    (firstHit sqrt).termTime_ = 1 ∧ (firstHit sqrt).earliestTime_ = 0 := by
  simp [firstHit, addVFStencil, addVFStencilRound, addGroups, addGroupsLoop, addOneGroup,
    vfdepthIndex, groupAddVF, fresh, new, range_five]

theorem firstHit_top (sqrt : K → K) :
    queueTop (firstHit sqrt).groups_ (firstHit sqrt).groupQueue_ = some 0 := by
  rw [firstHit_groups, firstHit_queue]
  simp [queueTop, PenaltyGroupComparator, fireTimeAt, hitGroup_nextFireTime]

theorem firstHit_group0 (sqrt : K → K) :
    (firstHit sqrt).groups_[0]? = some (hitGroup sqrt 1) := by
  rw [firstHit_groups]
  rfl

/-- The first `step` after `addVFStencil(stencil0)` fires layer 1 at time `0`:
with `earliestTime_ = 0` a reported contribution does not exit. -/
theorem step_firstHit
    (addForce : PenaltyGroup K → List K → List K → List K → Bool × List K)
    (sqrt : K → K) (s : SimulationState K) :
    step addForce (firstHit sqrt) s = StepResult.fired
      (requeue (firstHit sqrt) 0 (hitGroup sqrt 1))
      (commitAll s (hitGroup sqrt 1) (predictAll s (hitGroup sqrt 1)).1
        (forceOf addForce s (hitGroup sqrt 1)).2) := by
  unfold step
  rw [firstHit_top]
  simp only [firstHit_group0, hitGroup_nextFireTime, (firstHit_times sqrt).1,
    (firstHit_times sqrt).2]
  simp

theorem hitGroup_dofs (sqrt : K → K) (i : Nat) (hi : i < 12) :
    i / 3 ∈ (hitGroup sqrt 1).getGroupStencil := by
  have : i / 3 < 4 := by omega
  have h : (hitGroup sqrt 1).getGroupStencil = [0, 1, 2, 3] := by
    simp [hitGroup, PenaltyGroup.getGroupStencil, stencil0]
  rw [h]
  interval_cases (i / 3) <;> simp

end Frames

/-! ## The claims -/

section Claims

variable {K : Type} [LinearOrderedField K]

/-- C1. `addVFStencil` / `addEEStencil` raise the depth of their argument by
exactly 5 (an absent entry counting as 0) and leave every other depth alone; a
completed `runOneIteration` raises the depth of every stencil confirmed by
collision detection by exactly 5 and leaves every other depth alone (the
confirmed stencils are `std::set`s, listed without repetition); no operation
lowers a depth; every depth of a reachable state is a multiple of 5. -/
theorem depth_grows_by_five (sqrt : K → K) :
    (∀ (a : State K) (st s : VertexFaceStencil),
      vfDepth (addVFStencil sqrt a st) s = (if s = st then vfDepth a s + 5 else vfDepth a s)) ∧
    (∀ (a : State K) (st : VertexFaceStencil) (s : EdgeEdgeStencil),
      eeDepth (addVFStencil sqrt a st) s = eeDepth a s) ∧
    (∀ (a : State K) (st s : EdgeEdgeStencil),
      eeDepth (addEEStencil sqrt a st) s = (if s = st then eeDepth a s + 5 else eeDepth a s)) ∧
    (∀ (a : State K) (st : EdgeEdgeStencil) (s : VertexFaceStencil),
      vfDepth (addEEStencil sqrt a st) s = vfDepth a s) ∧
    (∀ (addForce : PenaltyGroup K → List K → List K → List K → Bool × List K)
      (o : CollisionOracle K) (fuel : Nat) (a a2 : State K) (s s2 : SimulationState K)
      (conv : Bool),
      runOneIteration sqrt addForce o fuel a s = Outcome.ok (a2, s2, conv) →
      (confirmedVF o a).Nodup → (confirmedEE o a).Nodup →
      (∀ st, vfDepth a2 st =
        (if st ∈ confirmedVF o a then vfDepth a st + 5 else vfDepth a st)) ∧
      (∀ st, eeDepth a2 st =
        (if st ∈ confirmedEE o a then eeDepth a st + 5 else eeDepth a st))) ∧
    (∀ a b : State K, Op sqrt a b →
      (∀ st, vfDepth a st ≤ vfDepth b st) ∧ (∀ st, eeDepth a st ≤ eeDepth b st)) ∧
    (∀ a : State K, Reachable sqrt a →
      (∀ st, 5 ∣ vfDepth a st) ∧ (∀ st, 5 ∣ eeDepth a st)) := by
  refine ⟨addVFStencil_vfDepth sqrt,
    fun a st s => eeDepth_congr _ _ (addVFStencil_eedepth sqrt a st) s,
    addEEStencil_eeDepth sqrt,
    fun a st s => vfDepth_congr _ _ (addEEStencil_vfdepth sqrt a st) s, ?_, ?_, ?_⟩
  · intro addForce o fuel a a2 s s2 conv h hvf hee
    obtain ⟨a0, hv, he, _, _, _, _, hb⟩ :=
      runOneIteration_depths sqrt addForce o fuel a a2 s s2 conv h
    constructor
    · intro st
      rw [hb, vfDepth_congr _ _ (foldl_addEEStencil_vfdepth sqrt _ _) st,
        foldl_addVFStencil_vfDepth sqrt _ hvf, vfDepth_congr a a0 hv st]
    · intro st
      rw [hb, foldl_addEEStencil_eeDepth sqrt _ hee,
        eeDepth_congr a0 _ (foldl_addVFStencil_eedepth sqrt _ a0) st, eeDepth_congr a a0 he st]
  · intro a b h
    constructor
    · intro st
      obtain ⟨k, hk⟩ := op_vfDepth_eq sqrt a b h st
      omega
    · intro st
      obtain ⟨k, hk⟩ := op_eeDepth_eq sqrt a b h st
      omega
  · intro a h
    induction h with
    | new => exact ⟨fun st => ⟨0, rfl⟩, fun st => ⟨0, rfl⟩⟩
    | op a b _ hop ih =>
      constructor
      · intro st
        obtain ⟨k, hk⟩ := op_vfDepth_eq sqrt a b hop st
        obtain ⟨m, hm⟩ := ih.1 st
        exact ⟨m + k, by omega⟩
      · intro st
        obtain ⟨k, hk⟩ := op_eeDepth_eq sqrt a b hop st
        obtain ⟨m, hm⟩ := ih.2 st
        exact ⟨m + k, by omega⟩

/-- Witness for C1: on a fresh orchestrator over the reals, an iteration whose
collision detection confirms `stencil0` completes and leaves `stencil0` at
depth 5. -/
theorem depth_grows_by_five_witness :
    ∃ (a2 : State ℝ) (s2 : SimulationState ℝ) (conv : Bool),
      runOneIteration Real.sqrt noForce oracleHit 1 fresh emptySim = Outcome.ok (a2, s2, conv) ∧
      (confirmedVF oracleHit (fresh : State ℝ)).Nodup ∧
      (confirmedEE oracleHit (fresh : State ℝ)).Nodup ∧
      vfDepth a2 stencil0 = 5 := by
  have hvf : (confirmedVF oracleHit (fresh : State ℝ)).Nodup := by
    rw [(confirmed_oracleHit _).1]
    exact List.nodup_singleton _
  have hee : (confirmedEE oracleHit (fresh : State ℝ)).Nodup := by
    rw [(confirmed_oracleHit _).2.1]
    exact List.nodup_nil
  have h := ((depth_grows_by_five Real.sqrt).2.2.2.2.1 noForce oracleHit 1 fresh _ emptySim _ _
    (runOneIteration_fresh_hit Real.sqrt noForce emptySim) hvf hee).1 stencil0
  refine ⟨_, _, _, runOneIteration_fresh_hit Real.sqrt noForce emptySim, hvf, hee, ?_⟩
  rw [h, (confirmed_oracleHit _).1]
  simp [vfDepth, fresh, new]

/-- C2. A completed `runOneIteration` returns `true` exactly when the two
stencil sets the narrow phase confirms are both empty, the narrow phase being
asked about the broad-phase candidates with the margins of their recorded
depths; and when it returns `true` the depth maps, `deepestLayer_` and every
group's registered stencils are those from before the call. -/
theorem converged_iff_none_confirmed (sqrt : K → K)
    (addForce : PenaltyGroup K → List K → List K → List K → Bool × List K)
    (o : CollisionOracle K) (fuel : Nat) (a a2 : State K) (s s2 : SimulationState K)
    (conv : Bool) (h : runOneIteration sqrt addForce o fuel a s = Outcome.ok (a2, s2, conv))
    (vfs : List VertexFaceStencil) (ees : List EdgeEdgeStencil) (t : K)
    (hnp : o.findCollisions
      ((o.findCollisionCandidates a.outerEta_).1.map
        fun st => (st, layerDepth a (vfDepth a st + 1)))
      ((o.findCollisionCandidates a.outerEta_).2.map
        fun st => (st, layerDepth a (eeDepth a st + 1))) 1 = (vfs, ees, t)) :
    (conv = true ↔ vfs = [] ∧ ees = []) ∧
    (conv = true →
      a2.vfdepth_ = a.vfdepth_ ∧ a2.eedepth_ = a.eedepth_ ∧
      a2.deepestLayer_ = a.deepestLayer_ ∧ a2.groups_.length = a.groups_.length ∧
      a2.groups_.map (fun g => (g.vfforces_, g.eeforces_)) =
        a.groups_.map (fun g => (g.vfforces_, g.eeforces_))) := by
  have hcd : collisionDetection o a = (!vfs.isEmpty || !ees.isEmpty, vfs, ees, t) := by
    unfold collisionDetection
    simp only [VFStencilThickness_eq, EEStencilThickness_eq, hnp]
  have hcv : confirmedVF o a = vfs := by
    unfold confirmedVF
    rw [hcd]
  have hce : confirmedEE o a = ees := by
    unfold confirmedEE
    rw [hcd]
  obtain ⟨a1, _, _, _, hconv⟩ := runOneIteration_ok sqrt addForce o fuel a a2 s s2 conv h
  obtain ⟨a0, hv, he, hd, _, hg, _, hb⟩ :=
    runOneIteration_depths sqrt addForce o fuel a a2 s s2 conv h
  rw [hcv, hce] at hconv hb
  have hiff : conv = true ↔ vfs = [] ∧ ees = [] := by
    rw [hconv]
    cases vfs <;> cases ees <;> simp
  refine ⟨hiff, fun hc => ?_⟩
  obtain ⟨h1, h2⟩ := hiff.mp hc
  rw [h1, h2] at hb
  simp only [List.foldl_nil] at hb
  rw [hb]
  refine ⟨hv, he, hd, ?_, ?_⟩
  · rw [hg, List.length_map]
  · rw [hg, List.map_map]
    rfl

/-- Witness for C2: on a fresh orchestrator, an iteration whose narrow phase
confirms nothing returns `true` and leaves no layer, and an iteration whose
narrow phase confirms `stencil0` returns `false`. -/
theorem converged_iff_none_confirmed_witness :
    (∃ (a2 : State ℝ) (s2 : SimulationState ℝ),
      runOneIteration Real.sqrt noForce oracleClear 1 fresh emptySim =
        Outcome.ok (a2, s2, true) ∧
      a2.deepestLayer_ = (fresh : State ℝ).deepestLayer_ ∧
      a2.groups_.length = (fresh : State ℝ).groups_.length) ∧
    (∃ (a2 : State ℝ) (s2 : SimulationState ℝ),
      runOneIteration Real.sqrt noForce oracleHit 1 fresh restSim =
        Outcome.ok (a2, s2, false) ∧
      ¬ ([stencil0] = ([] : List VertexFaceStencil) ∧ ([] : List EdgeEdgeStencil) = [])) := by
  have h1 := converged_iff_none_confirmed Real.sqrt noForce oracleClear 1 fresh _ emptySim _ true
    (runOneIteration_fresh_clear Real.sqrt noForce emptySim) [] [] 1 rfl
  have h2 := converged_iff_none_confirmed Real.sqrt noForce oracleHit 1 fresh _ restSim _ false
    (runOneIteration_fresh_hit Real.sqrt noForce restSim) [stencil0] [] (1 / 2) rfl
  exact ⟨⟨_, _, runOneIteration_fresh_clear Real.sqrt noForce emptySim, (h1.2 rfl).2.2.1,
      (h1.2 rfl).2.2.2.1⟩,
    ⟨_, _, runOneIteration_fresh_hit Real.sqrt noForce restSim,
      fun hc => Bool.noConfusion (h2.1.mpr hc)⟩⟩

/-- Counterexample to C3 as stated: in the second outer iteration (orchestrator
`afterHit`, stored `earliestTime_ = 1/2`), with a force law that reports a
contribution, `runOneIteration` exits in its first call of `step`, although
the earliest collision time that collision detection returns against
`oracleClear` is `1`, not below the stored `earliestTime_`. -/
theorem runOneIteration_exits_inside_step :
    Reachable Real.sqrt (afterHit Real.sqrt) ∧
    (∀ fuel, runOneIteration Real.sqrt touchForce oracleClear (fuel + 1) (afterHit Real.sqrt)
      restSim = Outcome.abort) ∧
    (∀ (etavfs : List (VertexFaceStencil × ℝ)) (etaees : List (EdgeEdgeStencil × ℝ)),
      (oracleClear : CollisionOracle ℝ).findCollisions etavfs etaees 1 = ([], [], 1)) ∧
    (∀ a1 : State ℝ, confirmedTime oracleClear a1 = 1) ∧
    (afterHit Real.sqrt).earliestTime_ = 1 / 2 ∧
    ¬ ((1 : ℝ) < (afterHit Real.sqrt).earliestTime_) := by
  refine ⟨afterHit_reachable _, fun fuel => ?_, fun _ _ => rfl,
    fun a1 => (confirmed_oracleClear a1).2.2, (afterHit_times _).2, ?_⟩
  · rw [runOneIteration_abort]
    left
    simp only [microIntegrate, step_afterHit_touch]
  · rw [(afterHit_times _).2]
    norm_num

/-- C3, amended. `runOneIteration` exits in two ways only.  A call of `step`
of its micro-integration loop may exit, and then so does `runOneIteration`.
Once the loop has completed (it leaves `earliestTime_` alone), the call exits
exactly when the earliest collision time `t` that the narrow phase returns is
strictly below the stored `earliestTime_`; otherwise the call completes and
stores `earliestTime_ := t`.  Hence along any chain of completed outer
iterations the stored earliest collision time is non-decreasing. -/
theorem earliest_time_guard (sqrt : K → K)
    (addForce : PenaltyGroup K → List K → List K → List K → Bool × List K)
    (o : CollisionOracle K) (a : State K) (s : SimulationState K) :
    (∀ a1 s1, LoopReach addForce a s a1 s1 → step addForce a1 s1 = StepResult.abort →
      ∃ n, ∀ fuel, n ≤ fuel →
        runOneIteration sqrt addForce o fuel a s = Outcome.abort) ∧
    (∀ fuel a1 s1 vfs ees t, microIntegrate addForce fuel a s = Outcome.ok (a1, s1) →
      o.findCollisions
        ((o.findCollisionCandidates a.outerEta_).1.map
          fun st => (st, layerDepth a (vfDepth a st + 1)))
        ((o.findCollisionCandidates a.outerEta_).2.map
          fun st => (st, layerDepth a (eeDepth a st + 1))) 1 = (vfs, ees, t) →
      a1.earliestTime_ = a.earliestTime_ ∧
      (runOneIteration sqrt addForce o fuel a s = Outcome.abort ↔ t < a.earliestTime_) ∧
      (¬ t < a.earliestTime_ →
        ∃ a2 conv, runOneIteration sqrt addForce o fuel a s = Outcome.ok (a2, s1, conv) ∧
          a2.earliestTime_ = t)) ∧
    (∀ fuel, runOneIteration sqrt addForce o fuel a s = Outcome.abort →
      (∃ a1 s1, LoopReach addForce a s a1 s1 ∧ step addForce a1 s1 = StepResult.abort) ∨
      ∃ a1 s1 vfs ees t, microIntegrate addForce fuel a s = Outcome.ok (a1, s1) ∧
        o.findCollisions
          ((o.findCollisionCandidates a.outerEta_).1.map
            fun st => (st, layerDepth a (vfDepth a st + 1)))
          ((o.findCollisionCandidates a.outerEta_).2.map
            fun st => (st, layerDepth a (eeDepth a st + 1))) 1 = (vfs, ees, t) ∧
        t < a.earliestTime_) ∧
    (∀ l : List (State K), l.Chain' (IterStep sqrt) →
      l.Pairwise (fun x y => x.earliestTime_ ≤ y.earliestTime_)) := by
  refine ⟨?_, ?_, ?_, ?_⟩
  · intro a1 s1 hr hs
    obtain ⟨n, hn⟩ := microIntegrate_of_step_abort addForce a a1 s s1 hr hs
    refine ⟨n, fun fuel hle => ?_⟩
    rw [runOneIteration_abort]
    exact Or.inl (hn fuel hle)
  · intro fuel a1 s1 vfs ees t hm hnp
    have ht : confirmedTime o a = t := by
      unfold confirmedTime collisionDetection
      simp only [VFStencilThickness_eq, EEStencilThickness_eq, hnp]
    have hf := microIntegrate_frame addForce fuel a a1 s s1 hm
    refine ⟨hf.2.2.2.1, ?_, ?_⟩
    · rw [runOneIteration_abort, ht]
      constructor
      · rintro (h | ⟨r, _, hlt⟩)
        · rw [hm] at h
          cases h
        · exact hlt
      · intro hlt
        exact Or.inr ⟨(a1, s1), hm, hlt⟩
    · intro hlt
      rw [← ht] at hlt
      have h := runOneIteration_of_loop sqrt addForce o fuel a a1 s s1 hm hlt
      refine ⟨_, _, h, ?_⟩
      rw [(runOneIteration_earliestTime sqrt addForce o fuel a _ s s1 _ h).1, ht]
  · intro fuel h
    rw [runOneIteration_abort] at h
    rcases h with h | ⟨r, hm, hlt⟩
    · exact Or.inl (microIntegrate_abort addForce fuel a s h)
    · refine Or.inr ⟨r.1, r.2, (confirmedVF o a), (confirmedEE o a), (confirmedTime o a), hm, ?_,
        hlt⟩
      unfold confirmedVF confirmedEE confirmedTime collisionDetection
      simp only [VFStencilThickness_eq, EEStencilThickness_eq]
  · intro l hl
    have hmono : l.Chain' (fun x y : State K => x.earliestTime_ ≤ y.earliestTime_) := by
      refine List.Chain'.imp ?_ hl
      rintro x y ⟨af, o2, fuel2, t, t1, conv, hr⟩
      obtain ⟨h1, h2⟩ := runOneIteration_earliestTime sqrt af o2 fuel2 x y t t1 conv hr
      rw [h1]
      exact h2
    haveI : IsTrans (State K) (fun x y => x.earliestTime_ ≤ y.earliestTime_) :=
      ⟨fun _ _ _ h1 h2 => le_trans h1 h2⟩
    exact List.chain'_iff_pairwise.mp hmono

/-- Witness for the amended C3: after a first iteration in which collision
detection found nothing (stored `earliestTime_ = 1`), an iteration whose narrow
phase returns `t = 1/2` exits; on a fresh orchestrator (stored
`earliestTime_ = 0`) the same answer is stored. -/
theorem earliest_time_guard_witness :
    runOneIteration Real.sqrt noForce oracleClear 1 (fresh : State ℝ) emptySim =
      Outcome.ok (rollback { (fresh : State ℝ) with earliestTime_ := 1 },
        finishAll (1 : ℝ) emptySim, true) ∧
    runOneIteration Real.sqrt noForce oracleHit 1
      (rollback { (fresh : State ℝ) with earliestTime_ := 1 }) emptySim = Outcome.abort ∧
    (∃ a2 conv, runOneIteration Real.sqrt noForce oracleHit 1 (fresh : State ℝ) emptySim =
      Outcome.ok (a2, finishAll (1 : ℝ) emptySim, conv) ∧ a2.earliestTime_ = 1 / 2) := by
  refine ⟨runOneIteration_fresh_clear Real.sqrt noForce emptySim, ?_, ?_⟩
  · refine ((earliest_time_guard Real.sqrt noForce oracleHit
      (rollback { (fresh : State ℝ) with earliestTime_ := 1 }) emptySim).2.1 1 _ _
      [stencil0] [] (1 / 2) (microIntegrate_cleared noForce emptySim) rfl).2.1.mpr ?_
    show (1 / 2 : ℝ) < 1
    norm_num
  · refine ((earliest_time_guard Real.sqrt noForce oracleHit (fresh : State ℝ) emptySim).2.1 1 _ _
      [stencil0] [] (1 / 2) (microIntegrate_fresh noForce emptySim) rfl).2.2 ?_
    show ¬ (1 / 2 : ℝ) < 0
    norm_num

/-- Counterexample to C4 as stated: in the first `step` of the second outer
iteration (orchestrator `afterHit`, stored `earliestTime_ = 1/2`) layer 1 is on
top of the queue with fire time `0`, below the horizon `1` and strictly earlier
than `earliestTime_`; its force law reports no contribution, and the call does
not exit. -/
theorem step_before_earliestTime_not_abort :
    queueTop (afterHit Real.sqrt).groups_ (afterHit Real.sqrt).groupQueue_ = some 0 ∧
    (afterHit Real.sqrt).groups_[0]? = some (hitGroup Real.sqrt 1) ∧
    (hitGroup Real.sqrt 1).nextFireTime < (afterHit Real.sqrt).termTime_ ∧
    (hitGroup Real.sqrt 1).nextFireTime < (afterHit Real.sqrt).earliestTime_ ∧
    step noForce (afterHit Real.sqrt) restSim ≠ StepResult.abort := by
  refine ⟨afterHit_top _, afterHit_group0 _, ?_, ?_, ?_⟩
  · rw [hitGroup_nextFireTime, (afterHit_times _).1]
    norm_num
  · rw [hitGroup_nextFireTime, (afterHit_times _).2]
    norm_num
  · rw [step_afterHit]
    intro h
    cases h

/-- C4, amended. In a firing event of `step` (the group on top of the queue
has fire time below `termTime_`) the run is aborted if and only if the group's
`addForce` reported a contribution and the fire time is strictly earlier than
the stored `earliestTime_`. -/
theorem step_abort_iff_touched_early
    (addForce : PenaltyGroup K → List K → List K → List K → Bool × List K)
    (a : State K) (s : SimulationState K) (gi : Nat) (group : PenaltyGroup K)
    (hq : queueTop a.groups_ a.groupQueue_ = some gi) (hg : a.groups_[gi]? = some group)
    (hlt : group.nextFireTime < a.termTime_) :
    step addForce a s = StepResult.abort ↔
      ((forceOf addForce s group).1 = true ∧ group.nextFireTime < a.earliestTime_) := by
  unfold step
  simp only [hq, hg, if_pos hlt]
  by_cases hab : (forceOf addForce s group).1 = true ∧ group.nextFireTime < a.earliestTime_
  · simp [hab]
  · simp only [hab, iff_false]
    intro h
    split at h
    · rename_i hc
      apply hab
      simpa using hc
    · cases h

/-- Witness for the amended C4: the same event as in the counterexample, with
a force law that reports a contribution, exits. -/
theorem step_abort_iff_touched_early_witness :
    queueTop (afterHit Real.sqrt).groups_ (afterHit Real.sqrt).groupQueue_ = some 0 ∧
    (afterHit Real.sqrt).groups_[0]? = some (hitGroup Real.sqrt 1) ∧
    (hitGroup Real.sqrt 1).nextFireTime < (afterHit Real.sqrt).termTime_ ∧
    step touchForce (afterHit Real.sqrt) restSim = StepResult.abort := by
  have hlt : (hitGroup Real.sqrt 1).nextFireTime < (afterHit Real.sqrt).termTime_ := by
    rw [hitGroup_nextFireTime, (afterHit_times _).1]
    norm_num
  refine ⟨afterHit_top _, afterHit_group0 _, hlt, ?_⟩
  rw [step_abort_iff_touched_early touchForce (afterHit Real.sqrt) restSim 0
    (hitGroup Real.sqrt 1) (afterHit_top _) (afterHit_group0 _) hlt]
  refine ⟨forceOf_touchForce _ _, ?_⟩
  rw [hitGroup_nextFireTime, (afterHit_times _).2]
  norm_num

/-- C5. When `step` returns `true` (the queue is empty, or the earliest fire
time is at or beyond `termTime_`), then in a state of `3 * nverts` degrees of
freedom every DOF `i` has `lastUpdateTime[i] = termTime_`, `q[i]` is its
previous value plus `(termTime_ - previous lastUpdateTime[i]) * v[i]`, and `v`
is unchanged; so when the micro-integration loop has ended every DOF's
`lastUpdateTime` is the horizon. -/
theorem step_done_reaches_horizon
    (addForce : PenaltyGroup K → List K → List K → List K → Bool × List K) :
    (∀ (a a1 : State K) (s s1 : SimulationState K),
      step addForce a s = StepResult.done a1 s1 →
      3 ∣ s.q.length → s.lastUpdateTime.length = s.q.length →
      (queueTop a.groups_ a.groupQueue_ = none ∨
        ∃ gi group, queueTop a.groups_ a.groupQueue_ = some gi ∧
          a.groups_[gi]? = some group ∧ a.termTime_ ≤ group.nextFireTime) ∧
      s1.v = s.v ∧ s1.q.length = s.q.length ∧ s1.lastUpdateTime.length = s.q.length ∧
      ∀ i, i < s.q.length →
        s1.lastUpdateTime[i]? = some a.termTime_ ∧
        s1.q[i]? = some (rd s.q i + (a.termTime_ - rd s.lastUpdateTime i) * rd s.v i)) ∧
    (∀ (fuel : Nat) (a a1 : State K) (s s1 : SimulationState K),
      microIntegrate addForce fuel a s = Outcome.ok (a1, s1) →
      3 ∣ s.q.length → s.lastUpdateTime.length = s.q.length →
      s1.lastUpdateTime.length = s.q.length ∧
      ∀ i, i < s.q.length → s1.lastUpdateTime[i]? = some a.termTime_) := by
  constructor
  · intro a a1 s s1 h h3 hl
    obtain ⟨_, hs, hcase⟩ := step_done addForce a a1 s s1 h
    obtain ⟨hv, _, hq, hlen, hi⟩ := finishAll_spec a.termTime_ s h3 hl
    rw [hs]
    exact ⟨hcase, hv, hq, hlen, hi⟩
  · intro fuel a a1 s s1 h h3 hl
    obtain ⟨a0, s0, ⟨hf, hq0, hl0⟩, hd⟩ := microIntegrate_ok addForce
      (fun b t => StepFrame a b ∧ t.q.length = s.q.length ∧
        t.lastUpdateTime.length = s.q.length)
      (fun b t b1 t1 hb hs => by
        obtain ⟨h1, h2, _, _⟩ := step_fired_lengths addForce b b1 t t1 hs
        exact ⟨stepFrame_trans hb.1 (step_fired_frame addForce b b1 t t1 hs),
          h1.trans hb.2.1, h2.trans hb.2.2⟩)
      fuel a s (a1, s1) ⟨stepFrame_refl a, rfl, hl⟩ h
    obtain ⟨_, hs, _⟩ := step_done addForce a0 a1 s0 s1 hd
    obtain ⟨_, _, _, hlen, hi⟩ := finishAll_spec a0.termTime_ s0 (by rw [hq0]; exact h3)
      (by rw [hl0, hq0])
    rw [hs, hf.1.2.2.2.2.1]
    rw [hq0] at hlen hi
    rw [hf.1.2.2.2.2.1] at hlen hi
    exact ⟨hlen, fun i hlt => (hi i hlt).1⟩

/-- Witness for C5: `step` on a fresh orchestrator and four vertices at rest
returns `true` and leaves DOF 0 at the horizon `1`. -/
theorem step_done_reaches_horizon_witness :
    step noForce (fresh : State ℝ) restSim = StepResult.done fresh (finishAll 1 restSim) ∧
    3 ∣ (restSim : SimulationState ℝ).q.length ∧
    (finishAll (1 : ℝ) restSim).lastUpdateTime[0]? = some (fresh : State ℝ).termTime_ := by
  have h3 : 3 ∣ (restSim : SimulationState ℝ).q.length := by
    rw [restSim_lengths.1]
    decide
  have hl : (restSim : SimulationState ℝ).lastUpdateTime.length =
      (restSim : SimulationState ℝ).q.length := by
    rw [restSim_lengths.1, restSim_lengths.2]
  refine ⟨step_fresh noForce restSim, h3, ?_⟩
  exact (((step_done_reaches_horizon noForce).1 fresh fresh restSim _
    (step_fresh noForce restSim) h3 hl).2.2.2.2 0 (by rw [restSim_lengths.1]; decide)).1

/-- C6. In a micro-integration loop started with all group clocks at zero,
every group `dt > 0`, every DOF's `lastUpdateTime ≤ 0` and `termTime_ ≥ 0`:
at every state of the loop no `lastUpdateTime` exceeds the horizon, and every
call of `step` from it (a firing event or the final extrapolation) leaves each
DOF's `lastUpdateTime` at least as large as before and at most the horizon. -/
theorem lastUpdateTime_monotone_in_loop
    (addForce : PenaltyGroup K → List K → List K → List K → Bool × List K)
    (a0 : State K) (s0 : SimulationState K)
    (hclock : ∀ g ∈ a0.groups_, g.nextstep_ = 0) (hdt : ∀ g ∈ a0.groups_, 0 < g.dt_)
    (hlut : ∀ i, i < s0.lastUpdateTime.length → rd s0.lastUpdateTime i ≤ 0)
    (hT : 0 ≤ a0.termTime_) (a : State K) (s : SimulationState K)
    (hr : LoopReach addForce a0 s0 a s) :
    (∀ i, i < s.lastUpdateTime.length → rd s.lastUpdateTime i ≤ a0.termTime_) ∧
    (∀ a1 s1, step addForce a s = StepResult.fired a1 s1 ∨
        step addForce a s = StepResult.done a1 s1 →
      s1.lastUpdateTime.length = s.lastUpdateTime.length ∧
      ∀ i, i < s.lastUpdateTime.length →
        rd s.lastUpdateTime i ≤ rd s1.lastUpdateTime i ∧
        rd s1.lastUpdateTime i ≤ a0.termTime_) := by
  obtain ⟨hinv, hterm⟩ := loopInv_reach addForce a0 a s0 s
    (loopInv_start a0 s0 hclock hdt hlut hT) hr
  have hle : ∀ i, i < s.lastUpdateTime.length → rd s.lastUpdateTime i ≤ a0.termTime_ := by
    intro i hi
    rw [← hterm]
    exact hinv.2.1 i hi
  refine ⟨hle, ?_⟩
  rintro a1 s1 (hs | hs)
  · obtain ⟨_, _, hl, hi⟩ := loopInv_fired addForce a a1 s s1 hs hinv
    rw [hterm] at hi
    exact ⟨hl, hi⟩
  · obtain ⟨_, hs1, _⟩ := step_done addForce a a1 s s1 hs
    obtain ⟨hl, hi⟩ := finishAll_lastUpdateTime a.termTime_ s
    rw [hs1]
    refine ⟨hl, fun i hlen => ?_⟩
    rcases hi i with h | h
    · rw [h]
      exact ⟨le_refl _, hle i hlen⟩
    · rw [h, hterm]
      exact ⟨hle i hlen, le_refl _⟩

/-- Witness for C6: the loop of the second outer iteration (orchestrator
`afterHit`, four vertices at rest); its first firing event does not lower the
`lastUpdateTime` of DOF 0. -/
theorem lastUpdateTime_monotone_in_loop_witness :
    (∀ g ∈ (afterHit Real.sqrt).groups_, g.nextstep_ = 0) ∧
    (∀ g ∈ (afterHit Real.sqrt).groups_, 0 < g.dt_) ∧
    (∀ i, i < (restSim : SimulationState ℝ).lastUpdateTime.length →
      rd (restSim : SimulationState ℝ).lastUpdateTime i ≤ 0) ∧
    0 ≤ (afterHit Real.sqrt).termTime_ ∧
    ∃ a1 s1, step noForce (afterHit Real.sqrt) restSim = StepResult.fired a1 s1 ∧
      rd (restSim : SimulationState ℝ).lastUpdateTime 0 ≤ rd s1.lastUpdateTime 0 ∧
      rd s1.lastUpdateTime 0 ≤ (afterHit Real.sqrt).termTime_ := by
  have hlut : ∀ i, i < (restSim : SimulationState ℝ).lastUpdateTime.length →
      rd (restSim : SimulationState ℝ).lastUpdateTime i ≤ 0 :=
    fun i _ => (restSim_lastUpdateTime i).le
  have hT : 0 ≤ (afterHit Real.sqrt).termTime_ := by
    rw [(afterHit_times _).1]
    norm_num
  have h := (lastUpdateTime_monotone_in_loop noForce (afterHit Real.sqrt) restSim
    (afterHit_clocks _) afterHit_dt_pos hlut hT _ _ LoopReach.start).2 _ _
    (Or.inl (step_afterHit Real.sqrt restSim))
  exact ⟨afterHit_clocks _, afterHit_dt_pos, hlut, hT, _, _, step_afterHit Real.sqrt restSim,
    h.2 0 (by rw [restSim_lengths.2]; decide)⟩

/-- Counterexample to C7 as stated: a first outer iteration on four vertices
at rest ends with `lastUpdateTime = 1` (the horizon) at DOF 0 and confirms
`stencil0`; passed the same simulation state, the first firing event of the
following iteration (layer 1 at fire time `0`) sets `lastUpdateTime` of DOF 0
back to `0`. -/
theorem lastUpdateTime_drops_after_iteration :
    ∃ s1 a2 s2,
      runOneIteration Real.sqrt noForce oracleHit 1 (fresh : State ℝ) restSim =
        Outcome.ok (afterHit Real.sqrt, s1, false) ∧
      step noForce (afterHit Real.sqrt) s1 = StepResult.fired a2 s2 ∧
      rd s1.lastUpdateTime 0 = 1 ∧ rd s2.lastUpdateTime 0 = 0 := by
  refine ⟨_, _, _, runOneIteration_fresh_hit Real.sqrt noForce restSim,
    step_afterHit Real.sqrt _, (finishAll_restSim 0 (by decide)).2, ?_⟩
  obtain ⟨_, _, _, _, hi⟩ := commit_fold
    (predictAll (finishAll (1 : ℝ) restSim) (hitGroup Real.sqrt 1)).1
    (forceOf noForce (finishAll (1 : ℝ) restSim) (hitGroup Real.sqrt 1)).2
    (hitGroup Real.sqrt 1).nextFireTime _
    (getGroupStencil_dofs_nodup (hitGroup Real.sqrt 1)) (finishAll (1 : ℝ) restSim)
  have h := (hi 0).1
  rw [if_pos ⟨hitGroup_dof0 Real.sqrt, by rw [(finishAll_restSim 0 (by decide)).1]; decide⟩] at h
  unfold commitAll
  rw [h]
  exact hitGroup_nextFireTime Real.sqrt 1

/-- C7, amended. Over any sequence of completed `runOneIteration` calls
passing on one simulation state whose `lastUpdateTime` starts at or below the
horizon, and at every state of the micro-integration loop of the next call:
no DOF's `lastUpdateTime` exceeds the horizon; the final extrapolation never
lowers it; a firing event fires the group on top of the queue, sets
`lastUpdateTime` to that group's fire time (below the horizon) for the DOFs of
the group's vertices and leaves it unchanged for all others. -/
theorem lastUpdateTime_across_run (sqrt : K → K)
    (addForce : PenaltyGroup K → List K → List K → List K → Bool × List K)
    (a0 : State K) (s0 : SimulationState K)
    (hb : ∀ i, i < s0.lastUpdateTime.length → rd s0.lastUpdateTime i ≤ a0.termTime_)
    (a : State K) (s : SimulationState K) (hr : RunReach sqrt addForce a0 s0 a s)
    (a1 : State K) (s1 : SimulationState K) (hl : LoopReach addForce a s a1 s1) :
    (∀ i, i < s1.lastUpdateTime.length → rd s1.lastUpdateTime i ≤ a0.termTime_) ∧
    (∀ a2 s2, step addForce a1 s1 = StepResult.done a2 s2 →
      ∀ i, i < s1.lastUpdateTime.length →
        rd s1.lastUpdateTime i ≤ rd s2.lastUpdateTime i ∧
        rd s2.lastUpdateTime i ≤ a0.termTime_) ∧
    (∀ a2 s2, step addForce a1 s1 = StepResult.fired a2 s2 →
      ∃ gi group, queueTop a1.groups_ a1.groupQueue_ = some gi ∧
        a1.groups_[gi]? = some group ∧ group.nextFireTime < a0.termTime_ ∧
        s2.lastUpdateTime.length = s1.lastUpdateTime.length ∧
        ∀ i, i < s1.lastUpdateTime.length →
          (i / 3 ∈ group.getGroupStencil →
            rd s2.lastUpdateTime i = group.nextFireTime) ∧
          (i / 3 ∉ group.getGroupStencil →
            rd s2.lastUpdateTime i = rd s1.lastUpdateTime i)) := by
  obtain ⟨ht, hbs⟩ := bounded_run sqrt addForce a0 a s0 s hb hr
  obtain ⟨ht1, hb1⟩ := bounded_loop addForce a a1 s s1 (by rw [ht]; exact hbs) hl
  rw [ht] at ht1 hb1
  refine ⟨hb1, ?_, ?_⟩
  · intro a2 s2 hs i hlen
    have := (bounded_done addForce a1 a2 s1 s2 hs (by rw [ht1]; exact hb1)).2.2 i hlen
    rw [ht1] at this
    exact this
  · intro a2 s2 hs
    obtain ⟨gi, group, hq, hg, hlt, _, hlen2, hi⟩ :=
      step_fired_lastUpdateTime addForce a1 a2 s1 s2 hs
    rw [ht1] at hlt
    refine ⟨gi, group, hq, hg, hlt, hlen2, fun i hlen => ⟨fun hm => ?_, fun hm => ?_⟩⟩
    · rw [hi i, if_pos ⟨(stencilDofs_mem _ i).mpr hm, hlen⟩]
    · rw [hi i, if_neg (fun h => hm ((stencilDofs_mem _ i).mp h.1))]

/-- Witness for the amended C7: the run that starts on a fresh orchestrator
with four vertices at rest and has completed one outer iteration; the first
firing event of the next iteration fires layer 1 and sets `lastUpdateTime` of
DOF 0 to the fire time `0`. -/
theorem lastUpdateTime_across_run_witness :
    (∀ i, i < (restSim : SimulationState ℝ).lastUpdateTime.length →
      rd (restSim : SimulationState ℝ).lastUpdateTime i ≤ (fresh : State ℝ).termTime_) ∧
    RunReach Real.sqrt noForce (fresh : State ℝ) restSim (afterHit Real.sqrt)
      (finishAll 1 restSim) ∧
    (∀ i, i < (finishAll (1 : ℝ) restSim).lastUpdateTime.length →
      rd (finishAll (1 : ℝ) restSim).lastUpdateTime i ≤ (fresh : State ℝ).termTime_) ∧
    (∃ a2 s2, step noForce (afterHit Real.sqrt) (finishAll (1 : ℝ) restSim) =
        StepResult.fired a2 s2 ∧
      rd s2.lastUpdateTime 0 = (hitGroup Real.sqrt 1).nextFireTime) := by
  have hb : ∀ i, i < (restSim : SimulationState ℝ).lastUpdateTime.length →
      rd (restSim : SimulationState ℝ).lastUpdateTime i ≤ (fresh : State ℝ).termTime_ := by
    intro i _
    rw [restSim_lastUpdateTime]
    simp [fresh, new]
  have hr : RunReach Real.sqrt noForce (fresh : State ℝ) restSim (afterHit Real.sqrt)
      (finishAll 1 restSim) :=
    RunReach.iteration oracleHit 1 fresh (afterHit Real.sqrt) restSim (finishAll 1 restSim) false
      RunReach.start (runOneIteration_fresh_hit Real.sqrt noForce restSim)
  have h := lastUpdateTime_across_run Real.sqrt noForce fresh restSim hb _ _ hr _ _
    LoopReach.start
  refine ⟨hb, hr, h.1, _, _, step_afterHit Real.sqrt _, ?_⟩
  obtain ⟨gi, group, hq, hg, _, _, hi⟩ := h.2.2 _ _ (step_afterHit Real.sqrt _)
  rw [afterHit_top] at hq
  cases hq
  rw [afterHit_group0] at hg
  cases hg
  exact (hi 0 (by rw [(finishAll_restSim 0 (by decide)).1]; decide)).1
    (hitGroup_dofs Real.sqrt 0 (by decide))

/-- C8. After `ActiveLayers::rollback()` every Penalty Group has
`nextFireTime() = 0`; the depth maps are unchanged; the list of groups is the
old list with every step counter set to zero, so each group keeps its `dt`,
margins, stiffness and registered stencils; and the event queue holds the same
groups as before. -/
theorem rollback_resets_clocks_only (a : State K) :
    (∀ g ∈ (rollback a).groups_, g.nextFireTime = 0) ∧
    (rollback a).vfdepth_ = a.vfdepth_ ∧ (rollback a).eedepth_ = a.eedepth_ ∧
    (rollback a).groups_ = a.groups_.map (fun g => { g with nextstep_ := 0 }) ∧
    (rollback a).groups_.length = a.groups_.length ∧
    (∀ (i : Nat) (g : PenaltyGroup K), a.groups_[i]? = some g →
      ∃ g1 : PenaltyGroup K, (rollback a).groups_[i]? = some g1 ∧
      g1.dt_ = g.dt_ ∧ g1.eta_ = g.eta_ ∧ g1.innerEta_ = g.innerEta_ ∧
      g1.stiffness_ = g.stiffness_ ∧ g1.CoR_ = g.CoR_ ∧
      g1.vfforces_ = g.vfforces_ ∧ g1.eeforces_ = g.eeforces_) ∧
    (rollback a).groupQueue_.Perm a.groupQueue_ ∧
    (∀ gi, gi ∈ (rollback a).groupQueue_ ↔ gi ∈ a.groupQueue_) := by
  have hq : (rollback a).groupQueue_.Perm a.groupQueue_ := by
    have h := drainQueue_perm (a.groups_.map PenaltyGroup.rollback) a.groupQueue_.length
      a.groupQueue_ [] (le_refl _)
    simpa [rollback] using h
  refine ⟨?_, rfl, rfl, rfl, ?_, ?_, hq, fun gi => hq.mem_iff⟩
  · intro g hg
    simp only [rollback, List.mem_map] at hg
    obtain ⟨g0, _, rfl⟩ := hg
    exact nextFireTime_rollback g0
  · simp [rollback]
  · intro i g hg
    refine ⟨g.rollback, ?_, rfl, rfl, rfl, rfl, rfl, rfl, rfl⟩
    simp [rollback, hg]

/-- C9. The layering invariant `LayerInv` holds for a newly constructed
orchestrator and is kept by `addVFStencil`, `addEEStencil`, `addGroups`, `step`,
`rollback` and `runOneIteration`, so it holds in every reachable state; and
under it, for every stencil `s` and every layer index `d ≥ 1`, the group of
depth `d` (`groups_[d-1]`) holds a force potential for `s` if and only if
`d ≤ depth(s)`, and then holds exactly one. -/
theorem layer_membership_invariant (sqrt : K → K) :
    (∀ outerEta innerEta baseDt baseStiffness terminationTime CoR : K,
      LayerInv (new outerEta innerEta baseDt baseStiffness terminationTime CoR)) ∧
    (∀ a b : State K, Op sqrt a b → LayerInv a → LayerInv b) ∧
    (∀ a : State K, LayerInv a → ∀ d : Nat, 1 ≤ d →
      (∀ st : VertexFaceStencil,
        ((∃ g, a.groups_[d - 1]? = some g ∧ st ∈ g.vfforces_) ↔ d ≤ vfDepth a st) ∧
        (∀ g, a.groups_[d - 1]? = some g → st ∈ g.vfforces_ → g.vfforces_.count st = 1)) ∧
      (∀ st : EdgeEdgeStencil,
        ((∃ g, a.groups_[d - 1]? = some g ∧ st ∈ g.eeforces_) ↔ d ≤ eeDepth a st) ∧
        (∀ g, a.groups_[d - 1]? = some g → st ∈ g.eeforces_ → g.eeforces_.count st = 1))) ∧
    (∀ a : State K, Reachable sqrt a → LayerInv a) := by
  refine ⟨layerInv_new, layerInv_op sqrt, ?_, layerInv_reachable sqrt⟩
  intro a h d hd
  obtain ⟨_, h2, h3⟩ := h
  constructor
  · intro st
    have hc := h2 st (d - 1)
    unfold vfCount at hc
    have hiff : d - 1 < vfDepth a st ↔ d ≤ vfDepth a st := by omega
    constructor
    · constructor
      · rintro ⟨g, hg, hmem⟩
        rw [hg] at hc
        simp only [] at hc
        by_contra hn
        rw [if_neg (fun hlt => hn (hiff.mp hlt))] at hc
        exact (List.count_pos_iff.mpr hmem).ne' hc
      · intro hle
        rw [if_pos (hiff.mpr hle)] at hc
        cases hg : a.groups_[d - 1]? with
        | none =>
          rw [hg] at hc
          cases hc
        | some g =>
          rw [hg] at hc
          simp only [] at hc
          exact ⟨g, rfl, List.count_pos_iff.mp (by omega)⟩
    · intro g hg hmem
      rw [hg] at hc
      simp only [] at hc
      have hpos := List.count_pos_iff.mpr hmem
      rw [hc] at hpos ⊢
      split at hpos
      · rw [if_pos (by assumption)]
      · omega
  · intro st
    have hc := h3 st (d - 1)
    unfold eeCount at hc
    have hiff : d - 1 < eeDepth a st ↔ d ≤ eeDepth a st := by omega
    constructor
    · constructor
      · rintro ⟨g, hg, hmem⟩
        rw [hg] at hc
        simp only [] at hc
        by_contra hn
        rw [if_neg (fun hlt => hn (hiff.mp hlt))] at hc
        exact (List.count_pos_iff.mpr hmem).ne' hc
      · intro hle
        rw [if_pos (hiff.mpr hle)] at hc
        cases hg : a.groups_[d - 1]? with
        | none =>
          rw [hg] at hc
          cases hc
        | some g =>
          rw [hg] at hc
          simp only [] at hc
          exact ⟨g, rfl, List.count_pos_iff.mp (by omega)⟩
    · intro g hg hmem
      rw [hg] at hc
      simp only [] at hc
      have hpos := List.count_pos_iff.mpr hmem
      rw [hc] at hpos ⊢
      split at hpos
      · rw [if_pos (by assumption)]
      · omega

/-- Witness for C9: after the first iteration with a collision on `stencil0`
(depth 5), the group of depth 3 holds a potential for `stencil0`. -/
theorem layer_membership_invariant_witness :
    (1 ≤ 3 ∧ 3 ≤ vfDepth (afterHit Real.sqrt) stencil0) ∧
    ∃ g, (afterHit Real.sqrt).groups_[3 - 1]? = some g ∧ stencil0 ∈ g.vfforces_ := by
  have h5 := afterHit_vfDepth Real.sqrt
  have hinv := (layer_membership_invariant Real.sqrt).2.2.2 _ (afterHit_reachable Real.sqrt)
  have h := (((layer_membership_invariant Real.sqrt).2.2.1 _ hinv 3 (by decide)).1 stencil0).1
  exact ⟨⟨by decide, by rw [h5]; decide⟩, h.mpr (by rw [h5]; decide)⟩

/-- C10. With `outerEta > innerEta`, for every depth `d ≥ 1`:
`layerDepth(d) > layerDepth(d+1) ≥ innerEta`, and `layerDepth(1) = outerEta`
(exact arithmetic in any ordered field, the reals included). -/
theorem layerDepth_strictly_decreasing (a : State K) (h : a.innerEta_ < a.outerEta_)
    (d : Nat) (hd : 1 ≤ d) :
    layerDepth a d > layerDepth a (d + 1) ∧ layerDepth a (d + 1) ≥ a.innerEta_ ∧
    layerDepth a 1 = a.outerEta_ := by
  have hd0 : (0 : K) < d := by exact_mod_cast hd
  have ho : 0 < a.outerEta_ - a.innerEta_ := sub_pos.mpr h
  unfold layerDepth
  refine ⟨?_, ?_, ?_⟩
  · have : (a.outerEta_ - a.innerEta_) / ((d + 1 : Nat) : K) <
        (a.outerEta_ - a.innerEta_) / (d : K) := by
      apply div_lt_div_of_pos_left ho hd0
      push_cast
      linarith
    linarith
  · have : 0 ≤ (a.outerEta_ - a.innerEta_) / ((d + 1 : Nat) : K) := by positivity
    linarith
  · simp

/-- Witness for C10: margins `1 > 0` over the reals, depth `1`. -/
theorem layerDepth_strictly_decreasing_witness :
    (fresh : State ℝ).innerEta_ < (fresh : State ℝ).outerEta_ ∧
    layerDepth (fresh : State ℝ) 1 > layerDepth (fresh : State ℝ) (1 + 1) ∧
    layerDepth (fresh : State ℝ) (1 + 1) ≥ (fresh : State ℝ).innerEta_ ∧
    layerDepth (fresh : State ℝ) 1 = (fresh : State ℝ).outerEta_ :=
  ⟨by simp [fresh, new],
    layerDepth_strictly_decreasing (fresh : State ℝ) (by simp [fresh, new]) 1 (le_refl 1)⟩

/-- C11. Over the reals, with `baseDt > 0`, the time step `addGroups` gives
the layer of depth `d`, `dt(d) = baseDt / d / sqrt(d + 1e-4)`, satisfies
`dt(d) > dt(d+1) > 0` for every depth `d ≥ 1`; it is the `dt_` of the group
that a round of the loop of `addGroups` appends. -/
theorem layerDt_strictly_decreasing (a : State ℝ) (h : 0 < a.baseDt_) (d : Nat) (hd : 1 ≤ d) :
    layerDt Real.sqrt a d > layerDt Real.sqrt a (d + 1) ∧ layerDt Real.sqrt a (d + 1) > 0 ∧
    (addOneGroup Real.sqrt a).groups_ =
      a.groups_ ++ [layerGroup Real.sqrt a (a.deepestLayer_ + 1)] ∧
    (layerGroup Real.sqrt a d).dt_ = layerDt Real.sqrt a d :=
  ⟨layerDt_lt a h d hd, layerDt_pos a h (d + 1) (Nat.le_add_left 1 d), rfl, rfl⟩

/-- Witness for C11: base step `1` over the reals, depth `1`. -/
theorem layerDt_strictly_decreasing_witness :
    0 < (fresh : State ℝ).baseDt_ ∧
    layerDt Real.sqrt (fresh : State ℝ) 1 > layerDt Real.sqrt (fresh : State ℝ) (1 + 1) ∧
    layerDt Real.sqrt (fresh : State ℝ) (1 + 1) > 0 := by
  have hb : 0 < (fresh : State ℝ).baseDt_ := by simp [fresh, new]
  have h := layerDt_strictly_decreasing (fresh : State ℝ) hb 1 (le_refl 1)
  exact ⟨hb, h.1, h.2.1⟩

/-- C12. The stiffness `addGroups` gives the group of depth `d` is
`baseStiffness * d³` for every `d ≥ 1`; so for `baseStiffness ≠ 0`,
`stiffness(d+1) / stiffness(d) = ((d+1)/d)³` (exact arithmetic). -/
theorem layerStiffness_cubic (a : State K) (d : Nat) (hd : 1 ≤ d) :
    layerStiffness a d = a.baseStiffness_ * (d : K) ^ 3 ∧
    (a.baseStiffness_ ≠ 0 →
      layerStiffness a (d + 1) / layerStiffness a d = (((d + 1 : Nat) : K) / (d : K)) ^ 3) ∧
    (∀ sqrt : K → K, (addOneGroup sqrt a).groups_ =
      a.groups_ ++ [layerGroup sqrt a (a.deepestLayer_ + 1)] ∧
      (layerGroup sqrt a d).stiffness_ = layerStiffness a d) := by
  have hd0 : (d : K) ≠ 0 := by
    have : (0 : K) < d := by exact_mod_cast hd
    exact this.ne'
  refine ⟨layerStiffness_eq a d, fun hb => ?_, fun sqrt => ⟨rfl, rfl⟩⟩
  rw [layerStiffness_eq, layerStiffness_eq, div_pow]
  field_simp
  ring

/-- Witness for C12: base stiffness `1` over the reals, depths `1` and `2`. -/
theorem layerStiffness_cubic_witness :
    (fresh : State ℝ).baseStiffness_ ≠ 0 ∧
    layerStiffness (fresh : State ℝ) (1 + 1) / layerStiffness (fresh : State ℝ) 1 =
      (((1 + 1 : Nat) : ℝ) / ((1 : Nat) : ℝ)) ^ 3 := by
  have hb : (fresh : State ℝ).baseStiffness_ ≠ 0 := by simp [fresh, new]
  exact ⟨hb, (layerStiffness_cubic (fresh : State ℝ) 1 (le_refl 1)).2.1 hb⟩

/-- Counterexample to C13 as stated: in the orchestrator after a first iteration
with a collision, the groups of depth 1 and depth 2 carry the time steps
`dt(1)` and `dt(2)` of `addGroups` (with `baseDt = 1 > 0`), both hold step
counter `0`, and their fire times coincide. -/
theorem layers_tie_at_time_zero :
    (afterHit Real.sqrt).groups_[0]? = some (hitGroup Real.sqrt 1) ∧
    (afterHit Real.sqrt).groups_[1]? = some (hitGroup Real.sqrt 2) ∧
    (hitGroup Real.sqrt 1).dt_ = layerDt Real.sqrt (afterHit Real.sqrt) 1 ∧
    (hitGroup Real.sqrt 2).dt_ = layerDt Real.sqrt (afterHit Real.sqrt) 2 ∧
    0 < (afterHit Real.sqrt).baseDt_ ∧
    (hitGroup Real.sqrt 1).nextFireTime = (hitGroup Real.sqrt 2).nextFireTime := by
  refine ⟨afterHit_group0 _, afterHit_group1 _, hitGroup_dt _ 1, hitGroup_dt _ 2, ?_, ?_⟩
  · rw [afterHit_baseDt]
    norm_num
  · rw [hitGroup_nextFireTime, hitGroup_nextFireTime]

/-- C13, amended. Over the reals, with `baseDt > 0`, for two groups of depths
`d1, d2 ≥ 1` carrying the time steps `dt(d) = baseDt / d / sqrt(d + 1e-4)` and
step counters `n1`, `n2`: the fire times `n1·dt(d1)` and `n2·dt(d2)` coincide
if and only if `n1²·d2²·(10⁴·d2+1) = n2²·d1²·(10⁴·d1+1)`.  So they coincide
whenever both counters are `0` (as after construction and after every
rollback); with counters not both `0` they differ whenever
`(10⁴·d1+1)·(10⁴·d2+1)` is not a perfect square; and for distinct depths and
equal positive counters they differ. -/
theorem fire_times_by_counter (a : State ℝ) (h : 0 < a.baseDt_) (d1 d2 : Nat)
    (hd1 : 1 ≤ d1) (hd2 : 1 ≤ d2) (g1 g2 : PenaltyGroup ℝ)
    (hg1 : g1.dt_ = layerDt Real.sqrt a d1) (hg2 : g2.dt_ = layerDt Real.sqrt a d2) :
    (g1.nextFireTime = g2.nextFireTime ↔
      g1.nextstep_ ^ 2 * d2 ^ 2 * (10000 * d2 + 1) =
        g2.nextstep_ ^ 2 * d1 ^ 2 * (10000 * d1 + 1)) ∧
    (g1.nextstep_ = 0 → g2.nextstep_ = 0 → g1.nextFireTime = g2.nextFireTime) ∧
    (g1.nextstep_ ≠ 0 ∨ g2.nextstep_ ≠ 0 →
      ¬ IsSquare ((10000 * d1 + 1) * (10000 * d2 + 1)) →
      g1.nextFireTime ≠ g2.nextFireTime) ∧
    (d1 ≠ d2 → g1.nextstep_ = g2.nextstep_ → 0 < g1.nextstep_ →
      g1.nextFireTime ≠ g2.nextFireTime) := by
  have hiff : g1.nextFireTime = g2.nextFireTime ↔
      g1.nextstep_ ^ 2 * d2 ^ 2 * (10000 * d2 + 1) =
        g2.nextstep_ ^ 2 * d1 ^ 2 * (10000 * d1 + 1) := by
    unfold PenaltyGroup.nextFireTime
    rw [hg1, hg2]
    exact fireTime_tie_iff a h d1 d2 g1.nextstep_ g2.nextstep_ hd1 hd2
  refine ⟨hiff, ?_, ?_, ?_⟩
  · intro h1 h2
    rw [hiff, h1, h2]
    simp
  · intro hn hsq hfire
    exact hsq (tie_key_square _ _ d1 d2 hd1 hd2 hn (hiff.mp hfire))
  · intro hne heq hpos hfire
    rw [hiff, heq] at hfire
    rw [heq] at hpos
    exact hne (depth_key_injective g2.nextstep_ d1 d2 hpos hfire)

/-- Witness for the amended C13: on a fresh orchestrator over the reals, the
layers of depth 1 and 2 tie at step counter `0` and differ at the step counters
`3` and `7`. -/
theorem fire_times_by_counter_witness :
    0 < (fresh : State ℝ).baseDt_ ∧
    ¬ IsSquare ((10000 * 1 + 1) * (10000 * 2 + 1)) ∧
    (layerGroup Real.sqrt (fresh : State ℝ) 1).nextFireTime =
      (layerGroup Real.sqrt (fresh : State ℝ) 2).nextFireTime ∧
    ({ layerGroup Real.sqrt (fresh : State ℝ) 1 with nextstep_ := 3 }).nextFireTime ≠
      ({ layerGroup Real.sqrt (fresh : State ℝ) 2 with nextstep_ := 7 }).nextFireTime := by
  have hb : 0 < (fresh : State ℝ).baseDt_ := by simp [fresh, new]
  have hsq : ¬ IsSquare ((10000 * 1 + 1) * (10000 * 2 + 1)) :=
    not_isSquare_of_between _ 14143 (by decide) (by decide)
  exact ⟨hb, hsq,
    (fire_times_by_counter fresh hb 1 2 (by decide) (by decide)
      (layerGroup Real.sqrt (fresh : State ℝ) 1) (layerGroup Real.sqrt (fresh : State ℝ) 2)
      rfl rfl).2.1 rfl rfl,
    (fire_times_by_counter fresh hb 1 2 (by decide) (by decide)
      { layerGroup Real.sqrt (fresh : State ℝ) 1 with nextstep_ := 3 }
      { layerGroup Real.sqrt (fresh : State ℝ) 2 with nextstep_ := 7 }
      rfl rfl).2.2.1 (Or.inl (by decide)) hsq⟩

/-- C14. Rollback is idempotent: `PenaltyGroup::rollback()` twice equals once,
and `ActiveLayers::rollback()` twice leaves the same groups (step counters
included), fire times, depth maps, `deepestLayer_`, `earliestTime_` and queued
groups as once. -/
theorem rollback_idempotent (a : State K) :
    (∀ g : PenaltyGroup K, g.rollback.rollback = g.rollback) ∧
    (rollback (rollback a)).groups_ = (rollback a).groups_ ∧
    (∀ gi, fireTimeAt (rollback (rollback a)).groups_ gi = fireTimeAt (rollback a).groups_ gi) ∧
    (rollback (rollback a)).vfdepth_ = (rollback a).vfdepth_ ∧
    (rollback (rollback a)).eedepth_ = (rollback a).eedepth_ ∧
    (rollback (rollback a)).deepestLayer_ = (rollback a).deepestLayer_ ∧
    (rollback (rollback a)).earliestTime_ = (rollback a).earliestTime_ ∧
    (rollback (rollback a)).groupQueue_.Perm (rollback a).groupQueue_ ∧
    (∀ gi, gi ∈ (rollback (rollback a)).groupQueue_ ↔ gi ∈ (rollback a).groupQueue_) := by
  have hg := rollback_rollback_groups a
  have hq := rollback_queue_perm (rollback a)
  refine ⟨fun g => rfl, hg, fun gi => by rw [hg], rfl, rfl, rfl, rfl, hq, fun gi => hq.mem_iff⟩

/-- C15. The queue invariant `QueueInv` (the event queue holds every group of
`groups_` exactly once) holds after construction and is kept by every
operation, `addGroups`, `step` and `rollback` among them, so it holds in every
reachable state; and in a firing event of `step` from a state with the
invariant, the group that fires is on top of the queue, its fire time is at
most that of every group of `groups_`, afterwards its step counter is one
larger, every other group is unchanged, and it is in the queue again. -/
theorem queue_holds_every_group (sqrt : K → K) :
    (∀ outerEta innerEta baseDt baseStiffness terminationTime CoR : K,
      QueueInv (new outerEta innerEta baseDt baseStiffness terminationTime CoR)) ∧
    (∀ a b : State K, Op sqrt a b → QueueInv a → QueueInv b) ∧
    (∀ a : State K, Reachable sqrt a → QueueInv a) ∧
    (∀ (addForce : PenaltyGroup K → List K → List K → List K → Bool × List K)
      (a a1 : State K) (s s1 : SimulationState K),
      QueueInv a → step addForce a s = StepResult.fired a1 s1 →
      ∃ gi group, queueTop a.groups_ a.groupQueue_ = some gi ∧
        a.groups_[gi]? = some group ∧
        (∀ g ∈ a.groups_, group.nextFireTime ≤ g.nextFireTime) ∧
        a1.groups_[gi]? = some { group with nextstep_ := group.nextstep_ + 1 } ∧
        (∀ j : Nat, j ≠ gi → a1.groups_[j]? = a.groups_[j]?) ∧
        gi ∈ a1.groupQueue_ ∧ QueueInv a1) := by
  refine ⟨queueInv_new, fun a b hop h => op_layout_induction sqrt QueueInv
    (queueInv_addOneGroup sqrt) queueInv_of_layoutFrame a b hop h, queueInv_reachable sqrt, ?_⟩
  intro addForce a a1 s s1 hq hs
  obtain ⟨gi, group, htop, hg, _, _, ha, _⟩ := step_fired addForce a a1 s s1 hs
  obtain ⟨group2, hg2, hleast⟩ := queueTop_least a hq gi htop
  have heq : group2 = group := Option.some.inj (hg2.symm.trans hg)
  rw [heq] at hleast
  have hlt : gi < a.groups_.length := by
    rcases Nat.lt_or_ge gi a.groups_.length with h | h
    · exact h
    · rw [List.getElem?_eq_none h] at hg
      cases hg
  refine ⟨gi, group, htop, hg, hleast, ?_, ?_, ?_,
    queueInv_of_layoutFrame a a1 (step_fired_layout addForce a a1 s s1 hs) hq⟩
  · rw [ha]
    show (a.groups_.set gi group.incrementTimeStep)[gi]? = _
    rw [List.getElem?_set, if_pos rfl, if_pos hlt]
    rfl
  · intro j hj
    rw [ha]
    show (a.groups_.set gi group.incrementTimeStep)[j]? = _
    rw [List.getElem?_set, if_neg (fun h => hj h.symm)]
  · rw [ha]
    show gi ∈ a.groupQueue_.erase gi ++ [gi]
    simp

/-- Witness for C15: the orchestrator after a first iteration with a collision
has the queue invariant, and so has the state after its first firing event. -/
theorem queue_holds_every_group_witness :
    QueueInv (afterHit Real.sqrt) ∧
    ∃ a1 s1, step noForce (afterHit Real.sqrt) (restSim : SimulationState ℝ) =
        StepResult.fired a1 s1 ∧ QueueInv a1 := by
  have hq := (queue_holds_every_group Real.sqrt).2.2.1 _ (afterHit_reachable Real.sqrt)
  obtain ⟨gi, group, _, _, _, _, _, _, h1⟩ := (queue_holds_every_group Real.sqrt).2.2.2 noForce
    (afterHit Real.sqrt) _ restSim _ hq (step_afterHit Real.sqrt restSim)
  exact ⟨hq, _, _, step_afterHit Real.sqrt restSim, h1⟩

/-- C16. In a firing event of `step` that does not exit, the group on top of
the queue fires at time `t = group.nextFireTime`; with `newq`, `newv` the
buffers handed to the group's `addForce` (for every DOF of the group's
vertices `newq` is the extrapolated position and, where the sub-interval is
not zero, `newv` the displacement divided by it) and `F` the zeroed buffer
after that call: for every DOF `i` of a vertex of the group's stencil vertex
set (inside the vectors), `q'[i] = q[i] + (t - lastUpdateTime[i])·v[i]`,
`v'[i] = v[i] + minv[i]·F[i]` and `lastUpdateTime'[i] = t`; for every DOF of a
vertex outside that set `q`, `v` and `lastUpdateTime` are unchanged; `minv` and
the vector lengths are unchanged. -/
theorem firing_event_updates
    (addForce : PenaltyGroup K → List K → List K → List K → Bool × List K)
    (a a1 : State K) (s s1 : SimulationState K) (h : step addForce a s = StepResult.fired a1 s1) :
    ∃ gi group newq newv,
      queueTop a.groups_ a.groupQueue_ = some gi ∧ a.groups_[gi]? = some group ∧
      group.nextFireTime < a.termTime_ ∧
      (∀ i, i / 3 ∈ group.getGroupStencil → i < s.q.length →
        rd newq i = rd s.q i + (group.nextFireTime - rd s.lastUpdateTime i) * rd s.v i ∧
        (group.nextFireTime - rd s.lastUpdateTime i ≠ 0 →
          rd newv i = (rd newq i - rd s.q i) / (group.nextFireTime - rd s.lastUpdateTime i))) ∧
      ¬ ((addForce group newq newv (List.replicate s.q.length 0)).1 = true ∧
        group.nextFireTime < a.earliestTime_) ∧
      s1.minv = s.minv ∧ s1.q.length = s.q.length ∧ s1.v.length = s.v.length ∧
      s1.lastUpdateTime.length = s.lastUpdateTime.length ∧
      ∀ i,
        (i / 3 ∈ group.getGroupStencil →
          (i < s.q.length →
            rd s1.q i = rd s.q i + (group.nextFireTime - rd s.lastUpdateTime i) * rd s.v i) ∧
          (i < s.v.length →
            rd s1.v i = rd s.v i +
              rd s.minv i * rd (addForce group newq newv (List.replicate s.q.length 0)).2 i) ∧
          (i < s.lastUpdateTime.length → rd s1.lastUpdateTime i = group.nextFireTime)) ∧
        (i / 3 ∉ group.getGroupStencil →
          rd s1.q i = rd s.q i ∧ rd s1.v i = rd s.v i ∧
          rd s1.lastUpdateTime i = rd s.lastUpdateTime i) := by
  obtain ⟨gi, group, hq, hg, hlt, hab, _, hs⟩ := step_fired addForce a a1 s s1 h
  obtain ⟨hm, hql, hvl, hll, hi⟩ := commit_fold (predictAll s group).1
    (forceOf addForce s group).2 group.nextFireTime _ (getGroupStencil_dofs_nodup group) s
  refine ⟨gi, group, (predictAll s group).1, (predictAll s group).2, hq, hg, hlt, ?_, hab,
    ?_, ?_, ?_, ?_, ?_⟩
  · intro i hmem hlen
    have hd : i ∈ stencilDofs group.getGroupStencil := (stencilDofs_mem _ i).mpr hmem
    exact ⟨predictAll_newq s group i hd hlen, fun _ => predictAll_newv s group i hd hlen⟩
  · rw [hs]; exact hm
  · rw [hs]; exact hql
  · rw [hs]; exact hvl
  · rw [hs]; exact hll
  · intro i
    obtain ⟨h1, h2, h3⟩ := hi i
    rw [hs]
    unfold commitAll
    constructor
    · intro hmem
      have hd : i ∈ stencilDofs group.getGroupStencil := (stencilDofs_mem _ i).mpr hmem
      refine ⟨fun hlt => ?_, fun hlt => ?_, fun hlt => ?_⟩
      · rw [h2, if_pos ⟨hd, hlt⟩]
        exact predictAll_newq s group i hd hlt
      · rw [h3, if_pos ⟨hd, hlt⟩]
        rfl
      · rw [h1, if_pos ⟨hd, hlt⟩]
    · intro hmem
      have hd : ¬ i ∈ stencilDofs group.getGroupStencil :=
        fun hd => hmem ((stencilDofs_mem _ i).mp hd)
      rw [h1, h2, h3, if_neg (fun hc => hd hc.1), if_neg (fun hc => hd hc.1),
        if_neg (fun hc => hd hc.1)]
      exact ⟨rfl, rfl, rfl⟩

/-- Witness for C16: the first firing event after `addVFStencil(stencil0)` on
a fresh orchestrator, four vertices moving with unit velocity since time `-1`,
a force law that pushes DOF 0 with force `2`: DOF 0 moves to `1` and gains
velocity `1/2 · 2`, DOF 1 keeps its velocity, both are updated at time `0`. -/
theorem firing_event_updates_witness :
    ∃ a1 s1, step pushForce (firstHit Real.sqrt) (movingSim : SimulationState ℝ) =
        StepResult.fired a1 s1 ∧
      rd s1.q 0 = 1 ∧ rd s1.v 0 = 2 ∧ rd s1.v 1 = 1 ∧ rd s1.lastUpdateTime 0 = 0 ∧
      s1.minv = (movingSim : SimulationState ℝ).minv := by
  obtain ⟨gi, group, newq, newv, hq, hg, _, _, _, hm, _, _, _, hi⟩ :=
    firing_event_updates pushForce (firstHit Real.sqrt) _ movingSim _
      (step_firstHit pushForce Real.sqrt movingSim)
  rw [firstHit_top] at hq
  cases hq
  rw [firstHit_group0] at hg
  cases hg
  obtain ⟨h0q, h0v, h0l⟩ := (hi 0).1 (hitGroup_dofs Real.sqrt 0 (by decide))
  obtain ⟨_, h1v, _⟩ := (hi 1).1 (hitGroup_dofs Real.sqrt 1 (by decide))
  refine ⟨_, _, step_firstHit pushForce Real.sqrt movingSim, ?_, ?_, ?_, ?_, hm⟩
  · rw [h0q (by simp [movingSim]), hitGroup_nextFireTime]
    simp [movingSim, rd]
  · rw [h0v (by simp [movingSim])]
    simp [movingSim, rd, pushForce]
    norm_num
  · rw [h1v (by simp [movingSim])]
    simp [movingSim, rd, pushForce]
  · rw [h0l (by simp [movingSim]), hitGroup_nextFireTime]

/-- C17. The margin of a stencil is `layerDepth(depth + 1)`, where `depth` is
the recorded depth and an absent entry counts as depth `0`: an absent entry
and an entry `0` both give `layerDepth(1) = outerEta`.  `collisionDetection`
hands the narrow phase each broad-phase candidate paired with this margin.
The lookups are pure functions of the orchestrator state (`find`, unlike
`operator[]`, inserts nothing). -/
theorem stencil_thickness_by_depth (a : State K) :
    (∀ st, VFStencilThickness a st = layerDepth a (vfDepth a st + 1)) ∧
    (∀ st, EEStencilThickness a st = layerDepth a (eeDepth a st + 1)) ∧
    (∀ st, a.vfdepth_ st = none → VFStencilThickness a st = layerDepth a 1) ∧
    (∀ st, a.vfdepth_ st = some 0 → VFStencilThickness a st = layerDepth a 1) ∧
    (∀ st, a.eedepth_ st = none → EEStencilThickness a st = layerDepth a 1) ∧
    (∀ st, a.eedepth_ st = some 0 → EEStencilThickness a st = layerDepth a 1) ∧
    layerDepth a 1 = a.outerEta_ ∧
    (∀ o : CollisionOracle K,
      collisionDetection o a =
        (!(confirmedVF o a).isEmpty || !(confirmedEE o a).isEmpty, confirmedVF o a,
          confirmedEE o a, confirmedTime o a) ∧
      (confirmedVF o a, confirmedEE o a, confirmedTime o a) =
        o.findCollisions
          ((o.findCollisionCandidates a.outerEta_).1.map
            fun st => (st, layerDepth a (vfDepth a st + 1)))
          ((o.findCollisionCandidates a.outerEta_).2.map
            fun st => (st, layerDepth a (eeDepth a st + 1))) 1) := by
  have hvf : ∀ st, VFStencilThickness a st = layerDepth a (vfDepth a st + 1) := by
    intro st
    unfold VFStencilThickness vfDepth
    cases a.vfdepth_ st <;> rfl
  have hee : ∀ st, EEStencilThickness a st = layerDepth a (eeDepth a st + 1) := by
    intro st
    unfold EEStencilThickness eeDepth
    cases a.eedepth_ st <;> rfl
  refine ⟨hvf, hee, ?_, ?_, ?_, ?_, ?_, ?_⟩
  · intro st h
    rw [hvf, vfDepth, h]
    rfl
  · intro st h
    rw [hvf, vfDepth, h]
    rfl
  · intro st h
    rw [hee, eeDepth, h]
    rfl
  · intro st h
    rw [hee, eeDepth, h]
    rfl
  · simp [layerDepth]
  · intro o
    refine ⟨rfl, ?_⟩
    unfold confirmedVF confirmedEE confirmedTime collisionDetection
    simp only [hvf, hee]

section TerminationClaim

variable [FloorRing K]

/-- C18. For an orchestrator whose queue holds every group exactly once, with
all `dt > 0` and all clocks at zero, every horizon and every simulation state:
the loop `while(!step(s));` ends within `firingsLeft + 1` calls of `step`,
either by a fatal exit or normally; when it ends normally each group has kept
its `dt` and its step counter `N` satisfies `n < N ↔ n·dt < termTime_`, that
is, the group fired once for each step counter `n ≥ 0` with `n·dt < termTime_`
and for no other; with `termTime_ ≤ 0` or without groups the first call of
`step` ends the loop and nothing fires. -/
theorem micro_integration_terminates
    (addForce : PenaltyGroup K → List K → List K → List K → Bool × List K)
    (a : State K) (s : SimulationState K) (hq : QueueInv a)
    (hdt : ∀ g ∈ a.groups_, 0 < g.dt_) (hclock : ∀ g ∈ a.groups_, g.nextstep_ = 0) :
    (microIntegrate addForce (firingsLeft a + 1) a s = Outcome.abort ∨
      ∃ a1 s1, microIntegrate addForce (firingsLeft a + 1) a s = Outcome.ok (a1, s1) ∧
        a1.groups_.length = a.groups_.length ∧
        ∀ (i : Nat) (g : PenaltyGroup K), a.groups_[i]? = some g →
          ∃ g1, a1.groups_[i]? = some g1 ∧ g1.dt_ = g.dt_ ∧
            ∀ n : Nat, n < g1.nextstep_ ↔ (n : K) * g.dt_ < a.termTime_) ∧
    (a.termTime_ ≤ 0 ∨ a.groups_ = [] →
      microIntegrate addForce 1 a s = Outcome.ok (a, finishAll a.termTime_ s)) := by
  constructor
  · have hle : ∀ g ∈ a.groups_, g.nextstep_ ≤ firingsDue a.termTime_ g := by
      intro g hg
      rw [hclock g hg]
      exact Nat.zero_le _
    rcases microIntegrate_enough_fuel addForce (firingsLeft a) a s hq hdt hle rfl with
      hab | ⟨a1, s1, hok, hfin⟩
    · exact Or.inl hab
    · right
      have hf := microIntegrate_frame addForce _ a a1 s s1 hok
      refine ⟨a1, s1, hok, ?_, ?_⟩
      · have := congrArg List.length hf.2.2.2.2.2
        simpa using this
      · intro i g hg
        obtain ⟨g1, hg1, hroll⟩ := stepFrame_group a a1 hf i g hg
        have hd : g1.dt_ = g.dt_ := by
          show g1.rollback.dt_ = g.rollback.dt_
          rw [hroll]
        refine ⟨g1, hg1, hd, fun n => ?_⟩
        rw [hfin g1 (List.getElem?_mem hg1), lt_firingsDue a.termTime_ g1
          (by rw [hd]; exact hdt g (List.getElem?_mem hg)), hd]
  · intro h
    rw [microIntegrate, step_done_at_once addForce a s hq hclock h]

/-- Witness for C18: the loop of the second outer iteration (orchestrator
`afterHit` over the reals, four vertices at rest) ends within
`firingsLeft + 1` calls of `step`. -/
theorem micro_integration_terminates_witness :
    QueueInv (afterHit Real.sqrt) ∧
    (∀ g ∈ (afterHit Real.sqrt).groups_, 0 < g.dt_) ∧
    (∀ g ∈ (afterHit Real.sqrt).groups_, g.nextstep_ = 0) ∧
    (microIntegrate noForce (firingsLeft (afterHit Real.sqrt) + 1) (afterHit Real.sqrt)
        (restSim : SimulationState ℝ) = Outcome.abort ∨
      ∃ a1 s1, microIntegrate noForce (firingsLeft (afterHit Real.sqrt) + 1)
        (afterHit Real.sqrt) (restSim : SimulationState ℝ) = Outcome.ok (a1, s1) ∧
        a1.groups_.length = (afterHit Real.sqrt).groups_.length) := by
  have hq := queueInv_reachable Real.sqrt _ (afterHit_reachable Real.sqrt)
  refine ⟨hq, afterHit_dt_pos, afterHit_clocks _, ?_⟩
  rcases (micro_integration_terminates noForce (afterHit Real.sqrt) restSim hq afterHit_dt_pos
    (afterHit_clocks _)).1 with h | ⟨a1, s1, h1, h2, _⟩
  · exact Or.inl h
  · exact Or.inr ⟨a1, s1, h1, h2⟩

end TerminationClaim

/-- C19 fails on the code. In the first `step` of the loop of the second outer
iteration, started with `lastUpdateTime = 0` for every DOF and all group
clocks at zero, layer 1 fires at `newtime = 0`; DOF 0 belongs to a vertex of
its stencil set, and the divisor `dt = newtime - lastUpdateTime[0]` of
`newv = (newq - q)/dt` is `0`. -/
theorem first_firing_event_divides_by_zero :
    (∀ i, rd (restSim : SimulationState ℝ).lastUpdateTime i = 0) ∧
    (∀ g ∈ (afterHit Real.sqrt).groups_, g.nextstep_ = 0) ∧
    queueTop (afterHit Real.sqrt).groups_ (afterHit Real.sqrt).groupQueue_ = some 0 ∧
    (afterHit Real.sqrt).groups_[0]? = some (hitGroup Real.sqrt 1) ∧
    (∃ a1 s1, step noForce (afterHit Real.sqrt) (restSim : SimulationState ℝ) =
      StepResult.fired a1 s1) ∧
    0 ∈ stencilDofs (hitGroup Real.sqrt 1).getGroupStencil ∧
    0 < (restSim : SimulationState ℝ).q.length ∧
    (hitGroup Real.sqrt 1).nextFireTime - rd (restSim : SimulationState ℝ).lastUpdateTime 0 = 0 ∧
    (∀ (newtime : ℝ) (nqv : List ℝ × List ℝ) (i : Nat),
      (predictDof (restSim : SimulationState ℝ) newtime nqv i).2 =
        nqv.2.set i
          ((rd (restSim : SimulationState ℝ).q i +
              (newtime - rd (restSim : SimulationState ℝ).lastUpdateTime i) *
                rd (restSim : SimulationState ℝ).v i -
            rd (restSim : SimulationState ℝ).q i) /
            (newtime - rd (restSim : SimulationState ℝ).lastUpdateTime i))) := by
  refine ⟨restSim_lastUpdateTime, afterHit_clocks _, afterHit_top _, afterHit_group0 _,
    ⟨_, _, step_afterHit Real.sqrt restSim⟩, hitGroup_dof0 _, ?_, ?_, fun _ _ _ => rfl⟩
  · rw [restSim_lengths.1]
    decide
  · rw [hitGroup_nextFireTime, restSim_lastUpdateTime]
    norm_num

/-- C20. In every reachable state `deepestLayer_` is the number of groups, the
group at index `i` carries the parameters of depth `i + 1`
(`dt = baseDt/(i+1)/sqrt(i+1+1e-4)`, margin `layerDepth(i+1)`, stiffness
`baseStiffness·(i+1)³`), and every recorded depth is at most `deepestLayer_`;
hence in round `i` of `addVFStencil` / `addEEStencil`, after
`addGroups(olddepth+i+1)`, the index `olddepth+i` is inside `groups_`; and
after the call `deepestLayer_ = max(previous deepestLayer_, olddepth + 5)`. -/
theorem layers_match_depths (sqrt : K → K) (a : State K) (h : Reachable sqrt a) :
    a.deepestLayer_ = a.groups_.length ∧
    (∀ (i : Nat) (g : PenaltyGroup K), a.groups_[i]? = some g →
      g.dt_ = a.baseDt_ / ((i + 1 : Nat) : K) / sqrt (((i + 1 : Nat) : K) + 1 / 10000) ∧
      g.eta_ = layerDepth a (i + 1) ∧
      g.stiffness_ = a.baseStiffness_ * ((i + 1 : Nat) : K) ^ 3) ∧
    (∀ st, vfDepth a st ≤ a.deepestLayer_) ∧ (∀ st, eeDepth a st ≤ a.deepestLayer_) ∧
    (∀ (st : VertexFaceStencil) (i : Nat),
      vfDepth a st + i <
        (addGroups sqrt ((List.range i).foldl (addVFStencilRound sqrt st (vfDepth a st))
          (vfdepthIndex a st).1) (vfDepth a st + i + 1)).groups_.length) ∧
    (∀ (st : EdgeEdgeStencil) (i : Nat),
      eeDepth a st + i <
        (addGroups sqrt ((List.range i).foldl (addEEStencilRound sqrt st (eeDepth a st))
          (eedepthIndex a st).1) (eeDepth a st + i + 1)).groups_.length) ∧
    (∀ st, (addVFStencil sqrt a st).deepestLayer_ = max a.deepestLayer_ (vfDepth a st + 5)) ∧
    (∀ st, (addEEStencil sqrt a st).deepestLayer_ = max a.deepestLayer_ (eeDepth a st + 5)) := by
  have hl := layerInv_reachable sqrt a h
  obtain ⟨hp1, hp2⟩ := paramInv_reachable sqrt a h
  refine ⟨hp1, ?_, layerInv_vfDepth_le a hl, layerInv_eeDepth_le a hl, ?_, ?_,
    addVFStencil_deepest sqrt a, addEEStencil_deepest sqrt a⟩
  · intro i g hg
    obtain ⟨k1, k2, k3⟩ := hp2 i g hg
    exact ⟨k1, k2, k3.trans (layerStiffness_eq a (i + 1))⟩
  · intro st i
    exact addGroups_in_bounds sqrt _ (addVFStencil_rounds sqrt a st hl i).1 _
  · intro st i
    exact addGroups_in_bounds sqrt _ (addEEStencil_rounds sqrt a st hl i).1 _

/-- Witness for C20: the orchestrator after a first iteration with a
collision. -/
theorem layers_match_depths_witness :
    Reachable Real.sqrt (afterHit Real.sqrt) ∧
    (afterHit Real.sqrt).deepestLayer_ = (afterHit Real.sqrt).groups_.length ∧
    vfDepth (afterHit Real.sqrt) stencil0 ≤ (afterHit Real.sqrt).deepestLayer_ :=
  ⟨afterHit_reachable Real.sqrt,
    (layers_match_depths Real.sqrt _ (afterHit_reachable Real.sqrt)).1,
    (layers_match_depths Real.sqrt _ (afterHit_reachable Real.sqrt)).2.2.1 stencil0⟩

end Claims

end ActiveLayers
